import Mathlib

/-!
CoarseETA: a shallow embedding of the online ETA pipeline.

The C++ sources `sources/CoarseETA.cpp`, `sources/ReadZones.cpp` and the two
headers are embedded as Lean functions.

Conventions of the embedding.

* A C++ `double` is a rational (`ℚ`) and comparisons are exact. Where the
  rounding of an arithmetic result decides a branch, in the edge test of
  `Polygon::contains` and in the tolerance test of `FindStat`, the operations
  are those of IEEE 754 binary64 (`Binary64.add`, `sub`, `mul`, `div`): the
  exact result rounded to the nearest double, ties to even, with gradual
  underflow. Elsewhere sums, products and quotients are the exact ones. NaN,
  infinities and overflow are outside the model.
* `int` and `long long` are `Int`; the values met here are far from the
  machine bounds. C++ integer division and remainder truncate, so they are
  `Int.tdiv` and `Int.tmod`.
* A `throw` is `Except.error (Fault.exception what)`. A step whose behaviour
  the C++ standard leaves undefined (an out-of-range `operator[]`) is
  `Fault.undefined`. `Fault.fuel` marks a loop that has not finished within
  the iteration budget handed to it; the budgets used are shown to suffice.
* A file of the spatial ETA directory is the list of the ETA fields of its
  records, in file order; `total` is the number of records.
-/

/-- How a step can fail to produce a value. -/
inductive Fault where
  | exception (what : String)
  | undefined
  | fuel
deriving DecidableEq, Repr

/-- Embedding of `static_cast<int>` of a `double`: the fractional part is dropped, towards
zero. -/
def truncToInt (q : ℚ) : Int := if 0 ≤ q then ⌊q⌋ else -⌊-q⌋

/-! ## The arithmetic of `double` (IEEE 754 binary64) -/

namespace Binary64

/-- Two to the power `e`. -/
def pow2 (e : Int) : ℚ :=
  if 0 ≤ e then ((2 ^ e.toNat : Nat) : ℚ) else 1 / ((2 ^ (-e).toNat : Nat) : ℚ)

/-- The loop of `log2`: the number of halvings of `n` that leave at least 1. -/
def log2Loop : Nat → Nat → Nat
  | 0, _ => 0
  | fuel + 1, n => if n < 2 then 0 else log2Loop fuel (n / 2) + 1

/-- The position of the leading bit of `n`: the floor of its binary
logarithm, 0 for `n = 0`. -/
def log2 (n : Nat) : Nat := log2Loop n n

/-- The binary exponent of a positive rational `a`: the `e` with
`2^e ≤ a < 2^(e+1)`. -/
def exponent (a : ℚ) : Int :=
  let e0 : Int := (log2 a.num.toNat : Int) - (log2 a.den : Int)
  if pow2 e0 ≤ a then e0 else e0 - 1

/-- Rounding to the nearest integer, a tie going to the even one. -/
def roundEven (s : ℚ) : Int :=
  let f := ⌊s⌋
  if s - f < 1 / 2 then f
  else if 1 / 2 < s - f then f + 1
  else if f % 2 = 0 then f else f + 1

/-- The exponent of the binade in which `a` is rounded: the exponent of `a`,
but at least -1022, the exponent of the least normal double. -/
def scale (a : ℚ) : Int := if exponent a < -1022 then -1022 else exponent a

/-- The unit in the last place at `a`: a double has 53 significant bits, so
the doubles of the binade of `a` are the multiples of `2^(scale a - 52)`; below
the least normal double the spacing stays `2^-1074`. -/
def ulp (a : ℚ) : ℚ := pow2 (scale a - 52)

/-- The double nearest to a non-negative `a`, ties to even. -/
def magnitude (a : ℚ) : ℚ := (roundEven (a / ulp a) : ℚ) * ulp a

/-- The rounding of IEEE 754 binary64 in the default mode: the double
nearest to the exact result `q`, ties to even. The exponent has no upper
bound here, so a result beyond the largest double is not turned into an
infinity. -/
def nearest (q : ℚ) : ℚ := if 0 ≤ q then magnitude q else -magnitude (-q)

/-- The value of `a + b` on doubles. -/
def add (a b : ℚ) : ℚ := nearest (a + b)

/-- The value of `a - b` on doubles. -/
def sub (a b : ℚ) : ℚ := nearest (a - b)

/-- The value of `a * b` on doubles. -/
def mul (a b : ℚ) : ℚ := nearest (a * b)

/-- The value of `a / b` on doubles, for a divisor that is not zero. -/
def div (a b : ℚ) : ℚ := nearest (a / b)

end Binary64

/-! ## Geometry (`ReadZones.hpp`) -/

/-- Embedding of `struct Point`. -/
structure Point where
  lon : ℚ
  lat : ℚ
deriving DecidableEq, Repr

/-- Embedding of `Point::inBBox`. -/
def Point.inBBox (p : Point) (min_lon max_lon min_lat max_lat : ℚ) : Bool :=
  decide (p.lon ≥ min_lon) && decide (p.lon ≤ max_lon) &&
    decide (p.lat ≥ min_lat) && decide (p.lat ≤ max_lat)

/-- Embedding of `struct BBox`, with its default member initialisers. -/
structure BBox where
  min_lon : ℚ := 180
  max_lon : ℚ := -180
  min_lat : ℚ := 90
  max_lat : ℚ := -90
deriving DecidableEq, Repr

/-- Embedding of `BBox::expand`: four independent `if`s, in the order of the source. -/
def BBox.expand (b : BBox) (p : Point) : BBox :=
  let b := if p.lon < b.min_lon then { b with min_lon := p.lon } else b
  let b := if p.lon > b.max_lon then { b with max_lon := p.lon } else b
  let b := if p.lat < b.min_lat then { b with min_lat := p.lat } else b
  if p.lat > b.max_lat then { b with max_lat := p.lat } else b

/-- Embedding of `BBox::contains`. -/
def BBox.contains (b : BBox) (p : Point) : Bool :=
  p.inBBox b.min_lon b.max_lon b.min_lat b.max_lat

/-- Embedding of `struct Polygon`. -/
structure Polygon where
  vertices : List Point
deriving DecidableEq, Repr

/-- The test of one edge in `Polygon::contains`, for the vertices `vi`
(index `i`) and `vj` (index `j`). The abscissa
`(vj.lon - vi.lon) * (p.lat - vi.lat) / (vj.lat - vi.lat) + vi.lon` is
computed as the machine does, each of its six operations rounded to the
nearest double. The second operand of `&&` is evaluated only when the first
holds, in which case the two latitudes differ and the divisor is not zero. -/
def edgeCrosses (vi vj p : Point) : Bool :=
  (decide (vi.lat > p.lat) != decide (vj.lat > p.lat)) &&
    decide (p.lon <
      Binary64.add
        (Binary64.div
          (Binary64.mul (Binary64.sub vj.lon vi.lon) (Binary64.sub p.lat vi.lat))
          (Binary64.sub vj.lat vi.lat))
        vi.lon)

/-- Embedding of `Polygon::contains`: the loop `for (i = 0, j = n - 1; i < n; j = i++)`
carries the pair `(j, inside)`. The two vertex reads are in range (`i < n`,
`j < n`), so the default of `getD` is never used. -/
def Polygon.contains (poly : Polygon) (p : Point) : Bool :=
  let n := poly.vertices.length
  if n < 3 then false
  else
    ((List.range n).foldl
      (fun (st : Nat × Bool) (i : Nat) =>
        let vi := poly.vertices.getD i ⟨0, 0⟩
        let vj := poly.vertices.getD st.1 ⟨0, 0⟩
        (i, if edgeCrosses vi vj p then !st.2 else st.2))
      (n - 1, false)).2

/-- Embedding of `struct Zone`. -/
structure Zone where
  id : String
  polygons : List Polygon
  bbox : BBox
deriving DecidableEq, Repr

/-- Embedding of `Zone::containsPoint`. -/
def Zone.containsPoint (z : Zone) (p : Point) : Bool :=
  if !z.bbox.contains p then false
  else z.polygons.any (fun poly => poly.contains p)

namespace WKTParser

/-- Embedding of `WKTParser::computeBBox`: a fresh `BBox` expanded by every vertex of every
polygon. -/
def computeBBox (zone : Zone) : Zone :=
  { zone with
    bbox := zone.polygons.foldl
      (fun (b : BBox) poly => poly.vertices.foldl (fun (b : BBox) p => b.expand p) b) {} }

end WKTParser

/-! ## The grid index (`ReadZones.cpp`) -/

/-- Embedding of `class GridIndex`; `grid[y][x]` is the `zone_indices` vector of a cell. -/
structure GridIndex where
  grid : List (List (List Int))
  min_lon : ℚ
  max_lon : ℚ
  min_lat : ℚ
  max_lat : ℚ
  grid_size_x : Int
  grid_size_y : Int
  cell_width : ℚ
  cell_height : ℚ
  zones : List Zone
deriving Repr

/-- The integers `a, a + 1, ..., b` of a loop `for (int v = a; v <= b; v++)`. -/
def intRange (a b : Int) : List Int :=
  (List.range (b + 1 - a).toNat).map (fun (k : Nat) => a + (k : Int))

namespace GridIndex

/-- Embedding of `GridIndex::getGridX`. -/
def getGridX (g : GridIndex) (lon : ℚ) : Int :=
  truncToInt ((lon - g.min_lon) / g.cell_width)

/-- Embedding of `GridIndex::getGridY`. -/
def getGridY (g : GridIndex) (lat : ℚ) : Int :=
  truncToInt ((lat - g.min_lat) / g.cell_height)

/-- Embedding of `grid[y][x].zone_indices.push_back(i)`; an index outside the allocated
grid is undefined behaviour. -/
def pushCell (grid : List (List (List Int))) (y x i : Int) :
    Except Fault (List (List (List Int))) :=
  if y < 0 ∨ x < 0 then .error .undefined
  else
    match grid.get? y.toNat with
    | none => .error .undefined
    | some row =>
      match row.get? x.toNat with
      | none => .error .undefined
      | some cell => .ok (grid.set y.toNat (row.set x.toNat (cell ++ [i])))

/-- The body of the loop `for (int i = 0; i < zones.size(); i++)` of the
constructor: zone `i` is appended to every cell of the cell range of its
bbox, rows outermost. -/
def indexZone (g : GridIndex) (grid : List (List (List Int))) (i : Int) (bbox : BBox) :
    Except Fault (List (List (List Int))) :=
  let min_x := g.getGridX bbox.min_lon
  let max_x := g.getGridX bbox.max_lon
  let min_y := g.getGridY bbox.min_lat
  let max_y := g.getGridY bbox.max_lat
  (intRange min_y max_y).foldlM
    (fun grid y => (intRange min_x max_x).foldlM (fun grid x => pushCell grid y x i) grid)
    grid

/-- The loop over all zones of the constructor; `i` is the index of the
first zone of `zs`. -/
def indexZones (g : GridIndex) :
    List Zone → Int → List (List (List Int)) → Except Fault (List (List (List Int)))
  | [], _, grid => .ok grid
  | z :: zs, i, grid =>
    match indexZone g grid i z.bbox with
    | .error e => .error e
    | .ok grid1 => indexZones g zs (i + 1) grid1

/-- The first half of `GridIndex::GridIndex(z, cells_per_degree)`: the global
bounds with their padding of a tenth of a degree, the grid sizes, the cell
sizes, and the grid of empty cells. -/
def frame (z : List Zone) (cells_per_degree : Int) : GridIndex :=
  let min_lon := z.foldl (fun m zone => min m zone.bbox.min_lon) (180 : ℚ)
  let max_lon := z.foldl (fun m zone => max m zone.bbox.max_lon) (-180 : ℚ)
  let min_lat := z.foldl (fun m zone => min m zone.bbox.min_lat) (90 : ℚ)
  let max_lat := z.foldl (fun m zone => max m zone.bbox.max_lat) (-90 : ℚ)
  let min_lon := min_lon - 1 / 10
  let max_lon := max_lon + 1 / 10
  let min_lat := min_lat - 1 / 10
  let max_lat := max_lat + 1 / 10
  let grid_size_x := truncToInt ((max_lon - min_lon) * cells_per_degree) + 1
  let grid_size_y := truncToInt ((max_lat - min_lat) * cells_per_degree) + 1
  let cell_width := (max_lon - min_lon) / grid_size_x
  let cell_height := (max_lat - min_lat) / grid_size_y
  { grid := List.replicate grid_size_y.toNat (List.replicate grid_size_x.toNat [])
    min_lon := min_lon, max_lon := max_lon, min_lat := min_lat, max_lat := max_lat
    grid_size_x := grid_size_x, grid_size_y := grid_size_y
    cell_width := cell_width, cell_height := cell_height
    zones := z }

/-- Embedding of `GridIndex::GridIndex(z, cells_per_degree)`. A negative grid size makes
`std::vector` throw `std::length_error`; otherwise the zones are indexed into
the grid of empty cells. -/
def create (z : List Zone) (cells_per_degree : Int) : Except Fault GridIndex :=
  let g := frame z cells_per_degree
  if g.grid_size_x < 0 ∨ g.grid_size_y < 0 then .error (.exception "std::length_error")
  else
    match indexZones g z 0 g.grid with
    | .error e => .error e
    | .ok grid => .ok { g with grid := grid }

/-- The loop `for (int idx : grid[y][x].zone_indices)` of
`findZoneContainingPoint`, with its final empty return value. -/
def scanCell (zones : List Zone) (p : Point) : List Int → Except Fault String
  | [] => .ok ""
  | idx :: rest =>
    if idx < 0 then .error .undefined
    else
      match zones.get? idx.toNat with
      | none => .error .undefined
      | some zone => if zone.containsPoint p then .ok zone.id else scanCell zones p rest

/-- Embedding of `GridIndex::findZoneContainingPoint`; the empty string is the source's empty return value. -/
def findZoneContainingPoint (g : GridIndex) (lon lat : ℚ) : Except Fault String :=
  let x := g.getGridX lon
  let y := g.getGridY lat
  if x < 0 ∨ x ≥ g.grid_size_x ∨ y < 0 ∨ y ≥ g.grid_size_y then .ok ""
  else
    match g.grid.get? y.toNat with
    | none => .error .undefined
    | some row =>
      match row.get? x.toNat with
      | none => .error .undefined
      | some cell => scanCell g.zones ⟨lon, lat⟩ cell

end GridIndex

/-! ## The online pipeline (`CoarseETA.hpp`, `CoarseETA.cpp`) -/

/-- Embedding of `enum TimeZoningType`. -/
inductive TimeZoningType where
  | DOW_HOD
  | DAYTYPE_HOD
  | DOW_RANGE
  | DAYTYPE_RANGE
deriving DecidableEq, Repr

/-- Embedding of `struct ETAQuery`. -/
structure ETAQuery where
  start_long : ℚ
  start_lat : ℚ
  end_long : ℚ
  end_lat : ℚ
  start_datetime : String
deriving DecidableEq, Repr

/-- Embedding of `struct TimeZone`. -/
structure TimeZone where
  season : Int
  day_of_week : Int
  daytype : String
  adjusted_hour : Int
  start_hour : Int
  end_hour : Int
deriving DecidableEq, Repr

/-- The fields of `struct tm` that `timeZoning` reads. -/
structure Tm where
  tm_mon : Int
  tm_wday : Int
  tm_hour : Int
  tm_min : Int
deriving DecidableEq, Repr

/-- Embedding of `CoarseETA::AggregateValues`. -/
structure AggregateValues where
  min_max : List ℚ
  min_med_max : List ℚ
  percentiles : List ℚ
deriving DecidableEq, Repr

/-- The three values the pointer to member `PercentileField field` can be
given by `setAggregateTypeField`. -/
inductive PercentileField where
  | percentiles
  | min_med_max
  | min_max
deriving DecidableEq, Repr

/-- The member access `values.*field`. -/
def AggregateValues.select (v : AggregateValues) : PercentileField → List ℚ
  | .percentiles => v.percentiles
  | .min_med_max => v.min_med_max
  | .min_max => v.min_max

/-- The spatial ETA directory: the table stored under a file name, if any. -/
abbrev ETAFiles := String → Option (List ℚ)

/-- Embedding of `struct SearchResult` of `CoarseETA.hpp`. -/
structure SearchResult where
  record_eta1 : Int
  eta1 : ℚ
  record_eta2 : Int
  eta2 : ℚ
  total_records : ℚ
deriving DecidableEq, Repr

/-- Embedding of `struct StatResult` of `CoarseETA.hpp`; the ranks are `int`. -/
structure StatResult where
  rank1 : Int
  eta1 : ℚ
  rank2 : Int
  eta2 : ℚ
deriving DecidableEq, Repr

/-- How the `while (lo <= hi)` loop of `binarySearchETA` ends: by the early
return of an exact match, or by falling out of the loop with the final
`lo` and `hi`. -/
inductive LoopExit where
  | hit (mid : Int) (mid_eta : ℚ)
  | miss (lo hi : Int)
deriving DecidableEq, Repr

namespace CoarseETA

/-- Embedding of `CoarseETA::readETA`: the ETA of record `record_idx`; a seek before the
start of the file or a read past its end throws. -/
def readETA (f : List ℚ) (record_idx : Int) : Except Fault ℚ :=
  if record_idx < 0 then .error (.exception "fseeko failed")
  else
    match f.get? record_idx.toNat with
    | some eta => .ok eta
    | none => .error (.exception "fread failed")

/-- The file name `binarySearchETA` composes for a zone pair. -/
def tableName (spatialETA_path zone1 zone2 : String) : String :=
  spatialETA_path ++ "/" ++ zone1 ++ "_" ++ zone2 ++ ".bin"

/-- The `while (lo <= hi)` loop of `CoarseETA::binarySearchETA`, one
iteration per unit of `fuel`. -/
def searchLoop (f : List ℚ) (os_eta : ℚ) : Nat → Int → Int → Except Fault LoopExit
  | fuel, lo, hi =>
    if lo ≤ hi then
      match fuel with
      | 0 => .error .fuel
      | fuel + 1 =>
        let mid := lo + Int.tdiv (hi - lo) 2
        match readETA f mid with
        | .error e => .error e
        | .ok mid_eta =>
          if mid_eta = os_eta then .ok (.hit mid mid_eta)
          else if mid_eta < os_eta then searchLoop f os_eta fuel (mid + 1) hi
          else searchLoop f os_eta fuel lo (mid - 1)
    else .ok (.miss lo hi)

/-- Embedding of `CoarseETA::binarySearchETA`. The local `result` is value-initialised
(all fields zero); the unset markers `-1` are written only after the
`total == 0` return. -/
def binarySearchETA (spatialETA_path : String) (files : ETAFiles)
    (zone1 zone2 : String) (os_eta : ℚ) : Except Fault SearchResult :=
  let filename := tableName spatialETA_path zone1 zone2
  match files filename with
  | none => .error (.exception ("Cannot open file: " ++ filename))
  | some f =>
    let total : Int := f.length
    let result : SearchResult :=
      { record_eta1 := 0, eta1 := 0, record_eta2 := 0, eta2 := 0, total_records := total }
    if total = 0 then .ok result
    else
      let result := { result with record_eta2 := -1, eta2 := -1 }
      match searchLoop f os_eta total.toNat 0 (total - 1) with
      | .error e => .error e
      | .ok (.hit mid mid_eta) => .ok { result with record_eta1 := mid, eta1 := mid_eta }
      | .ok (.miss lo hi) =>
        if lo ≥ total then
          match readETA f (total - 1) with
          | .error e => .error e
          | .ok e1 => .ok { result with record_eta1 := total - 1, eta1 := e1 }
        else if hi < 0 then
          match readETA f 0 with
          | .error e => .error e
          | .ok e1 => .ok { result with record_eta1 := 0, eta1 := e1 }
        else
          match readETA f hi with
          | .error e => .error e
          | .ok eta1 =>
            match readETA f lo with
            | .error e => .error e
            | .ok eta2 =>
              .ok { result with record_eta1 := hi, eta1 := eta1, record_eta2 := lo, eta2 := eta2 }

/-- Embedding of `std::lower_bound(lo, hi, value)` on a range partitioned by `< value`:
the index of the first element that is not less than `value`, the length of
the range when there is none. -/
def lower_bound (x : List ℚ) (value : ℚ) : Nat :=
  x.findIdx (fun e => !decide (e < value))

/-- The sum `rank_p + 1e-9` of the tolerance test of `FindStat`, as the
machine computes it: the literal is the double nearest to `10^-9` and the sum
is rounded to the nearest double. -/
def rankPlusEps (rank_p : ℚ) : ℚ :=
  Binary64.add rank_p (Binary64.nearest (1 / 1000000000))

/-- Embedding of `CoarseETA::FindStat`. The reads of `x` are in range by construction;
a read of `y` beyond its end is undefined behaviour. -/
def FindStat (x y : List ℚ) (rank_p : ℚ) : Except Fault StatResult :=
  let idx := lower_bound x rank_p
  let res : StatResult := { rank1 := -1, eta1 := -1, rank2 := -1, eta2 := -1 }
  match x.get? idx with
  | some xi =>
    if xi ≤ rankPlusEps rank_p then
      match y.get? idx with
      | none => .error .undefined
      | some yi => .ok { res with rank1 := truncToInt xi, eta1 := yi }
    else
      let res1 : Except Fault StatResult :=
        if idx ≠ 0 then
          match x.get? (idx - 1), y.get? (idx - 1) with
          | some xp, some yp => .ok { res with rank1 := truncToInt xp, eta1 := yp }
          | _, _ => .error .undefined
        else .ok res
      match res1 with
      | .error e => .error e
      | .ok res =>
        match y.get? idx with
        | none => .error .undefined
        | some yi => .ok { res with rank2 := truncToInt xi, eta2 := yi }
  | none =>
    if idx ≠ 0 then
      match x.get? (idx - 1), y.get? (idx - 1) with
      | some xp, some yp => .ok { res with rank1 := truncToInt xp, eta1 := yp }
      | _, _ => .error .undefined
    else .ok res

/-- The map `aggregate_ranks` as the constructor fills it; it is never
written again. -/
def aggregate_ranks : List (String × List ℚ) :=
  [("min_max", [0, 100]), ("min_med_max", [0, 50, 100]), ("percentiles", [0, 25, 50, 75, 100])]

/-- Embedding of `std::map::at`: the mapped value, or `std::out_of_range`. -/
def mapAt {β : Type} (m : List (String × β)) (key : String) : Except Fault β :=
  match m.lookup key with
  | some v => .ok v
  | none => .error (.exception "map::at")

/-- The six hour ranges of `timeZoning`. -/
def ranges : List (Int × Int) :=
  [(0, 6), (7, 10), (11, 13), (14, 16), (17, 19), (20, 23)]

/-- Embedding of `CoarseETA::timeZoning`. `get_time` is the outcome of
`ss >> std::get_time(&tm, "%Y-%m-%d %H:%M:%S")`, `none` when the stream
fails. `TimeZone timeZone;` is default-initialised: `daytype` is the empty
string and the `int` members hold the indeterminate values `indeterminate`.
On a failed parse that object is returned as it is. -/
def timeZoning (get_time : String → Option Tm) (indeterminate : TimeZone)
    (timestamp_str : String) : TimeZone :=
  let timeZone : TimeZone := { indeterminate with daytype := "" }
  match get_time timestamp_str with
  | none => timeZone
  | some tm =>
    let month := tm.tm_mon + 1
    let day_of_week := tm.tm_wday
    let python_weekday := Int.tmod (day_of_week + 6) 7
    let timeZone := { timeZone with day_of_week := python_weekday }
    let timeZone := { timeZone with daytype := if python_weekday ≥ 5 then "weekend" else "weekday" }
    let hour := tm.tm_hour
    let minute := tm.tm_min
    let hour_adjustment : Int := if minute > 30 then 1 else 0
    let timeZone := { timeZone with adjusted_hour := Int.tmod (hour + hour_adjustment) 24 }
    let timeZone :=
      match ranges.find? (fun range =>
          decide (timeZone.adjusted_hour ≥ range.1) && decide (timeZone.adjusted_hour ≤ range.2)) with
      | some range => { timeZone with start_hour := range.1, end_hour := range.2 }
      | none => timeZone
    { timeZone with season := Int.tdiv (Int.tmod (month + 9) 12) 3 + 1 }

/-- The key `ETARequest` builds in its `switch (time_zoning_type)`;
`std::to_string` of an `int` is its decimal form. -/
def makeKey (time_zoning_type : TimeZoningType) (start_zone end_zone : String)
    (timeZone : TimeZone) : String :=
  match time_zoning_type with
  | .DOW_HOD =>
    start_zone ++ "," ++ end_zone ++ "," ++ toString timeZone.season ++ "," ++
      toString timeZone.day_of_week ++ "," ++ toString timeZone.adjusted_hour
  | .DAYTYPE_HOD =>
    start_zone ++ "," ++ end_zone ++ "," ++ toString timeZone.season ++ "," ++
      timeZone.daytype ++ "," ++ toString timeZone.adjusted_hour
  | .DOW_RANGE =>
    start_zone ++ "," ++ end_zone ++ "," ++ toString timeZone.season ++ "," ++
      toString timeZone.day_of_week ++ "," ++ toString timeZone.start_hour ++ "," ++
      toString timeZone.end_hour
  | .DAYTYPE_RANGE =>
    start_zone ++ "," ++ end_zone ++ "," ++ toString timeZone.season ++ "," ++
      timeZone.daytype ++ "," ++ toString timeZone.start_hour ++ "," ++
      toString timeZone.end_hour

/-- The rank of `os_eta` in the table, lines 106 to 109 of `ETARequest`. -/
def rankOf (search_result : SearchResult) (os_eta : ℚ) : ℚ :=
  let rank : ℚ := search_result.record_eta1
  if search_result.record_eta2 ≠ -1 then
    rank + (os_eta - search_result.eta1) / (search_result.eta2 - search_result.eta1)
  else rank

/-- The rank in percent, lines 111 to 113 of `ETARequest`. -/
def rankPercent (search_result : SearchResult) (rank : ℚ) : ℚ :=
  if search_result.total_records > 1 then (rank / (search_result.total_records - 1)) * 100
  else 0

/-- The output ETA, lines 122 to 125 of `ETARequest`. -/
def finalEta (stat_result : StatResult) (rank_percent : ℚ) : ℚ :=
  if stat_result.rank2 ≠ -1 then
    stat_result.eta1 + (stat_result.eta2 - stat_result.eta1) *
      ((rank_percent - stat_result.rank1) / (stat_result.rank2 - stat_result.rank1))
  else stat_result.eta1

end CoarseETA

/-- The members of `class CoarseETA` that `ETARequest` reads. `field` is
`none` until `setAggregateTypeField` has assigned it. -/
structure CoarseETA where
  field : Option PercentileField
  aggregate_type : String
  hash_table : List (String × AggregateValues)
  time_zoning_type : TimeZoningType
  spatialETA_path : String
  spatial_index : GridIndex

/-- What lies outside the program during one `ETARequest`. `engine_reply` is
the outcome of the `try` block of `OpenSourceRoutingEngine` (the parsed
duration, `-1.0` for Valhalla's error 442, or an exception of the HTTP and
JSON code). -/
structure World where
  files : ETAFiles
  engine_reply : ℚ → ℚ → ℚ → ℚ → Except Fault ℚ
  get_time : String → Option Tm
  indeterminate : TimeZone

namespace CoarseETA

/-- Embedding of `CoarseETA::OpenSourceRoutingEngine`: every exception of the engine code
is caught and `-1.0` is returned in its place. -/
def OpenSourceRoutingEngine (w : World) (start_long start_lat end_long end_lat : ℚ) : ℚ :=
  match w.engine_reply start_long start_lat end_long end_lat with
  | .ok os_eta => os_eta
  | .error _ => -1

/-- The `try` block of `CoarseETA::ETARequest`, without the timers. -/
def ETARequestTry (self : CoarseETA) (w : World) (query : ETAQuery) : Except Fault ℚ := do
  let start_zone ← self.spatial_index.findZoneContainingPoint query.start_long query.start_lat
  let end_zone ← self.spatial_index.findZoneContainingPoint query.end_long query.end_lat
  let timeZone := timeZoning w.get_time w.indeterminate query.start_datetime
  let key := makeKey self.time_zoning_type start_zone end_zone timeZone
  let aggeregate_list_x ← mapAt aggregate_ranks self.aggregate_type
  let values ← mapAt self.hash_table key
  let aggeregate_list_y ←
    match self.field with
    | some field => pure (values.select field)
    | none => throw Fault.undefined
  let os_eta :=
    OpenSourceRoutingEngine w query.start_long query.start_lat query.end_long query.end_lat
  let search_result ← binarySearchETA self.spatialETA_path w.files start_zone end_zone os_eta
  let rank := rankOf search_result os_eta
  let rank_percent := rankPercent search_result rank
  let stat_result ← FindStat aggeregate_list_x aggeregate_list_y rank_percent
  pure (finalEta stat_result rank_percent)

/-- Embedding of `CoarseETA::ETARequest`: the value returned; `catch (const std::exception&)`
turns every exception into `-1.0`. `none` stands for a run that met undefined
behaviour. -/
def ETARequest (self : CoarseETA) (w : World) (query : ETAQuery) : Option ℚ :=
  match ETARequestTry self w query with
  | .ok final_eta => some final_eta
  | .error (.exception _) => some (-1)
  | .error _ => none

end CoarseETA

/-! ## Predicates used in the statements -/

namespace CoarseETA

/-- At the lower end of the search window: nothing is left of it, or the
record just left of it is below the target. -/
def LoInv (f : List ℚ) (os_eta : ℚ) (lo : Int) : Prop :=
  lo = 0 ∨ ∃ v, readETA f (lo - 1) = .ok v ∧ v < os_eta

/-- At the upper end of the search window: nothing is right of it, or the
record just right of it is above the target. -/
def HiInv (f : List ℚ) (os_eta : ℚ) (hi : Int) : Prop :=
  hi = (f.length : Int) - 1 ∨ ∃ v, readETA f (hi + 1) = .ok v ∧ os_eta < v

/-- A rank vector as the constructor stores them: non-negative whole
numbers in strictly ascending order. -/
structure IsRankVector (x : List ℚ) : Prop where
  ascending : x.Sorted (· < ·)
  whole : ∀ e ∈ x, ∃ n : Int, 0 ≤ n ∧ e = (n : ℚ)

end CoarseETA

/-- The ETA that `ETARequest` derives from a rank in percent: `FindStat`
followed by the interpolation of lines 122 to 125. -/
def CoarseETA.interpolatedEta (x y : List ℚ) (rank_p : ℚ) : Except Fault ℚ :=
  match CoarseETA.FindStat x y rank_p with
  | .ok stat_result => .ok (CoarseETA.finalEta stat_result rank_p)
  | .error e => .error e

/-- A run of `ETARequest` that gets as far as the table search: both zone
lookups return (`z1`, `z2`), the rank vector `x` of the aggregate type and
the aggregate vector `y` under the key are found, and the routing engine
function returns `os_eta`. -/
structure CoarseETA.Reaches (c : CoarseETA) (w : World) (query : ETAQuery)
    (z1 z2 : String) (x y : List ℚ) (os_eta : ℚ) : Prop where
  start_zone :
    c.spatial_index.findZoneContainingPoint query.start_long query.start_lat = .ok z1
  end_zone :
    c.spatial_index.findZoneContainingPoint query.end_long query.end_lat = .ok z2
  ranks : CoarseETA.mapAt CoarseETA.aggregate_ranks c.aggregate_type = .ok x
  values : ∃ values field,
    CoarseETA.mapAt c.hash_table
        (CoarseETA.makeKey c.time_zoning_type z1 z2
          (CoarseETA.timeZoning w.get_time w.indeterminate query.start_datetime)) = .ok values ∧
      c.field = some field ∧ values.select field = y
  engine :
    CoarseETA.OpenSourceRoutingEngine w query.start_long query.start_lat
      query.end_long query.end_lat = os_eta

/-- The point lies within the four bounds of the box, which is when
`BBox::contains` answers true. -/
def BBox.Covers (b : BBox) (p : Point) : Prop :=
  b.min_lon ≤ p.lon ∧ p.lon ≤ b.max_lon ∧ b.min_lat ≤ p.lat ∧ p.lat ≤ b.max_lat

/-- The second box reaches at least as far as the first on all four sides. -/
def BBox.Within (b b1 : BBox) : Prop :=
  b1.min_lon ≤ b.min_lon ∧ b.max_lon ≤ b1.max_lon ∧
    b1.min_lat ≤ b.min_lat ∧ b.max_lat ≤ b1.max_lat

/-- A zone as `parseCSV` stores it: at least one vertex, and the bounding
box `computeBBox` computes. -/
def Zone.Loaded (z : Zone) : Prop :=
  WKTParser.computeBBox z = z ∧ ∃ poly ∈ z.polygons, poly.vertices ≠ []

/-- The grid has `ny` rows of `nx` cells. -/
def GridDims (grid : List (List (List Int))) (ny nx : Nat) : Prop :=
  grid.length = ny ∧ ∀ row ∈ grid, row.length = nx

/-- The zone index `i` is in the list of the cell in row `y`, column `x`. -/
def CellHas (grid : List (List (List Int))) (y x : Nat) (i : Int) : Prop :=
  ∃ row cell, grid.get? y = some row ∧ row.get? x = some cell ∧ i ∈ cell

/-- The second grid has the shape of the first, keeps every entry of it, and
its further entries all satisfy `S`. -/
def GridGrows (S : Int → Prop) (grid grid1 : List (List (List Int))) : Prop :=
  (∀ ny nx, GridDims grid ny nx → GridDims grid1 ny nx) ∧
  (∀ y x j, CellHas grid y x j → CellHas grid1 y x j) ∧
  (∀ y x j, CellHas grid1 y x j → CellHas grid y x j ∨ S j)

/-! ## Keys and crossings in the words of the specification -/

/-- The decimal form of an integer, as `std::to_string` writes an `int`: a
minus sign for a negative number, then the digits in base ten. -/
def decimal (n : Int) : String :=
  if n < 0 then "-" ++ (Nat.toDigits 10 n.natAbs).asString
  else (Nat.toDigits 10 n.toNat).asString

/-- The fields of the key of each zoning type, in the words of the
specification. -/
def keyFields (time_zoning_type : TimeZoningType) (z1 z2 : String) (tb : TimeZone) :
    List String :=
  match time_zoning_type with
  | .DOW_HOD => [z1, z2, decimal tb.season, decimal tb.day_of_week, decimal tb.adjusted_hour]
  | .DAYTYPE_HOD => [z1, z2, decimal tb.season, tb.daytype, decimal tb.adjusted_hour]
  | .DOW_RANGE =>
    [z1, z2, decimal tb.season, decimal tb.day_of_week, decimal tb.start_hour,
      decimal tb.end_hour]
  | .DAYTYPE_RANGE =>
    [z1, z2, decimal tb.season, tb.daytype, decimal tb.start_hour, decimal tb.end_hour]

/-- A key that starts with a comma or has two adjacent commas: one of its
comma-separated fields before the last is empty. -/
def HasEmptyField (key : String) : Prop :=
  key.data.head? = some ',' ∨ [',', ','] <:+: key.data

instance (key : String) : Decidable (HasEmptyField key) := by
  unfold HasEmptyField
  infer_instance

/-- The crossing test of one edge in the words of the specification, written
from the vertex `vj`. -/
def specCrosses (vi vj p : Point) : Bool :=
  (decide (vi.lat > p.lat) != decide (vj.lat > p.lat)) &&
    decide (p.lon < vj.lon + (vi.lon - vj.lon) * (p.lat - vj.lat) / (vi.lat - vj.lat))

/-- The number of cyclically consecutive vertex pairs `(v[i], v[i - 1])`, the
first being `(v[0], v[n - 1])`, that the specification counts as crossings. -/
def crossingCount (poly : Polygon) (p : Point) : Nat :=
  (List.range poly.vertices.length).countP
    (fun i =>
      specCrosses (poly.vertices.getD i ⟨0, 0⟩)
        (poly.vertices.getD (if i = 0 then poly.vertices.length - 1 else i - 1) ⟨0, 0⟩) p)

/-- The crossing test of the specification, written from the vertex `vj`,
with each operation rounded to the nearest double as the machine would
compute it. -/
def specCrossesRounded (vi vj p : Point) : Bool :=
  (decide (vi.lat > p.lat) != decide (vj.lat > p.lat)) &&
    decide (p.lon <
      Binary64.add vj.lon
        (Binary64.div
          (Binary64.mul (Binary64.sub vi.lon vj.lon) (Binary64.sub p.lat vj.lat))
          (Binary64.sub vi.lat vj.lat)))

/-- The count of `crossingCount` with the rounded test of the
specification. -/
def crossingCountRounded (poly : Polygon) (p : Point) : Nat :=
  (List.range poly.vertices.length).countP
    (fun i =>
      specCrossesRounded (poly.vertices.getD i ⟨0, 0⟩)
        (poly.vertices.getD (if i = 0 then poly.vertices.length - 1 else i - 1) ⟨0, 0⟩) p)

/-- The number of cyclically consecutive vertex pairs `(v[i], v[i - 1])`, the
first being `(v[0], v[n - 1])`, that the edge test of the code accepts. -/
def Polygon.crossings (poly : Polygon) (p : Point) : Nat :=
  (List.range poly.vertices.length).countP
    (fun i =>
      edgeCrosses (poly.vertices.getD i ⟨0, 0⟩)
        (poly.vertices.getD (if i = 0 then poly.vertices.length - 1 else i - 1) ⟨0, 0⟩) p)

/-- The temporal fields of the key, the part after `z1,z2,`. -/
def keyTail (time_zoning_type : TimeZoningType) (tb : TimeZone) : String :=
  match time_zoning_type with
  | .DOW_HOD =>
    toString tb.season ++ "," ++ toString tb.day_of_week ++ "," ++ toString tb.adjusted_hour
  | .DAYTYPE_HOD => toString tb.season ++ "," ++ tb.daytype ++ "," ++ toString tb.adjusted_hour
  | .DOW_RANGE =>
    toString tb.season ++ "," ++ toString tb.day_of_week ++ "," ++ toString tb.start_hour ++
      "," ++ toString tb.end_hour
  | .DAYTYPE_RANGE =>
    toString tb.season ++ "," ++ tb.daytype ++ "," ++ toString tb.start_hour ++ "," ++
      toString tb.end_hour

/-! ## The hash index file -/

/-- The unsigned integer that a run of bytes holds in little-endian order,
as on the machines the index files are written on. -/
def fromLE : List Nat → Nat
  | [] => 0
  | b :: bs => b + 256 * fromLE bs

/-- The `w` bytes of `n` in little-endian order. -/
def toLE : Nat → Nat → List Nat
  | 0, _ => []
  | w + 1, n => n % 256 :: toLE w (n / 256)

/-- Embedding of the `std::ifstream f` of `setup_hash_table`: the bytes not
yet read, and whether the stream is still good. -/
structure IStream where
  rest : List Nat
  good : Bool
deriving DecidableEq, Repr

/-- Embedding of `std::ifstream f(hashTable_file, std::ios::binary)`: a file
that cannot be opened leaves the stream failed. -/
def IStream.open (file : Option (List Nat)) : IStream :=
  match file with
  | some bytes => ⟨bytes, true⟩
  | none => ⟨[], false⟩

/-- Embedding of `f.read(dest, n)`, where `dest` is the content of the `n`
bytes of storage before the call: a good stream stores the bytes it has, up
to `n` of them, and fails when they are fewer than `n`; the bytes of the
storage it did not reach keep their content; a failed stream stores nothing.
The result is the stream and the content of the storage after the call. -/
def IStream.read (f : IStream) (n : Nat) (dest : List Nat) : IStream × List Nat :=
  if f.good then
    (⟨f.rest.drop n, decide (n ≤ f.rest.length)⟩,
      (f.rest.take n ++ dest.drop (f.rest.take n).length).take n)
  else (f, dest.take n)

/-- The content of the locals of `setup_hash_table` that are declared without
an initialiser, before the first `read` into them: `num_entries`, and for
the iteration `i` of the loop `key_len` and `buffer`. -/
structure Uninit where
  num_entries : List Nat
  key_len : Nat → List Nat
  buffer : Nat → List Nat

/-- The `std::string` of the bytes of a key, one character for each byte. -/
def keyOfBytes (bytes : List Nat) : String :=
  String.mk (bytes.map Char.ofNat)

/-- The element `buffer[k]` of the `double buffer[10]` whose bytes are
`buffer`, for the reading `f64` of 8 bytes as a `double`. -/
def bufferAt (f64 : List Nat → ℚ) (buffer : List Nat) (k : Nat) : ℚ :=
  f64 ((buffer.drop (8 * k)).take 8)

/-- Embedding of `hash_table[key] = values` on a `std::map`: the entry of
`key` is replaced, or added when there is none. -/
def mapSet {β : Type} (m : List (String × β)) (key : String) (v : β) : List (String × β) :=
  (key, v) :: m.filter (fun e => e.1 != key)

namespace CoarseETA

/-- The loop `for (uint64_t i = 0; i < num_entries; ++i)` of
`setup_hash_table`, with `remaining = num_entries - i` iterations to go. No
`read` is checked. The allocation of `std::string key(key_len, 0)` is taken
to succeed. -/
def loadEntries (f64 : List Nat → ℚ) (stack : Uninit) :
    Nat → Nat → IStream → List (String × AggregateValues) → List (String × AggregateValues)
  | 0, _, _, hash_table => hash_table
  | remaining + 1, i, f, hash_table =>
    let r1 := f.read 4 (stack.key_len i)
    let key_len := fromLE r1.2 % 2 ^ 32
    let r2 := r1.1.read key_len (List.replicate key_len 0)
    let key := keyOfBytes r2.2
    let r3 := r2.1.read 80 (stack.buffer i)
    let buffer := r3.2
    let values : AggregateValues :=
      { min_max := [bufferAt f64 buffer 0, bufferAt f64 buffer 1],
        min_med_max := [bufferAt f64 buffer 2, bufferAt f64 buffer 3, bufferAt f64 buffer 4],
        percentiles := [bufferAt f64 buffer 5, bufferAt f64 buffer 6, bufferAt f64 buffer 7,
          bufferAt f64 buffer 8, bufferAt f64 buffer 9] }
    loadEntries f64 stack remaining (i + 1) r3.1 (mapSet hash_table key values)

/-- Embedding of `CoarseETA::setup_hash_table`: `file` is the content of
`hashTable_file` (`none` when it cannot be opened), `hash_table` the member
before the call and the result the member after it. The function has no
`throw` and tests no stream state. -/
def setup_hash_table (f64 : List Nat → ℚ) (stack : Uninit) (file : Option (List Nat))
    (hash_table : List (String × AggregateValues)) : List (String × AggregateValues) :=
  let r := (IStream.open file).read 8 stack.num_entries
  let num_entries := fromLE r.2 % 2 ^ 64
  loadEntries f64 stack num_entries 0 r.1 hash_table

end CoarseETA

/-- The bytes of one record of the hash index file, in the words of the
specification: `u32` length of the key, the bytes of the key, then the
doubles, each written by `enc`. -/
def encodeEntry (enc : ℚ → List Nat) (entry : String × List ℚ) : List Nat :=
  toLE 4 entry.1.length ++ (entry.1.data.map Char.toNat ++ (entry.2.map enc).flatten)

/-- The bytes of a hash index file, in the words of the specification: `u64`
number of entries, then the records. -/
def encodeIndex (enc : ℚ → List Nat) (entries : List (String × List ℚ)) : List Nat :=
  toLE 8 entries.length ++ (entries.map (encodeEntry enc)).flatten

/-- The three vectors that the specification gives to an entry of 10
doubles. -/
def toAggregate (ds : List ℚ) : AggregateValues :=
  { min_max := ds.take 2, min_med_max := (ds.drop 2).take 3, percentiles := (ds.drop 5).take 5 }

/-- A writer and a reader of doubles for the concrete runs: whole numbers
below `2 ^ 64`, as 8 bytes. -/
def sampleEnc (d : ℚ) : List Nat := toLE 8 d.num.toNat

/-- The reader that goes with `sampleEnc`. -/
def sampleF64 (bytes : List Nat) : ℚ := (fromLE bytes : ℚ)

/-- Uninitialised storage that holds zero bytes. -/
def zeroStack : Uninit := ⟨List.replicate 8 0, fun _ => List.replicate 4 0, fun _ => List.replicate 80 0⟩

/-! ## The text of a geometry

A `std::string` of the parser is the list of its characters; positions and
lengths are `size_t`, with `std::string::npos` as `none` where a search
returns it. -/

namespace Str

/-- Subtraction of `size_t`, which wraps around. -/
def sizeSub (a b : Nat) : Nat := (a + 2 ^ 64 - b % 2 ^ 64) % 2 ^ 64

/-- Addition of `size_t`, which wraps around. -/
def sizeAdd (a b : Nat) : Nat := (a + b) % 2 ^ 64

/-- The value of `std::string::npos` as a length. -/
def npos : Nat := 2 ^ 64 - 1

/-- Embedding of `std::string::find(pat, pos)`: the first position from
`pos` on where `pat` starts. -/
def find (s pat : List Char) (pos : Nat) : Option Nat :=
  ((List.range (s.length + 1 - pos)).map (fun k => pos + k)).find?
    (fun i => pat.isPrefixOf (s.drop i))

/-- Embedding of `std::string::rfind(pat)`: the last position where `pat`
starts. -/
def rfind (s pat : List Char) : Option Nat :=
  (List.range (s.length + 1)).reverse.find? (fun i => pat.isPrefixOf (s.drop i))

/-- Embedding of `std::string::substr(pos, len)`, which throws
`std::out_of_range` when `pos` is beyond the end. -/
def substr (s : List Char) (pos len : Nat) : Except Fault (List Char) :=
  if pos > s.length then .error (.exception "basic_string::substr")
  else .ok ((s.drop pos).take len)

/-- The characters that `trim` removes. -/
def isBlank (c : Char) : Bool := c = ' ' || c = '\t' || c = '\n' || c = '\r'

/-- Embedding of `find_first_not_of(" \t\n\r")`. -/
def find_first_not_of (s : List Char) : Option Nat :=
  (List.range s.length).find? (fun i => !isBlank (s.getD i ' '))

/-- Embedding of `find_last_not_of(" \t\n\r")`. -/
def find_last_not_of (s : List Char) : Option Nat :=
  (List.range s.length).reverse.find? (fun i => !isBlank (s.getD i ' '))

/-- Embedding of the loop `while (std::getline(ss, point_str, delim))`: the
pieces that the calls return, `cur` being the characters of the current
piece read so far, last first. A call that finds the stream at its end
without having read a character fails and ends the loop. -/
def getlines (delim : Char) : List Char → List Char → List (List Char)
  | [], cur => if cur.isEmpty then [] else [cur.reverse]
  | c :: rest, cur =>
    if c = delim then cur.reverse :: getlines delim rest []
    else getlines delim rest (c :: cur)

end Str

namespace WKTParser

/-- Embedding of `WKTParser::trim`. -/
def trim (str : List Char) : Except Fault (List Char) :=
  match Str.find_first_not_of str with
  | none => .ok []
  | some first =>
    match Str.find_last_not_of str with
    | none => Str.substr str first (Str.sizeAdd (Str.sizeSub Str.npos first) 1)
    | some last => Str.substr str first (Str.sizeAdd (Str.sizeSub last first) 1)

/-- Embedding of `WKTParser::pointsEqual` with its default `epsilon = 1e-9`. -/
def pointsEqual (p1 p2 : Point) : Bool :=
  decide (|p1.lon - p2.lon| < 1 / 10 ^ 9) && decide (|p1.lat - p2.lat| < 1 / 10 ^ 9)

/-- Embedding of `WKTParser::findMatchingParen` from position `i` on, where
`str` is the text from `i` on and `depth` the counter. -/
def findMatchingParenFrom : List Char → Nat → Int → Option Nat
  | [], _, _ => none
  | c :: rest, i, depth =>
    if c = '(' then findMatchingParenFrom rest (i + 1) (depth + 1)
    else if c = ')' then
      if depth - 1 = 0 then some i else findMatchingParenFrom rest (i + 1) (depth - 1)
    else findMatchingParenFrom rest (i + 1) depth

/-- Embedding of `WKTParser::findMatchingParen`. -/
def findMatchingParen (str : List Char) (start_pos : Nat) : Option Nat :=
  findMatchingParenFrom (str.drop start_pos) start_pos 0

/-- Embedding of `point_ss >> p.lon >> p.lat`, for the reading `readDouble`
of one `double` from the front of a text (`operator>>`, which skips white
space first), giving the value and the rest of the text. -/
def readPoint (readDouble : List Char → Option (ℚ × List Char)) (point_str : List Char) :
    Option Point :=
  match readDouble point_str with
  | none => none
  | some (lon, rest) =>
    match readDouble rest with
    | none => none
    | some (lat, _) => some ⟨lon, lat⟩

/-- The body of the loop over the pieces of the first ring in
`parseSinglePolygonString`, `vertices` being `polygon.vertices`. -/
def ringPoints (readDouble : List Char → Option (ℚ × List Char)) :
    List (List Char) → List Point → Except Fault (List Point)
  | [], vertices => .ok vertices
  | point_str :: rest, vertices =>
    match trim point_str with
    | .error e => .error e
    | .ok point_str =>
      if point_str.isEmpty then ringPoints readDouble rest vertices
      else
        match readPoint readDouble point_str with
        | some p => ringPoints readDouble rest (vertices ++ [p])
        | none => ringPoints readDouble rest vertices

/-- The end of `parseSinglePolygonString`: a ring of at least 3 points whose
first and last points differ gets its first point once more. -/
def closeRing (vertices : List Point) : List Point :=
  if 3 ≤ vertices.length then
    if !pointsEqual (vertices.getD 0 ⟨0, 0⟩) (vertices.getD (vertices.length - 1) ⟨0, 0⟩) then
      vertices ++ [vertices.getD 0 ⟨0, 0⟩]
    else vertices
  else vertices

/-- Embedding of `WKTParser::parseSinglePolygonString`. -/
def parseSinglePolygonString (readDouble : List Char → Option (ℚ × List Char))
    (poly_str : List Char) : Except Fault Polygon :=
  match Str.find poly_str ['('] 0, Str.rfind poly_str [')'] with
  | some start, some endPos =>
    if start ≥ endPos then .ok ⟨[]⟩
    else
      match Str.substr poly_str (start + 1) (Str.sizeSub (Str.sizeSub endPos start) 1) with
      | .error e => .error e
      | .ok coords_str =>
        match Str.find coords_str [')'] 0 with
        | none => .ok ⟨closeRing []⟩
        | some first_ring_end =>
          match Str.substr coords_str 0 first_ring_end with
          | .error e => .error e
          | .ok first_ring =>
            match (if first_ring.head? = some '(' then Str.substr first_ring 1 Str.npos
                   else .ok first_ring) with
            | .error e => .error e
            | .ok first_ring =>
              match ringPoints readDouble (Str.getlines ',' first_ring []) [] with
              | .error e => .error e
              | .ok vertices => .ok ⟨closeRing vertices⟩
  | _, _ => .ok ⟨[]⟩

/-- Embedding of `WKTParser::parsePolygon`: the result of the function and
the zone after the call. -/
def parsePolygon (readDouble : List Char → Option (ℚ × List Char)) (wkt : List Char)
    (zone : Zone) : Except Fault (Bool × Zone) :=
  match Str.find wkt ['(', '('] 0 with
  | none => .ok (false, zone)
  | some start =>
    let endPos := match Str.rfind wkt [')', ')'] with
      | none => wkt.length
      | some e => Str.sizeAdd e 2
    match Str.substr wkt start (Str.sizeSub endPos start) with
    | .error e => .error e
    | .ok poly_str =>
      match parseSinglePolygonString readDouble poly_str with
      | .error e => .error e
      | .ok polygon =>
        if !polygon.vertices.isEmpty then
          .ok (true, { zone with polygons := zone.polygons ++ [polygon] })
        else .ok (false, zone)

/-- The loop `while (pos < polygons_str.length())` of `parseMultiPolygon`,
`polygons` being `zone.polygons`. Every turn moves `pos` forward, so that
the length of `polygons_str` is fuel enough. -/
def polygonsLoop (readDouble : List Char → Option (ℚ × List Char)) (polygons_str : List Char) :
    Nat → Nat → List Polygon → Except Fault (List Polygon)
  | 0, pos, polygons => if pos < polygons_str.length then .error .fuel else .ok polygons
  | fuel + 1, pos, polygons =>
    if pos < polygons_str.length then
      match Str.find polygons_str ['(', '('] pos with
      | none => .ok polygons
      | some poly_start =>
        match findMatchingParen polygons_str (Str.sizeAdd poly_start 1) with
        | none => .ok polygons
        | some poly_end =>
          match Str.substr polygons_str poly_start
              (Str.sizeAdd (Str.sizeSub poly_end poly_start) 1) with
          | .error e => .error e
          | .ok poly_str =>
            match parseSinglePolygonString readDouble poly_str with
            | .error e => .error e
            | .ok polygon =>
              polygonsLoop readDouble polygons_str fuel (Str.sizeAdd poly_end 1)
                (if !polygon.vertices.isEmpty then polygons ++ [polygon] else polygons)
    else .ok polygons

/-- Embedding of `WKTParser::parseMultiPolygon`: the result of the function
and the zone after the call. -/
def parseMultiPolygon (readDouble : List Char → Option (ℚ × List Char)) (wkt : List Char)
    (zone : Zone) : Except Fault (Bool × Zone) :=
  match Str.find wkt ['(', '(', '('] 0 with
  | none => .ok (false, zone)
  | some start =>
    let endPos := match Str.rfind wkt [')', ')', ')'] with
      | none => wkt.length
      | some e => Str.sizeAdd e 3
    match Str.substr wkt start (Str.sizeSub endPos start) with
    | .error e => .error e
    | .ok polygons_str =>
      match polygonsLoop readDouble polygons_str polygons_str.length 0 zone.polygons with
      | .error e => .error e
      | .ok polygons => .ok (!polygons.isEmpty, { zone with polygons := polygons })

/-- Embedding of `WKTParser::parseWKTGeometry`. -/
def parseWKTGeometry (readDouble : List Char → Option (ℚ × List Char)) (wkt : List Char)
    (zone : Zone) : Except Fault (Bool × Zone) :=
  let wkt_upper := wkt.map Char.toUpper
  if Str.find wkt_upper "MULTIPOLYGON".data 0 = some 0 then parseMultiPolygon readDouble wkt zone
  else if Str.find wkt_upper "POLYGON".data 0 = some 0 then parsePolygon readDouble wkt zone
  else .ok (false, zone)

end WKTParser

/-- The value of a run of decimal digits. -/
def digitsValue (digits : List Char) : Nat :=
  digits.foldl (fun n c => 10 * n + (c.toNat - 48)) 0

/-- A reading of one `double` for the concrete runs: white space, an
optional sign, digits and an optional fraction, as `operator>>` reads a
plain decimal numeral; the value is exact. A text that does not start so is
not read. -/
def readDecimal (s : List Char) : Option (ℚ × List Char) :=
  let s := s.dropWhile Char.isWhitespace
  let neg := s.head? = some '-'
  let s := if s.head? = some '-' ∨ s.head? = some '+' then s.drop 1 else s
  let ip := s.takeWhile Char.isDigit
  let s1 := s.dropWhile Char.isDigit
  let fp := if s1.head? = some '.' then (s1.drop 1).takeWhile Char.isDigit else []
  let s2 := if s1.head? = some '.' then (s1.drop 1).dropWhile Char.isDigit else s1
  if ip.isEmpty && fp.isEmpty then none
  else
    let v : ℚ := (digitsValue (ip ++ fp) : ℚ) / 10 ^ fp.length
    some (if neg then -v else v, s2)

/-- A zone as `parseCSV` holds it before the geometry is parsed. -/
def freshZone (id : String) : Zone := ⟨id, [], ⟨180, -180, 90, -90⟩⟩

/-- A geometry of two squares. -/
def twoSquares : List Char :=
  "MULTIPOLYGON (((0 0, 4 0, 4 4, 0 0)), ((10 10, 14 10, 14 14, 10 10)))".data

/-- The state in which the loader stores a polygon: it has a vertex, and if
it has at least 3 vertices its first and last vertices are equal within
`epsilon` on both coordinates. -/
def Polygon.Stored (poly : Polygon) : Prop :=
  poly.vertices ≠ [] ∧
  (3 ≤ poly.vertices.length →
    WKTParser.pointsEqual (poly.vertices.getD 0 ⟨0, 0⟩)
      (poly.vertices.getD (poly.vertices.length - 1) ⟨0, 0⟩) = true)

/-! ## Further definitions of the online pipeline and of the statements -/

namespace CoarseETA

/-- Embedding of `CoarseETA::setAggregateTypeField`: how the call ends, and
the object after the call. The `throw` comes before the assignment of
`aggregate_type`, and on that path `field` has not been assigned either. -/
def setAggregateTypeField (self : CoarseETA) (type : String) : Except Fault Unit × CoarseETA :=
  if type = "percentiles" then
    (.ok (), { self with field := some .percentiles, aggregate_type := type })
  else if type = "min_med_max" then
    (.ok (), { self with field := some .min_med_max, aggregate_type := type })
  else if type = "min_max" then
    (.ok (), { self with field := some .min_max, aggregate_type := type })
  else
    (.error (.exception ("Unknown aggregate type: " ++ type ++
      "\nShould be either \"percentiles\" or \"min_med_max\" or \"min_max\"\n")), self)

end CoarseETA

/-- The union of two boxes, in the words of the specification: the smallest
box that holds both. -/
def BBox.union (a b : BBox) : BBox :=
  { min_lon := min a.min_lon b.min_lon, max_lon := max a.max_lon b.max_lon,
    min_lat := min a.min_lat b.min_lat, max_lat := max a.max_lat b.max_lat }

/-- The bounding box of one polygon: a freshly initialised box expanded by
each vertex in turn. -/
def Polygon.bbox (poly : Polygon) : BBox :=
  poly.vertices.foldl (fun (b : BBox) p => b.expand p) {}

/-- The rank that lines 106 to 109 of `ETARequest` give to a target, by the
four ways `binarySearchETA` returns on a table with records: the index of a
record equal to the target; the last index, for a target above the last
record; 0, for a target below the first record; or the index of the lower
neighbour plus the fraction of the way to the upper neighbour. -/
def CoarseETA.RankAt (t : List ℚ) (os_eta rank : ℚ) : Prop :=
  (∃ mid : Nat, mid < t.length ∧ t.getD mid 0 = os_eta ∧ rank = (mid : ℚ)) ∨
  (t.getD (t.length - 1) 0 < os_eta ∧ rank = (t.length : ℚ) - 1) ∨
  (os_eta < t.getD 0 0 ∧ rank = 0) ∨
  (∃ hi : Nat, hi + 1 < t.length ∧ t.getD hi 0 < os_eta ∧ os_eta < t.getD (hi + 1) 0 ∧
    rank = (hi : ℚ) + (os_eta - t.getD hi 0) / (t.getD (hi + 1) 0 - t.getD hi 0))

/-- The linear scan of the specification: the id of the first zone, in load
order, whose `containsPoint` succeeds; the empty id when there is none. -/
def linearScan (zones : List Zone) (p : Point) : String :=
  match zones.find? (fun z => z.containsPoint p) with
  | some z => z.id
  | none => ""

/-- Every cell of the grid lists its zone indices in non-decreasing order,
and none of them exceeds `i`. -/
def GridOrdered (grid : List (List (List Int))) (i : Int) : Prop :=
  ∀ row ∈ grid, ∀ cell ∈ row, cell.Sorted (· ≤ ·) ∧ ∀ j ∈ cell, j ≤ i

/-! ## The zones file -/

namespace WKTParser

/-- Embedding of `std::isspace` on a plain character in the "C" locale:
space, tab, line feed, vertical tab, form feed, carriage return. -/
def isspace (c : Char) : Bool :=
  c = ' ' || c = '\t' || c = '\n' || c = Char.ofNat 11 || c = Char.ofNat 12 || c = '\r'

/-- The test of both loops of `trimQuotes`: a double quote or white space. -/
def isQuoteOrSpace (c : Char) : Bool := c = Char.ofNat 34 || isspace c

/-- The second loop of `trimQuotes`, `while (end > start && ...) end--`,
from the value `endPos` of `end`. -/
def trimEnd (str : List Char) (start : Nat) : Nat → Nat
  | 0 => 0
  | endPos + 1 =>
    if endPos + 1 > start && isQuoteOrSpace (str.getD endPos ' ') then trimEnd str start endPos
    else endPos + 1

/-- Embedding of `WKTParser::trimQuotes`; the first loop stops at the first
character that is neither a double quote nor white space. -/
def trimQuotes (str : List Char) : Except Fault (List Char) :=
  if str.isEmpty then .ok str
  else
    let start := (str.takeWhile isQuoteOrSpace).length
    let endPos := trimEnd str start str.length
    Str.substr str start (Str.sizeSub endPos start)

/-- The body of the loop of `parseCSV` for one data line: `none` where the
source goes on to the next line without a zone. -/
def parseLine (readDouble : List Char → Option (ℚ × List Char)) (line : List Char) :
    Except Fault (Option Zone) :=
  match Str.find line [','] 0 with
  | none => .ok none
  | some comma_pos =>
    match Str.substr line 0 comma_pos with
    | .error e => .error e
    | .ok id =>
      match Str.substr line (Str.sizeAdd comma_pos 1) Str.npos with
      | .error e => .error e
      | .ok wkt =>
        match trimQuotes wkt with
        | .error e => .error e
        | .ok wkt =>
          match parseWKTGeometry readDouble wkt (freshZone (String.mk id)) with
          | .error e => .error e
          | .ok (false, _) => .ok none
          | .ok (true, zone) => .ok (some (computeBBox zone))

/-- The loop `while (std::getline(file, line))` of `parseCSV` over the data
lines, `zones` being the vector built so far. -/
def parseLines (readDouble : List Char → Option (ℚ × List Char)) :
    List (List Char) → List Zone → Except Fault (List Zone)
  | [], zones => .ok zones
  | line :: rest, zones =>
    match parseLine readDouble line with
    | .error e => .error e
    | .ok none => parseLines readDouble rest zones
    | .ok (some zone) => parseLines readDouble rest (zones ++ [zone])

/-- Embedding of `WKTParser::parseCSV`: `file` is the text of the file, `none`
when it cannot be opened, in which case every `getline` fails. The first
line is read and dropped. -/
def parseCSV (readDouble : List Char → Option (ℚ × List Char)) (file : Option (List Char)) :
    Except Fault (List Zone) :=
  let lines := match file with
    | none => []
    | some text => Str.getlines '\n' text []
  parseLines readDouble (lines.drop 1) []

end WKTParser

/-- The zone of a data line, in the words of the specification: a line with
a comma whose geometry, the text after the first comma without the quotes
and white space around it, is accepted by `parseWKTGeometry` gives a zone
whose id is the text before the first comma; any other line gives none. -/
def zoneOfLine (readDouble : List Char → Option (ℚ × List Char)) (line : List Char) :
    Option Zone :=
  if ',' ∈ line then
    let id := line.takeWhile (fun c => c != ',')
    match WKTParser.trimQuotes (line.drop (id.length + 1)) with
    | .ok wkt =>
      match WKTParser.parseWKTGeometry readDouble wkt (freshZone (String.mk id)) with
      | .ok (true, zone) => some (WKTParser.computeBBox zone)
      | _ => none
    | .error _ => none
  else none

/-- The three vectors of an entry have the lengths that `setup_hash_table`
gives them: 2 for `min_max`, 3 for `min_med_max` and 5 for `percentiles`. -/
def AggregateValues.Sized (v : AggregateValues) : Prop :=
  v.min_max.length = 2 ∧ v.min_med_max.length = 3 ∧ v.percentiles.length = 5

/-- The members `field` and `aggregate_type` as the constructor leaves them:
it assigns neither, so `aggregate_type` is the empty string of its default
construction and `field` has no value. -/
def CoarseETA.Unset (c : CoarseETA) : Prop :=
  c.field = none ∧ c.aggregate_type = ""

/-! ## A small installation, used for the concrete runs -/

/-- Two square zones of a tenth of a degree, as `parseCSV` stores them. -/
def sampleZones : List Zone :=
  [ { id := "A"
      polygons := [⟨[⟨0, 0⟩, ⟨1 / 10, 0⟩, ⟨1 / 10, 1 / 10⟩, ⟨0, 1 / 10⟩, ⟨0, 0⟩]⟩]
      bbox := { min_lon := 0, max_lon := 1 / 10, min_lat := 0, max_lat := 1 / 10 } },
    { id := "B"
      polygons := [⟨[⟨1 / 5, 0⟩, ⟨3 / 10, 0⟩, ⟨3 / 10, 1 / 10⟩, ⟨1 / 5, 1 / 10⟩, ⟨1 / 5, 0⟩]⟩]
      bbox := { min_lon := 1 / 5, max_lon := 3 / 10, min_lat := 0, max_lat := 1 / 10 } } ]

/-- The grid index the constructor builds over `sampleZones` with ten cells
per degree. -/
def sampleIndex : GridIndex :=
  { grid := [[[], [], [], [], [], []],
             [[], [0], [0], [1], [1], []],
             [[], [0], [0], [1], [1], []],
             [[], [], [], [], [], []]]
    min_lon := -1 / 10, max_lon := 2 / 5, min_lat := -1 / 10, max_lat := 1 / 5
    grid_size_x := 6, grid_size_y := 4
    cell_width := 1 / 12, cell_height := 3 / 40
    zones := sampleZones }

/-- The zone `parseCSV` stores for the row
`,"POLYGON ((0 0, 0.1 0, 0.1 0.1, 0 0.1, 0 0))"`, whose id field is empty. -/
def anonymousZone : Zone :=
  { id := ""
    polygons := [⟨[⟨0, 0⟩, ⟨1 / 10, 0⟩, ⟨1 / 10, 1 / 10⟩, ⟨0, 1 / 10⟩, ⟨0, 0⟩]⟩]
    bbox := { min_lon := 0, max_lon := 1 / 10, min_lat := 0, max_lat := 1 / 10 } }

/-- An instance with one key, for a trip from zone A to zone B on a Friday
of January in the hour after midnight, configured for `percentiles`. -/
def sampleETA : CoarseETA :=
  { field := some .percentiles
    aggregate_type := "percentiles"
    hash_table := [("A,B,4,4,0", ⟨[50, 800], [50, 200, 800], [50, 100, 200, 400, 800]⟩)]
    time_zoning_type := .DOW_HOD
    spatialETA_path := "eta"
    spatial_index := sampleIndex }

/-- A world whose only table is `eta/A_B.bin`, whose routing engine code
ends as `reply`, and whose clock parser yields `parsed`. -/
def sampleWorld (table : List ℚ) (reply : Except Fault ℚ) (parsed : Option Tm) : World :=
  { files := fun name => if name = "eta/A_B.bin" then some table else none
    engine_reply := fun _ _ _ _ => reply
    get_time := fun _ => parsed
    indeterminate := ⟨0, 0, "", 0, 0, 0⟩ }

/-- The sample query of `main.cpp` moved into the two sample zones. -/
def sampleQuery : ETAQuery :=
  { start_long := 1 / 20, start_lat := 1 / 20, end_long := 1 / 4, end_lat := 1 / 20
    start_datetime := "2016-01-01 00:19:39" }

/-- The `struct tm` fields of `2016-01-01 00:19:39`, a Friday. -/
def sampleTm : Tm := ⟨0, 5, 0, 19⟩

/-- An instance like `sampleETA` whose only key has an empty start zone. -/
def emptyZoneETA : CoarseETA :=
  { sampleETA with
    hash_table := [(",B,4,4,0", ⟨[50, 800], [50, 200, 800], [50, 100, 200, 400, 800]⟩)] }

/-- A world like `sampleWorld` whose only table is `eta/_B.bin`, the file
of the pair with an empty start zone. -/
def emptyZoneWorld (table : List ℚ) (reply : Except Fault ℚ) (parsed : Option Tm) : World :=
  { sampleWorld table reply parsed with
    files := fun name => if name = "eta/_B.bin" then some table else none }

/-- The sample query with its start point moved outside the grid. -/
def outsideQuery : ETAQuery := { sampleQuery with start_long := 10 }

/-- An instance like `sampleETA`, configured for `min_med_max`, whose key
holds the aggregate vector `[50, 300, 900]`. -/
def medianETA : CoarseETA :=
  { sampleETA with
    field := some .min_med_max
    aggregate_type := "min_med_max"
    hash_table := [("A,B,4,4,0", ⟨[50, 900], [50, 300, 900], [50, 100, 300, 600, 900]⟩)] }

/-- A zones file of a header and five lines: two good rows, a row without a
comma, a row of an unsupported type and a row whose geometry has no point. -/
def sampleCSV : List Char :=
  ("zone_id,geometry\n" ++
   "A,\"POLYGON ((0 0, 4 0, 4 4, 0 0))\"\n" ++
   "no comma here\n" ++
   "B,\"LINESTRING (0 0, 1 1)\"\n" ++
   "C,\"POLYGON ((x y))\"\n" ++
   "D,POLYGON ((10 10, 14 10, 14 14))\n").data

/-- A triangle stored as a closed ring whose vertices are the doubles nearest
to (0.1, 40.7), (0.2, 40.8) and (0.2, 40.9). -/
def roundingRing : Polygon :=
  ⟨[⟨3602879701896397 / 36028797018963968, 2864007888030925 / 70368744177664⟩,
    ⟨3602879701896397 / 18014398509481984, 2871044762448691 / 70368744177664⟩,
    ⟨3602879701896397 / 18014398509481984, 5756163273732915 / 140737488355328⟩,
    ⟨3602879701896397 / 36028797018963968, 2864007888030925 / 70368744177664⟩]⟩

/-- The point at the latitude of the first vertex of `roundingRing` whose
longitude is the double just below the longitude of that vertex. -/
def roundingPoint : Point :=
  ⟨7205759403792793 / 72057594037927936, 2864007888030925 / 70368744177664⟩

/-- The zone `Z` that `parseCSV` stores for the ring `roundingRing`. -/
def roundingZone : Zone := WKTParser.computeBBox ⟨"Z", [roundingRing], {}⟩

/-- The rank in percent `0x1.8fffffffbb47dp+4`, a double just below 25. -/
def roundingRank : ℚ := 7036874417484925 / 281474976710656

/-- An instance like `sampleETA` on which `setAggregateTypeField` has not
been called, with the hash index loaded from a file of one entry. -/
def freshETA : CoarseETA :=
  { sampleETA with
    field := none
    aggregate_type := ""
    hash_table := CoarseETA.setup_hash_table sampleF64 zeroStack
      (some (encodeIndex sampleEnc
        [("A,B,4,4,0", [50, 800, 50, 200, 800, 50, 100, 200, 400, 800])])) [] }

/-! ## Rounding to the nearest double -/

namespace Binary64

theorem pow2_eq (e : Int) : pow2 e = (2 : ℚ) ^ e := by
  unfold pow2
  split
  · rename_i h
    obtain ⟨n, rfl⟩ := Int.eq_ofNat_of_zero_le h
    simp
  · rename_i h
    obtain ⟨n, hn⟩ := Int.eq_ofNat_of_zero_le (show 0 ≤ -e by omega)
    have he : e = -(n : Int) := by omega
    subst he
    simp

theorem pow2_pos (e : Int) : 0 < pow2 e := by
  rw [pow2_eq]; positivity

theorem log2Loop_spec : ∀ (fuel n : Nat), n ≤ fuel → 0 < n →
    2 ^ log2Loop fuel n ≤ n ∧ n < 2 ^ (log2Loop fuel n + 1)
  | 0, n, h, h0 => by omega
  | fuel + 1, n, h, h0 => by
    unfold log2Loop
    split
    · rename_i h2
      constructor
      · simpa using h0
      · simpa using h2
    · rename_i h2
      have ih := log2Loop_spec fuel (n / 2) (by omega) (by omega)
      constructor
      · rw [pow_succ]; omega
      · rw [pow_succ]; omega

theorem log2_spec (n : Nat) (h : 0 < n) : 2 ^ log2 n ≤ n ∧ n < 2 ^ (log2 n + 1) :=
  log2Loop_spec n n (le_refl _) h

theorem exponent_spec (a : ℚ) (ha : 0 < a) :
    (2 : ℚ) ^ exponent a ≤ a ∧ a < (2 : ℚ) ^ (exponent a + 1) := by
  have hnum : 0 < a.num := Rat.num_pos.2 ha
  obtain ⟨n, hn⟩ := Int.eq_ofNat_of_zero_le (le_of_lt hnum)
  have hn0 : 0 < n := by omega
  have hd0 : 0 < a.den := a.den_pos
  have hmul : a * (a.den : ℚ) = (n : ℚ) := by
    have := Rat.mul_den_eq_num a
    rw [this, hn]; simp
  obtain ⟨hn1, hn2⟩ := log2_spec n hn0
  obtain ⟨hd1, hd2⟩ := log2_spec a.den hd0
  have hn1q : (2 : ℚ) ^ (log2 n) ≤ (n : ℚ) := by exact_mod_cast hn1
  have hn2q : (n : ℚ) < (2 : ℚ) ^ (log2 n + 1) := by exact_mod_cast hn2
  have hd1q : (2 : ℚ) ^ (log2 a.den) ≤ (a.den : ℚ) := by exact_mod_cast hd1
  have hd2q : (a.den : ℚ) < (2 : ℚ) ^ (log2 a.den + 1) := by exact_mod_cast hd2
  have hdq : (0 : ℚ) < (a.den : ℚ) := by exact_mod_cast hd0
  have htn : a.num.toNat = n := by omega
  have hupper : a < (2 : ℚ) ^ ((log2 n : Int) - (log2 a.den : Int) + 1) := by
    have h1 : (2 : ℚ) ^ ((log2 n : Int) - (log2 a.den : Int) + 1) * (2 : ℚ) ^ (log2 a.den)
        = (2 : ℚ) ^ (log2 n + 1) := by
      rw [← zpow_natCast, ← zpow_add₀ (by norm_num), ← zpow_natCast]
      congr 1
      push_cast
      ring
    have h2 : a * (a.den : ℚ)
        < (2 : ℚ) ^ ((log2 n : Int) - (log2 a.den : Int) + 1) * (a.den : ℚ) := by
      calc a * (a.den : ℚ) = (n : ℚ) := hmul
        _ < (2 : ℚ) ^ (log2 n + 1) := hn2q
        _ = (2 : ℚ) ^ ((log2 n : Int) - (log2 a.den : Int) + 1) * (2 : ℚ) ^ (log2 a.den) :=
          h1.symm
        _ ≤ (2 : ℚ) ^ ((log2 n : Int) - (log2 a.den : Int) + 1) * (a.den : ℚ) :=
          mul_le_mul_of_nonneg_left hd1q (by positivity)
    exact lt_of_mul_lt_mul_right h2 (le_of_lt hdq)
  have hlower : (2 : ℚ) ^ ((log2 n : Int) - (log2 a.den : Int) - 1) ≤ a := by
    have h1 : (2 : ℚ) ^ ((log2 n : Int) - (log2 a.den : Int) - 1) * (2 : ℚ) ^ (log2 a.den + 1)
        = (2 : ℚ) ^ (log2 n) := by
      rw [← zpow_natCast, ← zpow_add₀ (by norm_num), ← zpow_natCast]
      congr 1
      push_cast
      ring
    have h2 : (2 : ℚ) ^ ((log2 n : Int) - (log2 a.den : Int) - 1) * (a.den : ℚ)
        ≤ a * (a.den : ℚ) := by
      calc (2 : ℚ) ^ ((log2 n : Int) - (log2 a.den : Int) - 1) * (a.den : ℚ)
          ≤ (2 : ℚ) ^ ((log2 n : Int) - (log2 a.den : Int) - 1) * (2 : ℚ) ^ (log2 a.den + 1) :=
            mul_le_mul_of_nonneg_left (le_of_lt hd2q) (by positivity)
        _ = (2 : ℚ) ^ (log2 n) := h1
        _ ≤ (n : ℚ) := hn1q
        _ = a * (a.den : ℚ) := hmul.symm
    exact le_of_mul_le_mul_right h2 hdq
  unfold exponent
  simp only [htn, pow2_eq]
  split
  · rename_i h
    exact ⟨h, hupper⟩
  · rename_i h
    refine ⟨hlower, ?_⟩
    rw [sub_add_cancel]
    exact lt_of_not_le h

theorem roundEven_intCast (n : Int) : roundEven (n : ℚ) = n := by
  unfold roundEven
  simp

theorem roundEven_bounds (s : ℚ) :
    (roundEven s : ℚ) ≤ s + 1 / 2 ∧ s - 1 / 2 ≤ (roundEven s : ℚ) := by
  have h1 := Int.floor_le s
  have h2 := Int.lt_floor_add_one s
  unfold roundEven
  simp only
  split_ifs with ha hb hc
  · constructor <;> linarith
  · push_cast; constructor <;> linarith
  · constructor <;> linarith
  · push_cast; constructor <;> linarith

theorem roundEven_mono (s t : ℚ) (h : s ≤ t) : roundEven s ≤ roundEven t := by
  have hs1 := Int.floor_le s
  have hs2 := Int.lt_floor_add_one s
  have ht1 := Int.floor_le t
  have ht2 := Int.lt_floor_add_one t
  have hfg : ⌊s⌋ ≤ ⌊t⌋ := Int.floor_mono h
  have hlo : ⌊t⌋ ≤ roundEven t := by
    unfold roundEven; simp only; split_ifs <;> omega
  have hhi : roundEven s ≤ ⌊s⌋ + 1 := by
    unfold roundEven; simp only; split_ifs <;> omega
  rcases lt_or_eq_of_le hfg with hlt | heq
  · omega
  · unfold roundEven
    simp only
    rw [← heq]
    split_ifs with a1 a2 a3 b1 b2 b3 b4 b5 b6 <;> first | omega | (exfalso; linarith)

theorem ulp_pos (a : ℚ) : 0 < ulp a := pow2_pos _

theorem magnitude_nonneg (a : ℚ) (ha : 0 ≤ a) : 0 ≤ magnitude a := by
  unfold magnitude
  have h0 : 0 ≤ a / ulp a := div_nonneg ha (le_of_lt (ulp_pos a))
  have := roundEven_mono 0 _ h0
  have h1 : roundEven 0 = 0 := by simpa using roundEven_intCast 0
  rw [h1] at this
  have h2 : (0 : ℚ) ≤ (roundEven (a / ulp a) : ℚ) := by exact_mod_cast this
  exact mul_nonneg h2 (le_of_lt (ulp_pos a))

theorem magnitude_zero : magnitude 0 = 0 := by
  unfold magnitude
  have h1 : roundEven 0 = 0 := by simpa using roundEven_intCast 0
  rw [zero_div, h1]
  simp

/-- The rounding error is at most half a unit in the last place. -/
theorem magnitude_error (a : ℚ) :
    magnitude a ≤ a + ulp a / 2 ∧ a - ulp a / 2 ≤ magnitude a := by
  unfold magnitude
  have hu := ulp_pos a
  obtain ⟨h1, h2⟩ := roundEven_bounds (a / ulp a)
  have e : a / ulp a * ulp a = a := div_mul_cancel₀ a (ne_of_gt hu)
  constructor
  · have := mul_le_mul_of_nonneg_right h1 (le_of_lt hu)
    rw [add_mul, e] at this
    linarith
  · have := mul_le_mul_of_nonneg_right h2 (le_of_lt hu)
    rw [sub_mul, e] at this
    linarith

theorem exponent_mono (a b : ℚ) (ha : 0 < a) (hab : a ≤ b) : exponent a ≤ exponent b := by
  obtain ⟨h1, _⟩ := exponent_spec a ha
  obtain ⟨_, h2⟩ := exponent_spec b (lt_of_lt_of_le ha hab)
  have : (2 : ℚ) ^ exponent a < (2 : ℚ) ^ (exponent b + 1) :=
    lt_of_le_of_lt h1 (lt_of_le_of_lt hab h2)
  have := (zpow_lt_zpow_iff_right₀ (by norm_num : (1 : ℚ) < 2)).1 this
  omega

theorem ulp_eq (a : ℚ) : ulp a = (2 : ℚ) ^ (scale a - 52) := by
  unfold ulp
  rw [pow2_eq]

theorem scale_mono (a b : ℚ) (ha : 0 < a) (hab : a ≤ b) : scale a ≤ scale b := by
  have := exponent_mono a b ha hab
  unfold scale
  split_ifs <;> omega

theorem lt_scale (a : ℚ) (ha : 0 < a) : a < (2 : ℚ) ^ (scale a + 1) := by
  obtain ⟨_, h2⟩ := exponent_spec a ha
  have : exponent a ≤ scale a := by unfold scale; split_ifs <;> omega
  exact lt_of_lt_of_le h2 (zpow_le_zpow_right₀ (by norm_num) (by omega))

theorem two_pow_mul (k : Nat) (e f : Int) (h : e + (k : Int) = f) :
    (((2 : Int) ^ k : Int) : ℚ) * (2 : ℚ) ^ e = (2 : ℚ) ^ f := by
  rw [← h, zpow_add₀ (by norm_num), zpow_natCast, Int.cast_pow]
  push_cast
  ring

theorem magnitude_le (a : ℚ) (ha : 0 < a) : magnitude a ≤ (2 : ℚ) ^ (scale a + 1) := by
  unfold magnitude
  rw [ulp_eq]
  have hu : (0 : ℚ) < (2 : ℚ) ^ (scale a - 52) := by positivity
  have hs : a / (2 : ℚ) ^ (scale a - 52) ≤ ((2 ^ 53 : Int) : ℚ) := by
    rw [div_le_iff₀ hu]
    rw [two_pow_mul 53 (scale a - 52) (scale a + 1) (by push_cast; ring)]
    exact le_of_lt (lt_scale a ha)
  have := roundEven_mono _ _ hs
  rw [roundEven_intCast] at this
  have h2 : (roundEven (a / (2 : ℚ) ^ (scale a - 52)) : ℚ) ≤ ((2 ^ 53 : Int) : ℚ) := by
    exact_mod_cast this
  have := mul_le_mul_of_nonneg_right h2 (le_of_lt hu)
  have e := two_pow_mul 53 (scale a - 52) (scale a + 1) (by push_cast; ring)
  rw [e] at this
  exact this

theorem le_magnitude (a : ℚ) (ha : 0 < a) (hn : -1022 < scale a) :
    (2 : ℚ) ^ scale a ≤ magnitude a := by
  have hse : scale a = exponent a := by
    unfold scale at hn ⊢
    split_ifs at hn ⊢ with h
    · omega
    · rfl
  obtain ⟨h1, _⟩ := exponent_spec a ha
  rw [← hse] at h1
  unfold magnitude
  rw [ulp_eq]
  have hu : (0 : ℚ) < (2 : ℚ) ^ (scale a - 52) := by positivity
  have e := two_pow_mul 52 (scale a - 52) (scale a) (by push_cast; ring)
  have hs : ((2 ^ 52 : Int) : ℚ) ≤ a / (2 : ℚ) ^ (scale a - 52) := by
    rw [le_div_iff₀ hu, e]
    exact h1
  have := roundEven_mono _ _ hs
  rw [roundEven_intCast] at this
  have h2 : ((2 ^ 52 : Int) : ℚ) ≤ (roundEven (a / (2 : ℚ) ^ (scale a - 52)) : ℚ) := by
    exact_mod_cast this
  have := mul_le_mul_of_nonneg_right h2 (le_of_lt hu)
  rw [e] at this
  exact this

theorem magnitude_mono (a b : ℚ) (ha : 0 ≤ a) (hab : a ≤ b) : magnitude a ≤ magnitude b := by
  rcases eq_or_lt_of_le ha with h0 | hpos
  · rw [← h0, magnitude_zero]
    exact magnitude_nonneg b (le_trans ha hab)
  · have hb : 0 < b := lt_of_lt_of_le hpos hab
    rcases lt_or_eq_of_le (scale_mono a b hpos hab) with hlt | heq
    · have h1 := magnitude_le a hpos
      have hn : -1022 < scale b := by
        have : -1022 ≤ scale a := by unfold scale; split_ifs <;> omega
        omega
      have h2 := le_magnitude b hb hn
      have h3 : (2 : ℚ) ^ (scale a + 1) ≤ (2 : ℚ) ^ scale b :=
        zpow_le_zpow_right₀ (by norm_num) (by omega)
      linarith
    · unfold magnitude
      rw [ulp_eq, ulp_eq, heq]
      have hu : (0 : ℚ) < (2 : ℚ) ^ (scale b - 52) := by positivity
      have hs : a / (2 : ℚ) ^ (scale b - 52) ≤ b / (2 : ℚ) ^ (scale b - 52) :=
        div_le_div_of_nonneg_right hab (le_of_lt hu)
      have := roundEven_mono _ _ hs
      have h2 : (roundEven (a / (2 : ℚ) ^ (scale b - 52)) : ℚ)
          ≤ (roundEven (b / (2 : ℚ) ^ (scale b - 52)) : ℚ) := by exact_mod_cast this
      exact mul_le_mul_of_nonneg_right h2 (le_of_lt hu)

/-- Rounding to nearest keeps the order. -/
theorem nearest_mono (p q : ℚ) (h : p ≤ q) : nearest p ≤ nearest q := by
  unfold nearest
  split_ifs with hp hq hq
  · exact magnitude_mono p q hp h
  · exact absurd (le_trans hp h) hq
  · have h1 := magnitude_nonneg (-p) (by linarith)
    have h2 := magnitude_nonneg q hq
    linarith
  · have := magnitude_mono (-q) (-p) (by linarith) (by linarith)
    linarith

set_option maxRecDepth 100000 in
theorem nearest_nano :
    nearest (1 / 1000000000) = 4835703278458517 / 4835703278458516698824704 := by
  with_unfolding_all rfl

theorem scale_le (q : ℚ) (hq0 : 0 < q) (e : Int) (he : -1022 ≤ e) (hq : q < (2 : ℚ) ^ (e + 1)) :
    scale q ≤ e := by
  obtain ⟨h1, _⟩ := exponent_spec q hq0
  have := (zpow_lt_zpow_iff_right₀ (by norm_num : (1 : ℚ) < 2)).1 (lt_of_le_of_lt h1 hq)
  unfold scale
  split_ifs <;> omega

/-- Below 128 the rounding moves a value by at most `2^-47`. -/
theorem nearest_lower (q : ℚ) (hq0 : 0 < q) (hq : q < 128) :
    q - 1 / 140737488355328 ≤ nearest q := by
  have hs : scale q ≤ 6 := scale_le q hq0 6 (by norm_num) (by norm_num; linarith)
  have hu : ulp q ≤ 1 / 70368744177664 := by
    rw [ulp_eq]
    calc (2 : ℚ) ^ (scale q - 52) ≤ (2 : ℚ) ^ (-46 : Int) :=
          zpow_le_zpow_right₀ (by norm_num) (by omega)
      _ = 1 / 70368744177664 := by norm_num
  unfold nearest
  rw [if_pos (le_of_lt hq0)]
  have := (magnitude_error q).2
  linarith

/-- Adding `1e-9` to a rank in percent never gives less than the rank. -/
theorem le_add_nano (r : ℚ) (h0 : 0 ≤ r) (h1 : r ≤ 100) :
    r ≤ add r (nearest (1 / 1000000000)) := by
  unfold add
  rw [nearest_nano]
  have := nearest_lower (r + 4835703278458517 / 4835703278458516698824704)
    (by positivity) (by norm_num; linarith)
  have h2 : (1 : ℚ) / 140737488355328 ≤ 4835703278458517 / 4835703278458516698824704 := by
    norm_num
  linarith

theorem add_nano_mono (r1 r2 : ℚ) (h : r1 ≤ r2) :
    add r1 (nearest (1 / 1000000000)) ≤ add r2 (nearest (1 / 1000000000)) :=
  nearest_mono _ _ (by linarith)

set_option exponentiation.threshold 2000 in
set_option maxRecDepth 100000 in
theorem nearest_least : nearest (pow2 (-1074)) = pow2 (-1074) := by
  with_unfolding_all rfl

theorem scale_ge (a : ℚ) : -1022 ≤ scale a := by
  unfold scale
  split_ifs <;> omega

/-- Every double is a whole multiple of the least subnormal `2^-1074`. -/
theorem magnitude_grid (a : ℚ) : ∃ j : Int, magnitude a = (j : ℚ) * (2 : ℚ) ^ (-1074 : Int) := by
  unfold magnitude
  rw [ulp_eq]
  obtain ⟨k, hk⟩ := Int.eq_ofNat_of_zero_le (show 0 ≤ scale a + 1022 by
    have := scale_ge a; omega)
  refine ⟨roundEven (a / (2 : ℚ) ^ (scale a - 52)) * 2 ^ k, ?_⟩
  have : (2 : ℚ) ^ (scale a - 52) = (((2 : Int) ^ k : Int) : ℚ) * (2 : ℚ) ^ (-1074 : Int) := by
    rw [two_pow_mul k (-1074) (scale a - 52) (by omega)]
  rw [this]
  push_cast
  ring

theorem nearest_grid (q : ℚ) : ∃ j : Int, nearest q = (j : ℚ) * (2 : ℚ) ^ (-1074 : Int) := by
  unfold nearest
  split_ifs
  · exact magnitude_grid q
  · obtain ⟨j, hj⟩ := magnitude_grid (-q)
    exact ⟨-j, by rw [hj]; push_cast; ring⟩

/-- The difference of two distinct doubles is not rounded to zero. -/
theorem sub_ne_zero_of_ne (a b : ℚ) (ha : nearest a = a) (hb : nearest b = b) (hab : a ≠ b) :
    sub a b ≠ 0 := by
  obtain ⟨ja, hja⟩ := nearest_grid a
  obtain ⟨jb, hjb⟩ := nearest_grid b
  rw [ha] at hja
  rw [hb] at hjb
  have hg : (0 : ℚ) < (2 : ℚ) ^ (-1074 : Int) := by positivity
  have hne : ja ≠ jb := by
    intro h
    apply hab
    rw [hja, hjb, h]
  have hl := nearest_least
  rw [pow2_eq] at hl
  unfold sub
  rcases lt_or_gt_of_ne hne with hlt | hgt
  · have h1 : ((ja : ℚ)) + 1 ≤ (jb : ℚ) := by exact_mod_cast hlt
    have h2 : a - b ≤ -((2 : ℚ) ^ (-1074 : Int)) := by
      rw [hja, hjb]
      nlinarith
    have h3 := nearest_mono _ _ h2
    have h4 : nearest (-((2 : ℚ) ^ (-1074 : Int))) = -((2 : ℚ) ^ (-1074 : Int)) := by
      unfold nearest
      rw [if_neg (by linarith), neg_neg]
      unfold nearest at hl
      rw [if_pos (le_of_lt hg)] at hl
      rw [hl]
    rw [h4] at h3
    intro h0
    rw [h0] at h3
    linarith
  · have h1 : ((jb : ℚ)) + 1 ≤ (ja : ℚ) := by exact_mod_cast hgt
    have h2 : (2 : ℚ) ^ (-1074 : Int) ≤ a - b := by
      rw [hja, hjb]
      nlinarith
    have h3 := nearest_mono _ _ h2
    rw [hl] at h3
    intro h0
    rw [h0] at h3
    linarith

end Binary64

namespace CoarseETA

/-- The tolerance test of `FindStat` never compares with less than the rank
itself, for a rank in percent between 0 and 100. -/
theorem le_rankPlusEps (r : ℚ) (h0 : 0 ≤ r) (h1 : r ≤ 100) : r ≤ rankPlusEps r :=
  Binary64.le_add_nano r h0 h1

theorem rankPlusEps_mono (r1 r2 : ℚ) (h : r1 ≤ r2) : rankPlusEps r1 ≤ rankPlusEps r2 :=
  Binary64.add_nano_mono r1 r2 h

end CoarseETA

/-! ## The ETA table search -/

namespace CoarseETA

theorem readETA_of_range (f : List ℚ) (i : Int) (h0 : 0 ≤ i) (h1 : i < f.length) :
    ∃ v, readETA f i = .ok v ∧ f.get? i.toNat = some v := by
  have hlt : i.toNat < f.length := by omega
  refine ⟨f.get ⟨i.toNat, hlt⟩, ?_, ?_⟩
  · unfold readETA
    rw [if_neg (by omega)]
    rw [List.get?_eq_get hlt]
  · exact List.get?_eq_get hlt

theorem readETA_ok_range (f : List ℚ) (i : Int) (v : ℚ) (h : readETA f i = .ok v) :
    0 ≤ i ∧ i < f.length ∧ f.get? i.toNat = some v := by
  unfold readETA at h
  split at h
  · cases h
  · rename_i hneg
    split at h
    · rename_i eta he
      cases h
      have := List.get?_eq_some.1 he
      obtain ⟨hlt, _⟩ := this
      refine ⟨by omega, by omega, he⟩
    · cases h

theorem tdiv_two_bounds (d : Int) (h : 0 ≤ d) : 0 ≤ Int.tdiv d 2 ∧ 2 * Int.tdiv d 2 ≤ d := by
  rw [Int.tdiv_eq_ediv h (by decide)]
  omega

/-- The loop of `binarySearchETA` ends, within a budget of one iteration per
record of the window, either on a record equal to the target or with an
empty window whose two ends bracket the target. No order on the table is
used. -/
theorem searchLoop_spec (f : List ℚ) (os_eta : ℚ) :
    ∀ (fuel : Nat) (lo hi : Int), 0 ≤ lo → hi < f.length → lo ≤ hi + 1 →
      hi + 1 - lo ≤ fuel → LoInv f os_eta lo → HiInv f os_eta hi →
      (∃ mid : Int, 0 ≤ mid ∧ mid < f.length ∧ readETA f mid = .ok os_eta ∧
          searchLoop f os_eta fuel lo hi = .ok (.hit mid os_eta)) ∨
      (∃ lo1 hi1 : Int, searchLoop f os_eta fuel lo hi = .ok (.miss lo1 hi1) ∧
          lo1 = hi1 + 1 ∧ 0 ≤ lo1 ∧ lo1 ≤ f.length ∧
          LoInv f os_eta lo1 ∧ HiInv f os_eta hi1) := by
  intro fuel
  induction fuel with
  | zero =>
    intro lo hi h0 h1 h2 h3 hA hB
    right
    refine ⟨lo, hi, ?_, by omega, h0, by omega, hA, hB⟩
    unfold searchLoop
    rw [if_neg (by omega)]
  | succ n ih =>
    intro lo hi h0 h1 h2 h3 hA hB
    by_cases hle : lo ≤ hi
    · obtain ⟨hd0, hd1⟩ := tdiv_two_bounds (hi - lo) (by omega)
      obtain ⟨v, hv, _⟩ := readETA_of_range f (lo + Int.tdiv (hi - lo) 2) (by omega) (by omega)
      unfold searchLoop
      rw [if_pos hle]
      simp only [hv]
      by_cases heq : v = os_eta
      · left
        subst heq
        exact ⟨_, by omega, by omega, hv, by rw [if_pos rfl]⟩
      · rw [if_neg heq]
        by_cases hlt : v < os_eta
        · rw [if_pos hlt]
          apply ih _ _ (by omega) h1 (by omega) (by push_cast at h3 ⊢; omega) _ hB
          right
          refine ⟨v, ?_, hlt⟩
          rw [← hv]; congr 1; omega
        · rw [if_neg hlt]
          apply ih _ _ h0 (by omega) (by omega) (by push_cast at h3 ⊢; omega) hA
          right
          refine ⟨v, ?_, lt_of_le_of_ne (not_lt.1 hlt) (Ne.symm heq)⟩
          rw [← hv]; congr 1; omega
    · right
      refine ⟨lo, hi, ?_, by omega, h0, by omega, hA, hB⟩
      unfold searchLoop
      rw [if_neg hle]

/-- The four ways `binarySearchETA` returns on a table with at least one
record: exact hit, snap to the last record, snap to the first record, or a
pair of neighbours around the target. No order on the table is used. -/
theorem binarySearchETA_cases (path : String) (files : ETAFiles) (z1 z2 : String)
    (os_eta : ℚ) (t : List ℚ) (hfile : files (tableName path z1 z2) = some t) (hne : t ≠ []) :
    (∃ mid : Int, 0 ≤ mid ∧ mid < t.length ∧ readETA t mid = .ok os_eta ∧
        binarySearchETA path files z1 z2 os_eta = .ok ⟨mid, os_eta, -1, -1, t.length⟩) ∨
    (∃ v, readETA t ((t.length : Int) - 1) = .ok v ∧ v < os_eta ∧
        binarySearchETA path files z1 z2 os_eta = .ok ⟨(t.length : Int) - 1, v, -1, -1, t.length⟩) ∨
    (∃ v, readETA t 0 = .ok v ∧ os_eta < v ∧
        binarySearchETA path files z1 z2 os_eta = .ok ⟨0, v, -1, -1, t.length⟩) ∨
    (∃ (hi : Int) (v1 v2 : ℚ), 0 ≤ hi ∧ hi + 1 < t.length ∧ readETA t hi = .ok v1 ∧
        readETA t (hi + 1) = .ok v2 ∧ v1 < os_eta ∧ os_eta < v2 ∧
        binarySearchETA path files z1 z2 os_eta = .ok ⟨hi, v1, hi + 1, v2, t.length⟩) := by
  have hlen : 0 < t.length := List.length_pos.2 hne
  have hspec := searchLoop_spec t os_eta ((t.length : Int).toNat) 0 ((t.length : Int) - 1)
    (le_refl _) (by omega) (by omega) (by simp) (Or.inl rfl) (Or.inl rfl)
  unfold binarySearchETA
  simp only [hfile]
  rw [if_neg (by omega)]
  rcases hspec with ⟨mid, h0, h1, hr, hs⟩ | ⟨lo1, hi1, hs, hlh, h0, h1, hA, hB⟩
  · left
    refine ⟨mid, h0, h1, hr, ?_⟩
    simp only [hs]
    simp
  · right
    simp only [hs]
    by_cases hmax : lo1 ≥ (t.length : Int)
    · left
      rw [if_pos hmax]
      rcases hA with hA | ⟨v, hv, hlt⟩
      · omega
      · have hidx : lo1 - 1 = (t.length : Int) - 1 := by omega
        rw [hidx] at hv
        refine ⟨v, hv, hlt, ?_⟩
        simp only [hv]
        simp
    · right
      rw [if_neg hmax]
      by_cases hmin : hi1 < 0
      · left
        rw [if_pos hmin]
        rcases hB with hB | ⟨v, hv, hlt⟩
        · omega
        · have hidx : hi1 + 1 = 0 := by omega
          rw [hidx] at hv
          refine ⟨v, hv, hlt, ?_⟩
          simp only [hv]
          simp
      · right
        rw [if_neg hmin]
        rcases hA with hA | ⟨v1, hv1, hlt1⟩
        · omega
        · rcases hB with hB | ⟨v2, hv2, hlt2⟩
          · omega
          · have hidx : lo1 - 1 = hi1 := by omega
            rw [hidx] at hv1
            have hidx2 : lo1 = hi1 + 1 := hlh
            refine ⟨hi1, v1, v2, by omega, by omega, hv1, hv2, hlt1, hlt2, ?_⟩
            subst hidx2
            simp only [hv1, hv2]
            simp

/-- C1. For every ETA table with at least one record whose ETAs are sorted
non-decreasing and every `os_eta`, `binarySearchETA` returns a result whose
`record_eta1` is an index of the table (with `eta1` the value stored there),
and whenever `record_eta2 ≠ -1` the two values bracket the target strictly,
`eta1 < os_eta < eta2`, at adjacent indices `record_eta2 = record_eta1 + 1`. -/
theorem binarySearchETA_bracket (path : String) (files : ETAFiles) (z1 z2 : String)
    (os_eta : ℚ) (t : List ℚ) (hfile : files (tableName path z1 z2) = some t)
    (hne : t ≠ []) (_hsorted : t.Sorted (· ≤ ·)) :
    ∃ r, binarySearchETA path files z1 z2 os_eta = .ok r ∧
      r.total_records = t.length ∧
      0 ≤ r.record_eta1 ∧ r.record_eta1 < t.length ∧
      t.get? r.record_eta1.toNat = some r.eta1 ∧
      (r.record_eta2 ≠ -1 →
        r.eta1 < os_eta ∧ os_eta < r.eta2 ∧ r.record_eta2 = r.record_eta1 + 1 ∧
        t.get? r.record_eta2.toNat = some r.eta2) := by
  have hlen : 0 < t.length := List.length_pos.2 hne
  rcases binarySearchETA_cases path files z1 z2 os_eta t hfile hne with
    ⟨mid, h0, h1, hr, hs⟩ | ⟨v, hr, _, hs⟩ | ⟨v, hr, _, hs⟩ | ⟨hi, v1, v2, h0, h1, hr1, hr2, hl1, hl2, hs⟩
  · exact ⟨_, hs, rfl, h0, h1, (readETA_ok_range _ _ _ hr).2.2, fun h => absurd rfl h⟩
  · exact ⟨_, hs, rfl, by show (0 : Int) ≤ (t.length : Int) - 1; omega,
      by show (t.length : Int) - 1 < t.length; omega,
      (readETA_ok_range _ _ _ hr).2.2, fun h => absurd rfl h⟩
  · exact ⟨_, hs, rfl, le_refl _, by show (0 : Int) < t.length; omega,
      (readETA_ok_range _ _ _ hr).2.2, fun h => absurd rfl h⟩
  · exact ⟨_, hs, rfl, h0, by show hi < (t.length : Int); omega,
      (readETA_ok_range _ _ _ hr1).2.2,
      fun _ => ⟨hl1, hl2, rfl, (readETA_ok_range _ _ _ hr2).2.2⟩⟩

/-- C1 at the table `[10, 20, 30, 40, 50]` with target `35`. -/
theorem binarySearchETA_bracket_witness :
    ∃ r, binarySearchETA "eta" (fun _ => some [10, 20, 30, 40, 50]) "A" "B" 35 = .ok r ∧
      r.total_records = ([10, 20, 30, 40, 50] : List ℚ).length ∧
      0 ≤ r.record_eta1 ∧ r.record_eta1 < ([10, 20, 30, 40, 50] : List ℚ).length ∧
      ([10, 20, 30, 40, 50] : List ℚ).get? r.record_eta1.toNat = some r.eta1 ∧
      (r.record_eta2 ≠ -1 →
        r.eta1 < 35 ∧ 35 < r.eta2 ∧ r.record_eta2 = r.record_eta1 + 1 ∧
        ([10, 20, 30, 40, 50] : List ℚ).get? r.record_eta2.toNat = some r.eta2) :=
  binarySearchETA_bracket "eta" (fun _ => some [10, 20, 30, 40, 50]) "A" "B" 35
    [10, 20, 30, 40, 50] rfl (by simp) (by norm_num [List.Sorted])

end CoarseETA

/-! ## The temporal zoner -/

namespace CoarseETA

/-- After a successful parse, the season `timeZoning` stores is the source's
expression in the month. -/
theorem timeZoning_season_eq (get_time : String → Option Tm) (indeterminate : TimeZone)
    (s : String) (tm : Tm) (hparse : get_time s = some tm) :
    (timeZoning get_time indeterminate s).season
      = Int.tdiv (Int.tmod (tm.tm_mon + 1 + 9) 12) 3 + 1 := by
  unfold timeZoning
  simp only [hparse]

/-- After a successful parse, the weekday and the rounded hour `timeZoning`
stores. -/
theorem timeZoning_fields_eq (get_time : String → Option Tm) (indeterminate : TimeZone)
    (s : String) (tm : Tm) (hparse : get_time s = some tm) :
    (timeZoning get_time indeterminate s).day_of_week = Int.tmod (tm.tm_wday + 6) 7 ∧
    (timeZoning get_time indeterminate s).adjusted_hour
      = Int.tmod (tm.tm_hour + (if tm.tm_min > 30 then 1 else 0)) 24 := by
  unfold timeZoning
  simp only [hparse]
  constructor <;> split <;> rfl

/-- Every hour of the day lies in the first range of the table that the
loop of `timeZoning` accepts, and that range is found. -/
theorem ranges_find (a : Int) (h0 : 0 ≤ a) (h1 : a ≤ 23) :
    ∃ r, ranges.find? (fun range => decide (a ≥ range.1) && decide (a ≤ range.2)) = some r ∧
      r ∈ ranges ∧ r.1 ≤ a ∧ a ≤ r.2 := by
  interval_cases a <;> exact ⟨_, by rfl, by decide, by decide, by decide⟩

/-- After a successful parse with an hour of the day, the range
`timeZoning` stores is the first range of the table containing the rounded
hour. -/
theorem timeZoning_range (get_time : String → Option Tm) (indeterminate : TimeZone)
    (s : String) (tm : Tm) (hparse : get_time s = some tm)
    (h0 : 0 ≤ Int.tmod (tm.tm_hour + (if tm.tm_min > 30 then 1 else 0)) 24)
    (h1 : Int.tmod (tm.tm_hour + (if tm.tm_min > 30 then 1 else 0)) 24 ≤ 23) :
    ((timeZoning get_time indeterminate s).start_hour,
        (timeZoning get_time indeterminate s).end_hour) ∈ ranges ∧
    (timeZoning get_time indeterminate s).start_hour
      ≤ (timeZoning get_time indeterminate s).adjusted_hour ∧
    (timeZoning get_time indeterminate s).adjusted_hour
      ≤ (timeZoning get_time indeterminate s).end_hour := by
  obtain ⟨r, hfind, hmem, hr0, hr1⟩ := ranges_find _ h0 h1
  unfold timeZoning
  simp only [hparse, hfind]
  exact ⟨hmem, hr0, hr1⟩

/-- What the season expression of `timeZoning` yields on the twelve months:
4 for December, January and February, 1 for March to May, 2 for June to
August and 3 for September to November. -/
theorem timeZoning_season_table (get_time : String → Option Tm) (indeterminate : TimeZone)
    (s : String) (tm : Tm) (hparse : get_time s = some tm)
    (hlo : 1 ≤ tm.tm_mon + 1) (hhi : tm.tm_mon + 1 ≤ 12) :
    (timeZoning get_time indeterminate s).season
        = (if tm.tm_mon + 1 = 12 ∨ tm.tm_mon + 1 = 1 ∨ tm.tm_mon + 1 = 2 then 4
          else if 3 ≤ tm.tm_mon + 1 ∧ tm.tm_mon + 1 ≤ 5 then 1
          else if 6 ≤ tm.tm_mon + 1 ∧ tm.tm_mon + 1 ≤ 8 then 2
          else 3) := by
  rw [timeZoning_season_eq get_time indeterminate s tm hparse]
  generalize tm.tm_mon + 1 = month at hlo hhi
  interval_cases month <;> decide

/-- C7, at the failing input. For the sample query of `main.cpp`,
`2016-01-01 00:19:39` (January: `tm_mon = 0`, a Friday), `timeZoning` stores
the season `((1 + 9) mod 12) div 3 + 1 = 4`, where the comments of
`timeZoning` and of `struct TimeZone` give season 1 to December, January and
February. The same holds for the other two winter months. -/
theorem timeZoning_season_january :
    (timeZoning (fun _ => some ⟨0, 5, 0, 19⟩) ⟨0, 0, "", 0, 0, 0⟩ "2016-01-01 00:19:39").season = 4 ∧
    (timeZoning (fun _ => some ⟨0, 5, 0, 19⟩) ⟨0, 0, "", 0, 0, 0⟩ "2016-01-01 00:19:39").season ≠ 1 ∧
    (timeZoning (fun _ => some ⟨1, 1, 0, 19⟩) ⟨0, 0, "", 0, 0, 0⟩ "2016-02-01 00:19:39").season = 4 ∧
    (timeZoning (fun _ => some ⟨11, 4, 0, 19⟩) ⟨0, 0, "", 0, 0, 0⟩ "2016-12-01 00:19:39").season = 4 ∧
    (timeZoning (fun _ => some ⟨2, 2, 0, 19⟩) ⟨0, 0, "", 0, 0, 0⟩ "2016-03-01 00:19:39").season = 1 := by
  decide

/-- C8. For every timestamp that parses with month in 1..12, weekday in
0..6, hour in 0..23 and minute in 0..59, the `TimeZone` that `timeZoning`
returns has season in 1..4, day of week in 0..6, rounded hour in 0..23, a
pair `(start_hour, end_hour)` equal to one of the six ranges of the table
(which are pairwise different), and `start_hour ≤ adjusted_hour ≤ end_hour`. -/
theorem timeZoning_bucket (get_time : String → Option Tm) (indeterminate : TimeZone)
    (s : String) (tm : Tm) (hparse : get_time s = some tm)
    (hmon : 1 ≤ tm.tm_mon + 1 ∧ tm.tm_mon + 1 ≤ 12)
    (hwday : 0 ≤ tm.tm_wday ∧ tm.tm_wday ≤ 6)
    (hhour : 0 ≤ tm.tm_hour ∧ tm.tm_hour ≤ 23)
    (_hmin : 0 ≤ tm.tm_min ∧ tm.tm_min ≤ 59) :
    (1 ≤ (timeZoning get_time indeterminate s).season ∧
      (timeZoning get_time indeterminate s).season ≤ 4) ∧
    (0 ≤ (timeZoning get_time indeterminate s).day_of_week ∧
      (timeZoning get_time indeterminate s).day_of_week ≤ 6) ∧
    (0 ≤ (timeZoning get_time indeterminate s).adjusted_hour ∧
      (timeZoning get_time indeterminate s).adjusted_hour ≤ 23) ∧
    (((timeZoning get_time indeterminate s).start_hour,
        (timeZoning get_time indeterminate s).end_hour)
      ∈ [((0 : Int), (6 : Int)), (7, 10), (11, 13), (14, 16), (17, 19), (20, 23)]) ∧
    ([((0 : Int), (6 : Int)), (7, 10), (11, 13), (14, 16), (17, 19), (20, 23)].Nodup) ∧
    (timeZoning get_time indeterminate s).start_hour
      ≤ (timeZoning get_time indeterminate s).adjusted_hour ∧
    (timeZoning get_time indeterminate s).adjusted_hour
      ≤ (timeZoning get_time indeterminate s).end_hour := by
  have hadj : 0 ≤ Int.tmod (tm.tm_hour + (if tm.tm_min > 30 then 1 else 0)) 24 ∧
      Int.tmod (tm.tm_hour + (if tm.tm_min > 30 then 1 else 0)) 24 ≤ 23 := by
    obtain ⟨h0, h1⟩ := hhour
    split
    · rw [Int.tmod_eq_emod (by omega) (by decide)]; omega
    · rw [Int.tmod_eq_emod (by omega) (by decide)]; omega
  have hrange := timeZoning_range get_time indeterminate s tm hparse hadj.1 hadj.2
  obtain ⟨hd, ha⟩ := timeZoning_fields_eq get_time indeterminate s tm hparse
  have hs := timeZoning_season_eq get_time indeterminate s tm hparse
  refine ⟨?_, ?_, ?_, hrange.1, by decide, hrange.2.1, hrange.2.2⟩
  · rw [hs]
    obtain ⟨h0, h1⟩ := hmon
    generalize tm.tm_mon + 1 = month at h0 h1
    interval_cases month <;> decide
  · rw [hd]
    obtain ⟨h0, h1⟩ := hwday
    rw [Int.tmod_eq_emod (by omega) (by decide)]; omega
  · rw [ha]; exact hadj

/-- C8 at `2016-01-01 00:19:39`, a Friday (`tm_mon = 0`, `tm_wday = 5`). -/
theorem timeZoning_bucket_witness :
    (1 ≤ (timeZoning (fun _ => some ⟨0, 5, 0, 19⟩) ⟨0, 0, "", 0, 0, 0⟩ "2016-01-01 00:19:39").season ∧
      (timeZoning (fun _ => some ⟨0, 5, 0, 19⟩) ⟨0, 0, "", 0, 0, 0⟩ "2016-01-01 00:19:39").season ≤ 4) ∧
    (0 ≤ (timeZoning (fun _ => some ⟨0, 5, 0, 19⟩) ⟨0, 0, "", 0, 0, 0⟩ "2016-01-01 00:19:39").day_of_week ∧
      (timeZoning (fun _ => some ⟨0, 5, 0, 19⟩) ⟨0, 0, "", 0, 0, 0⟩ "2016-01-01 00:19:39").day_of_week ≤ 6) ∧
    (0 ≤ (timeZoning (fun _ => some ⟨0, 5, 0, 19⟩) ⟨0, 0, "", 0, 0, 0⟩ "2016-01-01 00:19:39").adjusted_hour ∧
      (timeZoning (fun _ => some ⟨0, 5, 0, 19⟩) ⟨0, 0, "", 0, 0, 0⟩ "2016-01-01 00:19:39").adjusted_hour ≤ 23) ∧
    (((timeZoning (fun _ => some ⟨0, 5, 0, 19⟩) ⟨0, 0, "", 0, 0, 0⟩ "2016-01-01 00:19:39").start_hour,
        (timeZoning (fun _ => some ⟨0, 5, 0, 19⟩) ⟨0, 0, "", 0, 0, 0⟩ "2016-01-01 00:19:39").end_hour)
      ∈ [((0 : Int), (6 : Int)), (7, 10), (11, 13), (14, 16), (17, 19), (20, 23)]) ∧
    ([((0 : Int), (6 : Int)), (7, 10), (11, 13), (14, 16), (17, 19), (20, 23)].Nodup) ∧
    (timeZoning (fun _ => some ⟨0, 5, 0, 19⟩) ⟨0, 0, "", 0, 0, 0⟩ "2016-01-01 00:19:39").start_hour
      ≤ (timeZoning (fun _ => some ⟨0, 5, 0, 19⟩) ⟨0, 0, "", 0, 0, 0⟩ "2016-01-01 00:19:39").adjusted_hour ∧
    (timeZoning (fun _ => some ⟨0, 5, 0, 19⟩) ⟨0, 0, "", 0, 0, 0⟩ "2016-01-01 00:19:39").adjusted_hour
      ≤ (timeZoning (fun _ => some ⟨0, 5, 0, 19⟩) ⟨0, 0, "", 0, 0, 0⟩ "2016-01-01 00:19:39").end_hour :=
  timeZoning_bucket (fun _ => some ⟨0, 5, 0, 19⟩) ⟨0, 0, "", 0, 0, 0⟩ "2016-01-01 00:19:39"
    ⟨0, 5, 0, 19⟩ rfl (by decide) (by decide) (by decide) (by decide)

end CoarseETA

/-! ## The pipeline from the table search on -/

namespace CoarseETA

/-- Once the run has reached the table search, the `try` block is the table
search followed by the two interpolations. -/
theorem ETARequestTry_of_reaches (self : CoarseETA) (w : World) (query : ETAQuery)
    (z1 z2 : String) (x y : List ℚ) (os_eta : ℚ)
    (h : Reaches self w query z1 z2 x y os_eta) :
    ETARequestTry self w query =
      (match binarySearchETA self.spatialETA_path w.files z1 z2 os_eta with
        | .error e => .error e
        | .ok search_result =>
          interpolatedEta x y (rankPercent search_result (rankOf search_result os_eta))) := by
  obtain ⟨values, field, hv, hf, hy⟩ := h.values
  unfold ETARequestTry
  simp only [bind, Except.bind, h.start_zone, h.end_zone, h.ranks, hv, hf, h.engine, pure,
    Except.pure, hy]
  cases binarySearchETA self.spatialETA_path w.files z1 z2 os_eta with
  | error e => rfl
  | ok sr =>
    simp only [interpolatedEta]
    cases FindStat x y (rankPercent sr (rankOf sr os_eta)) <;> rfl

/-- The value `ETARequest` returns when the table search and the percentile
lookup both return. -/
theorem ETARequest_of_reaches (self : CoarseETA) (w : World) (query : ETAQuery)
    (z1 z2 : String) (x y : List ℚ) (os_eta : ℚ) (sr : SearchResult) (eta : ℚ)
    (h : Reaches self w query z1 z2 x y os_eta)
    (hs : binarySearchETA self.spatialETA_path w.files z1 z2 os_eta = .ok sr)
    (he : interpolatedEta x y (rankPercent sr (rankOf sr os_eta)) = .ok eta) :
    ETARequest self w query = some eta := by
  unfold ETARequest
  rw [ETARequestTry_of_reaches self w query z1 z2 x y os_eta h, hs]
  simp only [he]

/-- The rank vector found for the aggregate type is one of the three the
constructor stores. -/
theorem ranks_cases (aggregate_type : String) (x : List ℚ)
    (h : mapAt aggregate_ranks aggregate_type = .ok x) :
    x = [0, 100] ∨ x = [0, 50, 100] ∨ x = [0, 25, 50, 75, 100] := by
  unfold mapAt aggregate_ranks at h
  by_cases h1 : aggregate_type = "min_max"
  · subst h1
    simp [List.lookup] at h
    exact Or.inl h.symm
  · by_cases h2 : aggregate_type = "min_med_max"
    · subst h2
      simp [List.lookup] at h
      exact Or.inr (Or.inl h.symm)
    · by_cases h3 : aggregate_type = "percentiles"
      · subst h3
        simp [List.lookup] at h
        exact Or.inr (Or.inr h.symm)
      · have e1 : (aggregate_type == "min_max") = false := by simpa using h1
        have e2 : (aggregate_type == "min_med_max") = false := by simpa using h2
        have e3 : (aggregate_type == "percentiles") = false := by simpa using h3
        simp only [List.lookup, e1, e2, e3] at h
        cases h

end CoarseETA

/-! ## The percentile lookup -/

theorem truncToInt_intCast (n : Int) : truncToInt (n : ℚ) = n := by
  unfold truncToInt
  split
  · exact Int.floor_intCast n
  · have h : (-(n : ℚ)) = ((-n : Int) : ℚ) := by push_cast; rfl
    rw [h, Int.floor_intCast]; omega

namespace CoarseETA

/-- The index `lower_bound` returns leaves only smaller elements to its left and stops on an
element that is not smaller. -/
theorem lower_bound_spec (x : List ℚ) (r : ℚ) :
    lower_bound x r ≤ x.length ∧
    (∀ j, j < lower_bound x r → x.getD j 0 < r) ∧
    (lower_bound x r < x.length → r ≤ x.getD (lower_bound x r) 0) := by
  refine ⟨List.findIdx_le_length _, ?_, ?_⟩
  · intro j hj
    have hjl : j < x.length := lt_of_lt_of_le hj (List.findIdx_le_length _)
    have h := List.not_of_lt_findIdx hj
    rw [List.getD_eq_getElem _ _ hjl]
    simpa using h
  · intro hl
    have h := @List.findIdx_getElem _ (fun e => !decide (e < r)) x hl
    rw [List.getD_eq_getElem _ _ hl]
    simpa using h

/-- What `FindStat` returns when `y` is as long as `x`: every read is in
range, and the result is the exact match at `idx` or the neighbours
`idx - 1` and `idx`, each unset (`-1`) when it does not exist. -/
theorem FindStat_eq (x y : List ℚ) (r : ℚ) (hlen : y.length = x.length) :
    FindStat x y r = .ok
      (if lower_bound x r < x.length ∧ x.getD (lower_bound x r) 0 ≤ rankPlusEps r then
        { rank1 := truncToInt (x.getD (lower_bound x r) 0), eta1 := y.getD (lower_bound x r) 0,
          rank2 := -1, eta2 := -1 }
      else
        { rank1 := if lower_bound x r ≠ 0 then truncToInt (x.getD (lower_bound x r - 1) 0) else -1
          eta1 := if lower_bound x r ≠ 0 then y.getD (lower_bound x r - 1) 0 else -1
          rank2 := if lower_bound x r < x.length then truncToInt (x.getD (lower_bound x r) 0) else -1
          eta2 := if lower_bound x r < x.length then y.getD (lower_bound x r) 0 else -1 }) := by
  have hle := (lower_bound_spec x r).1
  unfold FindStat
  generalize lower_bound x r = idx at hle
  have hprev : idx ≠ 0 → x.get? (idx - 1) = some (x.getD (idx - 1) 0) ∧
      y.get? (idx - 1) = some (y.getD (idx - 1) 0) := by
    intro h0
    have h1 : idx - 1 < x.length := by omega
    have h2 : idx - 1 < y.length := by omega
    rw [List.get?_eq_getElem?, List.get?_eq_getElem?, List.getElem?_eq_getElem h1,
      List.getElem?_eq_getElem h2, List.getD_eq_getElem _ _ h1, List.getD_eq_getElem _ _ h2]
    exact ⟨rfl, rfl⟩
  by_cases hlt : idx < x.length
  · have hlty : idx < y.length := by omega
    have hx : x.get? idx = some (x.getD idx 0) := by
      rw [List.get?_eq_getElem?, List.getElem?_eq_getElem hlt, List.getD_eq_getElem _ _ hlt]
    have hy : y.get? idx = some (y.getD idx 0) := by
      rw [List.get?_eq_getElem?, List.getElem?_eq_getElem hlty, List.getD_eq_getElem _ _ hlty]
    simp only [hx, hy]
    by_cases hex : x.getD idx 0 ≤ rankPlusEps r
    · rw [if_pos hex, if_pos ⟨hlt, hex⟩]
    · rw [if_neg hex, if_neg (not_and_of_not_right _ hex)]
      by_cases h0 : idx ≠ 0
      · obtain ⟨hpx, hpy⟩ := hprev h0
        simp only [hpx, hpy, if_pos h0, if_pos hlt]
      · simp only [if_neg h0, if_pos hlt]
  · have hx : x.get? idx = none := by
      rw [List.get?_eq_getElem?]; exact List.getElem?_eq_none (by omega)
    simp only [hx]
    rw [if_neg (not_and_of_not_left _ hlt)]
    by_cases h0 : idx ≠ 0
    · obtain ⟨hpx, hpy⟩ := hprev h0
      simp only [hpx, hpy, if_pos h0, if_neg hlt]
    · simp only [if_neg h0, if_neg hlt]

theorem isRankVector_of_ranks (x : List ℚ)
    (h : x = [0, 100] ∨ x = [0, 50, 100] ∨ x = [0, 25, 50, 75, 100]) : IsRankVector x := by
  rcases h with h | h | h <;> subst h
  · refine ⟨by norm_num [List.Sorted], ?_⟩
    intro e he
    simp only [List.mem_cons, List.mem_singleton, List.not_mem_nil, or_false] at he
    rcases he with rfl | rfl
    · exact ⟨0, by decide, by norm_num⟩
    · exact ⟨100, by decide, by norm_num⟩
  · refine ⟨by norm_num [List.Sorted], ?_⟩
    intro e he
    simp only [List.mem_cons, List.mem_singleton, List.not_mem_nil, or_false] at he
    rcases he with rfl | rfl | rfl
    · exact ⟨0, by decide, by norm_num⟩
    · exact ⟨50, by decide, by norm_num⟩
    · exact ⟨100, by decide, by norm_num⟩
  · refine ⟨by norm_num [List.Sorted], ?_⟩
    intro e he
    simp only [List.mem_cons, List.mem_singleton, List.not_mem_nil, or_false] at he
    rcases he with rfl | rfl | rfl | rfl | rfl
    · exact ⟨0, by decide, by norm_num⟩
    · exact ⟨25, by decide, by norm_num⟩
    · exact ⟨50, by decide, by norm_num⟩
    · exact ⟨75, by decide, by norm_num⟩
    · exact ⟨100, by decide, by norm_num⟩

theorem getD_mem (x : List ℚ) (i : Nat) (h : i < x.length) : x.getD i 0 ∈ x := by
  rw [List.getD_eq_getElem _ _ h]
  exact List.getElem_mem h

theorem sorted_getD_lt (x : List ℚ) (hx : x.Sorted (· < ·)) (i j : Nat) (hij : i < j)
    (hj : j < x.length) : x.getD i 0 < x.getD j 0 := by
  rw [List.getD_eq_getElem _ _ (lt_trans hij hj), List.getD_eq_getElem _ _ hj]
  exact List.pairwise_iff_getElem.1 hx i j (lt_trans hij hj) hj hij

theorem sorted_getD_le (y : List ℚ) (hy : y.Sorted (· ≤ ·)) (i j : Nat) (hij : i ≤ j)
    (hj : j < y.length) : y.getD i 0 ≤ y.getD j 0 := by
  rcases Nat.lt_or_eq_of_le hij with h | h
  · rw [List.getD_eq_getElem _ _ (lt_trans h hj), List.getD_eq_getElem _ _ hj]
    exact List.pairwise_iff_getElem.1 hy i j (lt_trans h hj) hj h
  · subst h; exact le_refl _

/-- The ETA derived from a rank in percent whose `lower_bound` index `i` is
inside the rank vector: `y[i]` on an exact match, the linear interpolation
between the neighbours `i - 1` and `i` otherwise. -/
theorem interpolatedEta_form (x y : List ℚ) (r : ℚ) (hlen : y.length = x.length)
    (hx : IsRankVector x) (hi : lower_bound x r < x.length) :
    (x.getD (lower_bound x r) 0 ≤ rankPlusEps r →
      interpolatedEta x y r = .ok (y.getD (lower_bound x r) 0)) ∧
    (¬ x.getD (lower_bound x r) 0 ≤ rankPlusEps r → 1 ≤ lower_bound x r →
      interpolatedEta x y r = .ok (y.getD (lower_bound x r - 1) 0 +
        (y.getD (lower_bound x r) 0 - y.getD (lower_bound x r - 1) 0) *
          ((r - x.getD (lower_bound x r - 1) 0) /
            (x.getD (lower_bound x r) 0 - x.getD (lower_bound x r - 1) 0)))) := by
  unfold interpolatedEta
  rw [FindStat_eq x y r hlen]
  generalize lower_bound x r = i at hi
  constructor
  · intro hex
    simp only [if_pos (And.intro hi hex), finalEta]
    rw [if_neg (by simp)]
  · intro hex h1
    obtain ⟨n, hn0, hn⟩ := hx.whole _ (getD_mem x i hi)
    obtain ⟨m, _, hm⟩ := hx.whole _ (getD_mem x (i - 1) (by omega))
    have hi0 : i ≠ 0 := by omega
    simp only [if_neg (not_and_of_not_right _ hex), finalEta, if_pos hi, if_pos hi0]
    rw [hn, hm, truncToInt_intCast, truncToInt_intCast]
    rw [if_pos (by omega)]

/-- Monotonicity of the percentile lookup, for any rank vector: between the
first and the last rank, a larger rank in percent never gives a smaller
ETA when `y` is non-decreasing. -/
theorem interpolatedEta_mono (x y : List ℚ) (hlen : y.length = x.length)
    (hx : IsRankVector x) (hy : y.Sorted (· ≤ ·)) (hne : x ≠ [])
    (r1 r2 : ℚ) (h0 : x.getD 0 0 ≤ r1) (h12 : r1 ≤ r2) (h100 : r2 ≤ x.getD (x.length - 1) 0)
    (hx100 : x.getD (x.length - 1) 0 ≤ 100) :
    ∃ e1 e2, interpolatedEta x y r1 = .ok e1 ∧ interpolatedEta x y r2 = .ok e2 ∧ e1 ≤ e2 := by
  have hpos : 0 < x.length := List.length_pos.2 hne
  have hx0 : 0 ≤ x.getD 0 0 := by
    obtain ⟨n, hn0, hn⟩ := hx.whole _ (getD_mem x 0 hpos)
    rw [hn]
    exact_mod_cast hn0
  have key : ∀ r, x.getD 0 0 ≤ r → r ≤ x.getD (x.length - 1) 0 →
      lower_bound x r < x.length ∧
      ∃ e, interpolatedEta x y r = .ok e ∧ e ≤ y.getD (lower_bound x r) 0 ∧
        (1 ≤ lower_bound x r → y.getD (lower_bound x r - 1) 0 ≤ e) := by
    intro r hr0 hr1
    obtain ⟨hle, hlt, hge⟩ := lower_bound_spec x r
    have hi : lower_bound x r < x.length := by
      rcases Nat.lt_or_eq_of_le hle with h | h
      · exact h
      · have := hlt (x.length - 1) (by omega)
        exact absurd (lt_of_lt_of_le this hr1) (lt_irrefl _)
    refine ⟨hi, ?_⟩
    obtain ⟨hA, hB⟩ := interpolatedEta_form x y r hlen hx hi
    by_cases hex : x.getD (lower_bound x r) 0 ≤ rankPlusEps r
    · refine ⟨_, hA hex, le_refl _, fun h1 => ?_⟩
      exact sorted_getD_le y hy _ _ (by omega) (by omega)
    · have h1 : 1 ≤ lower_bound x r := by
        rcases Nat.eq_zero_or_pos (lower_bound x r) with h | h
        · rw [h] at hex
          exact absurd (le_trans hr0
            (le_rankPlusEps r (le_trans hx0 hr0) (le_trans hr1 hx100))) hex
        · exact h
      have hxlt := sorted_getD_lt x hx.ascending (lower_bound x r - 1) (lower_bound x r)
        (by omega) hi
      have hylt := sorted_getD_le y hy (lower_bound x r - 1) (lower_bound x r)
        (by omega) (by omega)
      have hprev := hlt (lower_bound x r - 1) (by omega)
      have hcur := hge hi
      have ht0 : 0 ≤ (r - x.getD (lower_bound x r - 1) 0) /
          (x.getD (lower_bound x r) 0 - x.getD (lower_bound x r - 1) 0) :=
        div_nonneg (by linarith) (by linarith)
      have ht1 : (r - x.getD (lower_bound x r - 1) 0) /
          (x.getD (lower_bound x r) 0 - x.getD (lower_bound x r - 1) 0) ≤ 1 := by
        rw [div_le_one (by linarith)]; linarith
      refine ⟨_, hB hex h1, ?_, fun _ => ?_⟩
      · nlinarith
      · nlinarith
  obtain ⟨hi1, e1, he1, hup1, hlo1⟩ := key r1 h0 (le_trans h12 h100)
  obtain ⟨hi2, e2, he2, hup2, hlo2⟩ := key r2 (le_trans h0 h12) h100
  refine ⟨e1, e2, he1, he2, ?_⟩
  obtain ⟨_, hlt1, hge1⟩ := lower_bound_spec x r1
  obtain ⟨_, hlt2, hge2⟩ := lower_bound_spec x r2
  have hidx : lower_bound x r1 ≤ lower_bound x r2 := by
    by_contra hcon
    have := hlt1 (lower_bound x r2) (by omega)
    have := hge2 hi2
    linarith
  rcases Nat.lt_or_eq_of_le hidx with hlt | heq
  · have hmid := sorted_getD_le y hy (lower_bound x r1) (lower_bound x r2 - 1)
      (by omega) (by omega)
    have := hlo2 (by omega)
    linarith
  · obtain ⟨hA1, hB1⟩ := interpolatedEta_form x y r1 hlen hx hi1
    obtain ⟨hA2, hB2⟩ := interpolatedEta_form x y r2 hlen hx hi2
    by_cases hex2 : x.getD (lower_bound x r2) 0 ≤ rankPlusEps r2
    · have h2 := hA2 hex2
      rw [he2] at h2
      cases h2
      rw [← heq]; exact hup1
    · have hex1 : ¬ x.getD (lower_bound x r1) 0 ≤ rankPlusEps r1 := by
        rw [heq]; intro h; exact hex2 (le_trans h (rankPlusEps_mono r1 r2 h12))
      have h1 : 1 ≤ lower_bound x r1 := by
        rcases Nat.eq_zero_or_pos (lower_bound x r1) with h | h
        · rw [h] at hex1
          exact absurd (le_trans h0 (le_rankPlusEps r1 (le_trans hx0 h0)
            (le_trans (le_trans h12 h100) hx100))) hex1
        · exact h
      have hf1 := hB1 hex1 h1
      have hf2 := hB2 hex2 (by omega)
      rw [he1] at hf1
      rw [he2] at hf2
      cases hf1
      cases hf2
      rw [heq]
      have hxlt := sorted_getD_lt x hx.ascending (lower_bound x r2 - 1) (lower_bound x r2)
        (by omega) hi2
      have hylt := sorted_getD_le y hy (lower_bound x r2 - 1) (lower_bound x r2)
        (by omega) (by omega)
      have hdiv : (r1 - x.getD (lower_bound x r2 - 1) 0) /
            (x.getD (lower_bound x r2) 0 - x.getD (lower_bound x r2 - 1) 0)
          ≤ (r2 - x.getD (lower_bound x r2 - 1) 0) /
            (x.getD (lower_bound x r2) 0 - x.getD (lower_bound x r2 - 1) 0) :=
        div_le_div_of_nonneg_right (by linarith) (by linarith)
      nlinarith

theorem interpolatedEta_ok (x y : List ℚ) (r e : ℚ) (h : interpolatedEta x y r = .ok e) :
    ∃ st, FindStat x y r = .ok st ∧ finalEta st r = e := by
  unfold interpolatedEta at h
  cases hf : FindStat x y r with
  | error err => rw [hf] at h; cases h
  | ok st => rw [hf] at h; cases h; exact ⟨st, rfl, rfl⟩

/-- C6. Monotonicity of `find_stat`: for each of the three fixed rank
vectors, every non-decreasing `y` of the same length and all ranks
`0 ≤ rank_p1 ≤ rank_p2 ≤ 100`, `FindStat` returns for both ranks and the
ETA interpolated from its result at `rank_p1` is at most the one at
`rank_p2`. -/
theorem FindStat_monotone (x y : List ℚ)
    (hx : x = [0, 100] ∨ x = [0, 50, 100] ∨ x = [0, 25, 50, 75, 100])
    (hlen : y.length = x.length) (hy : y.Sorted (· ≤ ·))
    (rank_p1 rank_p2 : ℚ) (h0 : 0 ≤ rank_p1) (h12 : rank_p1 ≤ rank_p2) (h100 : rank_p2 ≤ 100) :
    ∃ s1 s2, FindStat x y rank_p1 = .ok s1 ∧ FindStat x y rank_p2 = .ok s2 ∧
      finalEta s1 rank_p1 ≤ finalEta s2 rank_p2 := by
  have hrv := isRankVector_of_ranks x hx
  have hne : x ≠ [] := by rcases hx with h | h | h <;> subst h <;> simp
  have hfirst : x.getD 0 0 = 0 := by rcases hx with h | h | h <;> subst h <;> rfl
  have hlast : x.getD (x.length - 1) 0 = 100 := by rcases hx with h | h | h <;> subst h <;> rfl
  obtain ⟨e1, e2, he1, he2, hle⟩ := interpolatedEta_mono x y hlen hrv hy hne rank_p1 rank_p2
    (by rw [hfirst]; exact h0) h12 (by rw [hlast]; exact h100) (le_of_eq hlast)
  obtain ⟨s1, hs1, hf1⟩ := interpolatedEta_ok x y rank_p1 e1 he1
  obtain ⟨s2, hs2, hf2⟩ := interpolatedEta_ok x y rank_p2 e2 he2
  exact ⟨s1, s2, hs1, hs2, by rw [hf1, hf2]; exact hle⟩

/-- C6 on the percentiles `[50, 100, 200, 400, 800]` at the ranks 25 and
62.5. -/
theorem FindStat_monotone_witness :
    ∃ s1 s2, FindStat [0, 25, 50, 75, 100] [50, 100, 200, 400, 800] 25 = .ok s1 ∧
      FindStat [0, 25, 50, 75, 100] [50, 100, 200, 400, 800] (125 / 2) = .ok s2 ∧
      finalEta s1 25 ≤ finalEta s2 (125 / 2) :=
  FindStat_monotone [0, 25, 50, 75, 100] [50, 100, 200, 400, 800] (Or.inr (Or.inr rfl)) rfl
    (by norm_num [List.Sorted]) 25 (125 / 2) (by norm_num) (by norm_num) (by norm_num)

/-- At rank 0 the lookup returns the first aggregate value. -/
theorem interpolatedEta_zero (x y : List ℚ)
    (hx : x = [0, 100] ∨ x = [0, 50, 100] ∨ x = [0, 25, 50, 75, 100])
    (hlen : y.length = x.length) :
    ∃ y0, y.head? = some y0 ∧ interpolatedEta x y 0 = .ok y0 := by
  have hrv := isRankVector_of_ranks x hx
  have hlb : lower_bound x 0 = 0 := by rcases hx with h | h | h <;> subst h <;> rfl
  have hfirst : x.getD 0 0 = 0 := by rcases hx with h | h | h <;> subst h <;> rfl
  have hpos : 0 < x.length := by rcases hx with h | h | h <;> subst h <;> decide
  have h := (interpolatedEta_form x y 0 hlen hrv (by rw [hlb]; exact hpos)).1
    (by rw [hlb, hfirst]; exact le_rankPlusEps 0 (le_refl _) (by norm_num))
  rw [hlb] at h
  refine ⟨y.getD 0 0, ?_, h⟩
  cases y with
  | nil => simp at hlen; omega
  | cons a l => rfl

/-- At rank 100 the lookup returns the last aggregate value. -/
theorem interpolatedEta_hundred (x y : List ℚ)
    (hx : x = [0, 100] ∨ x = [0, 50, 100] ∨ x = [0, 25, 50, 75, 100])
    (hlen : y.length = x.length) :
    ∃ yl, y.getLast? = some yl ∧ interpolatedEta x y 100 = .ok yl := by
  have hrv := isRankVector_of_ranks x hx
  have hlb : lower_bound x 100 = x.length - 1 := by
    rcases hx with h | h | h <;> subst h <;> rfl
  have hlast : x.getD (x.length - 1) 0 = 100 := by rcases hx with h | h | h <;> subst h <;> rfl
  have hpos : 0 < x.length := by rcases hx with h | h | h <;> subst h <;> decide
  have h := (interpolatedEta_form x y 100 hlen hrv (by rw [hlb]; omega)).1
    (by rw [hlb, hlast]; exact le_rankPlusEps 100 (by norm_num) (le_refl _))
  rw [hlb] at h
  refine ⟨y.getD (x.length - 1) 0, ?_, h⟩
  rw [List.getLast?_eq_getElem?, hlen, List.getElem?_eq_getElem (by omega),
    List.getD_eq_getElem _ _ (by omega)]

end CoarseETA

/-! ## Boundary behaviour of the pipeline -/

namespace CoarseETA

theorem mem_of_readETA (t : List ℚ) (i : Int) (v : ℚ) (h : readETA t i = .ok v) : v ∈ t := by
  have := (readETA_ok_range t i v h).2.2
  rw [List.get?_eq_getElem?] at this
  exact List.getElem?_mem this

/-- The table search for a target below every record: snap to the first
record, with no upper neighbour. -/
theorem binarySearchETA_below (path : String) (files : ETAFiles) (z1 z2 : String)
    (os_eta : ℚ) (t : List ℚ) (hfile : files (tableName path z1 z2) = some t) (hne : t ≠ [])
    (hbelow : ∀ v ∈ t, os_eta < v) :
    ∃ v, t.head? = some v ∧
      binarySearchETA path files z1 z2 os_eta = .ok ⟨0, v, -1, -1, t.length⟩ := by
  rcases binarySearchETA_cases path files z1 z2 os_eta t hfile hne with
    ⟨mid, _, _, hr, _⟩ | ⟨v, hr, hlt, _⟩ | ⟨v, hr, _, hs⟩ | ⟨hi, v1, v2, _, _, hr1, _, hl1, _, _⟩
  · exact absurd (hbelow _ (mem_of_readETA _ _ _ hr)) (lt_irrefl _)
  · exact absurd (lt_trans hlt (hbelow _ (mem_of_readETA _ _ _ hr))) (lt_irrefl _)
  · refine ⟨v, ?_, hs⟩
    have := (readETA_ok_range _ _ _ hr).2.2
    rw [List.head?_eq_getElem?]
    rw [List.get?_eq_getElem?] at this
    exact this
  · exact absurd (lt_trans hl1 (hbelow _ (mem_of_readETA _ _ _ hr1))) (lt_irrefl _)

/-- The table search for a target above every record: snap to the last
record, with no upper neighbour. -/
theorem binarySearchETA_above (path : String) (files : ETAFiles) (z1 z2 : String)
    (os_eta : ℚ) (t : List ℚ) (hfile : files (tableName path z1 z2) = some t) (hne : t ≠ [])
    (habove : ∀ v ∈ t, v < os_eta) :
    ∃ v, t.getLast? = some v ∧
      binarySearchETA path files z1 z2 os_eta
        = .ok ⟨(t.length : Int) - 1, v, -1, -1, t.length⟩ := by
  have hlen : 0 < t.length := List.length_pos.2 hne
  rcases binarySearchETA_cases path files z1 z2 os_eta t hfile hne with
    ⟨mid, _, _, hr, _⟩ | ⟨v, hr, _, hs⟩ | ⟨v, hr, hlt, _⟩ | ⟨hi, v1, v2, _, _, _, hr2, _, hl2, _⟩
  · exact absurd (habove _ (mem_of_readETA _ _ _ hr)) (lt_irrefl _)
  · refine ⟨v, ?_, hs⟩
    have := (readETA_ok_range _ _ _ hr).2.2
    rw [List.getLast?_eq_getElem?]
    rw [List.get?_eq_getElem?] at this
    have hidx : ((t.length : Int) - 1).toNat = t.length - 1 := by omega
    rw [hidx] at this
    exact this
  · exact absurd (lt_trans hlt (habove _ (mem_of_readETA _ _ _ hr))) (lt_irrefl _)
  · exact absurd (lt_trans hl2 (habove _ (mem_of_readETA _ _ _ hr2))) (lt_irrefl _)

/-- C3, as amended. For every query whose zone-pair table exists but holds
no record, `ETARequest` does not take the error path: the table search
returns with `total_records = 0`, the rank in percent is 0 and the value
returned is `y[0]`, the first element of the selected aggregate vector, for
every `os_eta`. -/
theorem ETARequest_empty_table (c : CoarseETA) (w : World) (query : ETAQuery)
    (z1 z2 : String) (x y : List ℚ) (os_eta : ℚ)
    (h : Reaches c w query z1 z2 x y os_eta)
    (hfile : w.files (tableName c.spatialETA_path z1 z2) = some [])
    (hlen : y.length = x.length) :
    (∃ sr, binarySearchETA c.spatialETA_path w.files z1 z2 os_eta = .ok sr ∧
      sr.total_records = 0 ∧ rankPercent sr (rankOf sr os_eta) = 0) ∧
    ∃ y0, y.head? = some y0 ∧ ETARequest c w query = some y0 := by
  have hs : binarySearchETA c.spatialETA_path w.files z1 z2 os_eta = .ok ⟨0, 0, 0, 0, 0⟩ := by
    unfold binarySearchETA
    simp only [hfile]
    rfl
  have hp : rankPercent ⟨0, 0, 0, 0, 0⟩ (rankOf ⟨0, 0, 0, 0, 0⟩ os_eta) = 0 := by
    unfold rankPercent
    rw [if_neg (by norm_num)]
  obtain ⟨y0, hy0, he⟩ := interpolatedEta_zero x y (ranks_cases _ _ h.ranks) hlen
  refine ⟨⟨_, hs, rfl, hp⟩, y0, hy0, ?_⟩
  exact ETARequest_of_reaches c w query z1 z2 x y os_eta _ y0 h hs (by rw [hp]; exact he)

/-- C5. For every non-empty non-decreasing ETA table and every `os_eta`
strictly below all of its records, the table search snaps to the first
record (`record_eta1 = 0`, no upper neighbour), the rank in percent is 0 and
`ETARequest` returns `y[0]`, the first element of the selected aggregate
vector. -/
theorem ETARequest_below_min (c : CoarseETA) (w : World) (query : ETAQuery)
    (z1 z2 : String) (x y : List ℚ) (os_eta : ℚ) (t : List ℚ)
    (h : Reaches c w query z1 z2 x y os_eta)
    (hfile : w.files (tableName c.spatialETA_path z1 z2) = some t)
    (hne : t ≠ []) (_hsorted : t.Sorted (· ≤ ·)) (hbelow : ∀ v ∈ t, os_eta < v)
    (hlen : y.length = x.length) :
    ∃ sr, binarySearchETA c.spatialETA_path w.files z1 z2 os_eta = .ok sr ∧
      sr.record_eta1 = 0 ∧ sr.record_eta2 = -1 ∧
      rankPercent sr (rankOf sr os_eta) = 0 ∧
      ∃ y0, y.head? = some y0 ∧ ETARequest c w query = some y0 := by
  obtain ⟨v, _, hs⟩ := binarySearchETA_below c.spatialETA_path w.files z1 z2 os_eta t hfile
    hne hbelow
  have hp : rankPercent ⟨0, v, -1, -1, t.length⟩ (rankOf ⟨0, v, -1, -1, t.length⟩ os_eta) = 0 := by
    unfold rankPercent rankOf
    simp
  obtain ⟨y0, hy0, he⟩ := interpolatedEta_zero x y (ranks_cases _ _ h.ranks) hlen
  refine ⟨_, hs, rfl, rfl, hp, y0, hy0, ?_⟩
  exact ETARequest_of_reaches c w query z1 z2 x y os_eta _ y0 h hs (by rw [hp]; exact he)

/-- C4, as amended. For every non-decreasing ETA table with at least two
records and every `os_eta` strictly above all of them, the table search
snaps to the last record (`record_eta1 = N - 1`, no upper neighbour), the
rank in percent is 100 and `ETARequest` returns `y[last]`, the last element
of the selected aggregate vector. -/
theorem ETARequest_above_max (c : CoarseETA) (w : World) (query : ETAQuery)
    (z1 z2 : String) (x y : List ℚ) (os_eta : ℚ) (t : List ℚ)
    (h : Reaches c w query z1 z2 x y os_eta)
    (hfile : w.files (tableName c.spatialETA_path z1 z2) = some t)
    (htwo : 2 ≤ t.length) (_hsorted : t.Sorted (· ≤ ·)) (habove : ∀ v ∈ t, v < os_eta)
    (hlen : y.length = x.length) :
    ∃ sr, binarySearchETA c.spatialETA_path w.files z1 z2 os_eta = .ok sr ∧
      sr.record_eta1 = (t.length : Int) - 1 ∧ sr.record_eta2 = -1 ∧
      rankPercent sr (rankOf sr os_eta) = 100 ∧
      ∃ yl, y.getLast? = some yl ∧ ETARequest c w query = some yl := by
  have hne : t ≠ [] := by intro h0; subst h0; simp at htwo
  obtain ⟨v, _, hs⟩ := binarySearchETA_above c.spatialETA_path w.files z1 z2 os_eta t hfile
    hne habove
  have hp : rankPercent ⟨(t.length : Int) - 1, v, -1, -1, t.length⟩
      (rankOf ⟨(t.length : Int) - 1, v, -1, -1, t.length⟩ os_eta) = 100 := by
    unfold rankPercent rankOf
    have h2 : (2 : ℚ) ≤ (t.length : ℚ) := by exact_mod_cast htwo
    simp only [ne_eq, not_true_eq_false, if_false]
    rw [if_pos (by linarith)]
    push_cast
    rw [div_self (by linarith)]
    norm_num
  obtain ⟨yl, hyl, he⟩ := interpolatedEta_hundred x y (ranks_cases _ _ h.ranks) hlen
  refine ⟨_, hs, rfl, rfl, hp, yl, hyl, ?_⟩
  exact ETARequest_of_reaches c w query z1 z2 x y os_eta _ yl h hs (by rw [hp]; exact he)

end CoarseETA

/-! ## Concrete runs on the small installation -/

set_option maxRecDepth 100000 in
/-- The constructor of `GridIndex` builds `sampleIndex` from `sampleZones`. -/
theorem sampleIndex_create : GridIndex.create sampleZones 10 = .ok sampleIndex := by
  with_unfolding_all rfl

/-- The bounding boxes of `sampleZones` are the ones `computeBBox` computes. -/
theorem sampleZones_bbox : ∀ z ∈ sampleZones, WKTParser.computeBBox z = z := by
  decide!

namespace CoarseETA

set_option maxRecDepth 100000 in
/-- On the small installation the sample query reaches the table search,
whatever the table and the answer of the routing engine. -/
theorem sample_reaches (table : List ℚ) (os_eta : ℚ) :
    Reaches sampleETA (sampleWorld table (.ok os_eta) (some sampleTm)) sampleQuery "A" "B"
      [0, 25, 50, 75, 100] [50, 100, 200, 400, 800] os_eta where
  start_zone := by with_unfolding_all rfl
  end_zone := by with_unfolding_all rfl
  ranks := by with_unfolding_all rfl
  values := ⟨⟨[50, 800], [50, 200, 800], [50, 100, 200, 400, 800]⟩, .percentiles,
    by with_unfolding_all rfl, rfl, rfl⟩
  engine := rfl

set_option maxRecDepth 100000 in
/-- C2, at the failing input. The zones, the key and the table `[10, 90]`
are found and the routing engine is unavailable: its code throws, or
Valhalla answers error 442. `OpenSourceRoutingEngine` returns `-1.0` in
both cases, and `ETARequest` goes on to rank `-1.0` in the table and returns
50, the first element of the aggregate vector, where the sentinel `-1.0` is
due. -/
theorem ETARequest_routing_unavailable :
    OpenSourceRoutingEngine
        (sampleWorld [10, 90] (.error (.exception "Connection failed to osrm")) (some sampleTm))
        (1 / 20) (1 / 20) (1 / 4) (1 / 20) = -1 ∧
    ETARequest sampleETA
        (sampleWorld [10, 90] (.error (.exception "Connection failed to osrm")) (some sampleTm))
        sampleQuery = some 50 ∧
    ETARequest sampleETA (sampleWorld [10, 90] (.ok (-1)) (some sampleTm)) sampleQuery
      = some 50 ∧
    (some (50 : ℚ) ≠ some (-1)) := by
  decide!

set_option maxRecDepth 100000 in
/-- C3 fails as stated: with an empty table `eta/A_B.bin` the sample query
is answered with 50, the first percentile, not with the sentinel. -/
theorem ETARequest_empty_table_counterexample :
    (sampleWorld [] (.ok 70) (some sampleTm)).files (tableName "eta" "A" "B") = some [] ∧
    ETARequest sampleETA (sampleWorld [] (.ok 70) (some sampleTm)) sampleQuery = some 50 ∧
    ETARequest sampleETA (sampleWorld [] (.ok 70) (some sampleTm)) sampleQuery ≠ some (-1) := by
  decide!

/-- C3 as amended, on the small installation with an empty table. -/
theorem ETARequest_empty_table_witness :
    (∃ sr, binarySearchETA sampleETA.spatialETA_path
        (sampleWorld [] (.ok 70) (some sampleTm)).files "A" "B" 70 = .ok sr ∧
      sr.total_records = 0 ∧ rankPercent sr (rankOf sr 70) = 0) ∧
    ∃ y0, ([50, 100, 200, 400, 800] : List ℚ).head? = some y0 ∧
      ETARequest sampleETA (sampleWorld [] (.ok 70) (some sampleTm)) sampleQuery = some y0 :=
  ETARequest_empty_table sampleETA (sampleWorld [] (.ok 70) (some sampleTm)) sampleQuery
    "A" "B" [0, 25, 50, 75, 100] [50, 100, 200, 400, 800] 70 (sample_reaches [] 70) rfl rfl

set_option maxRecDepth 100000 in
/-- C4 fails as stated: on the one-record table `[10]` the target 9999 is
above the maximum, yet the rank in percent is 0 and the value returned is
50, the first percentile, not 800, the last one. -/
theorem ETARequest_above_max_counterexample :
    (∀ v ∈ ([10] : List ℚ), v < 9999) ∧
    binarySearchETA "eta" (sampleWorld [10] (.ok 9999) (some sampleTm)).files "A" "B" 9999
      = .ok ⟨0, 10, -1, -1, 1⟩ ∧
    rankPercent ⟨0, 10, -1, -1, 1⟩ (rankOf ⟨0, 10, -1, -1, 1⟩ 9999) = 0 ∧
    rankPercent ⟨0, 10, -1, -1, 1⟩ (rankOf ⟨0, 10, -1, -1, 1⟩ 9999) ≠ 100 ∧
    ETARequest sampleETA (sampleWorld [10] (.ok 9999) (some sampleTm)) sampleQuery = some 50 ∧
    ([50, 100, 200, 400, 800] : List ℚ).getLast? = some 800 ∧
    ETARequest sampleETA (sampleWorld [10] (.ok 9999) (some sampleTm)) sampleQuery
      ≠ ([50, 100, 200, 400, 800] : List ℚ).getLast? := by
  refine ⟨by norm_num, by with_unfolding_all rfl, by decide!, by decide!, by decide!, by rfl,
    by decide!⟩

/-- C4 as amended, on the table `[10, 90]` with the target 9999. -/
theorem ETARequest_above_max_witness :
    ∃ sr, binarySearchETA sampleETA.spatialETA_path
        (sampleWorld [10, 90] (.ok 9999) (some sampleTm)).files "A" "B" 9999 = .ok sr ∧
      sr.record_eta1 = (([10, 90] : List ℚ).length : Int) - 1 ∧ sr.record_eta2 = -1 ∧
      rankPercent sr (rankOf sr 9999) = 100 ∧
      ∃ yl, ([50, 100, 200, 400, 800] : List ℚ).getLast? = some yl ∧
        ETARequest sampleETA (sampleWorld [10, 90] (.ok 9999) (some sampleTm)) sampleQuery
          = some yl :=
  ETARequest_above_max sampleETA (sampleWorld [10, 90] (.ok 9999) (some sampleTm)) sampleQuery
    "A" "B" [0, 25, 50, 75, 100] [50, 100, 200, 400, 800] 9999 [10, 90]
    (sample_reaches [10, 90] 9999) rfl (by decide) (by norm_num [List.Sorted])
    (by norm_num) rfl

/-- C5 on the table `[10, 90]` with the target 5. -/
theorem ETARequest_below_min_witness :
    ∃ sr, binarySearchETA sampleETA.spatialETA_path
        (sampleWorld [10, 90] (.ok 5) (some sampleTm)).files "A" "B" 5 = .ok sr ∧
      sr.record_eta1 = 0 ∧ sr.record_eta2 = -1 ∧
      rankPercent sr (rankOf sr 5) = 0 ∧
      ∃ y0, ([50, 100, 200, 400, 800] : List ℚ).head? = some y0 ∧
        ETARequest sampleETA (sampleWorld [10, 90] (.ok 5) (some sampleTm)) sampleQuery
          = some y0 :=
  ETARequest_below_min sampleETA (sampleWorld [10, 90] (.ok 5) (some sampleTm)) sampleQuery
    "A" "B" [0, 25, 50, 75, 100] [50, 100, 200, 400, 800] 5 [10, 90]
    (sample_reaches [10, 90] 5) rfl (by simp) (by norm_num [List.Sorted])
    (by norm_num) rfl

/-- When the stream fails, `timeZoning` returns its default-initialised
`TimeZone`: the indeterminate `int` members and an empty `daytype`. -/
theorem timeZoning_parse_failure (get_time : String → Option Tm) (indeterminate : TimeZone)
    (s : String) (hparse : get_time s = none) :
    timeZoning get_time indeterminate s = { indeterminate with daytype := "" } := by
  unfold timeZoning
  simp only [hparse]

set_option maxRecDepth 100000 in
/-- C9, at the failing input. The timestamp `not a timestamp` does not
parse. `timeZoning` still returns a `TimeZone`, whose `int` members are
whatever the memory held (here the values a preceding call for a Friday of
January after midnight left behind), and `ETARequest` builds the key
`A,B,4,4,0` from it, finds it and returns the ETA 200 where the sentinel
`-1.0` is due. -/
theorem ETARequest_bad_timestamp :
    timeZoning (fun _ => none) ⟨4, 4, "weekday", 0, 0, 6⟩ "not a timestamp"
      = ⟨4, 4, "", 0, 0, 6⟩ ∧
    makeKey .DOW_HOD "A" "B"
        (timeZoning (fun _ => none) ⟨4, 4, "weekday", 0, 0, 6⟩ "not a timestamp")
      = "A,B,4,4,0" ∧
    ETARequest sampleETA
        { sampleWorld [10, 90] (.ok 50) none with indeterminate := ⟨4, 4, "weekday", 0, 0, 6⟩ }
        { sampleQuery with start_datetime := "not a timestamp" } = some 200 := by
  decide!

end CoarseETA

/-! ## Ray casting and bounding boxes -/

theorem BBox.contains_iff (b : BBox) (p : Point) : b.contains p = true ↔ b.Covers p := by
  unfold BBox.contains Point.inBBox BBox.Covers
  simp only [Bool.and_eq_true, decide_eq_true_eq, ge_iff_le]
  tauto

theorem BBox.expand_covers (b : BBox) (p : Point) :
    b.Within (b.expand p) ∧ (b.expand p).Covers p := by
  unfold BBox.expand BBox.Within BBox.Covers
  simp only
  split_ifs <;> refine ⟨⟨?_, ?_, ?_, ?_⟩, ?_, ?_, ?_, ?_⟩ <;> linarith

theorem BBox.within_trans {a b c : BBox} (h1 : a.Within b) (h2 : b.Within c) : a.Within c :=
  ⟨le_trans h2.1 h1.1, le_trans h1.2.1 h2.2.1, le_trans h2.2.2.1 h1.2.2.1,
    le_trans h1.2.2.2 h2.2.2.2⟩

theorem BBox.covers_mono {a b : BBox} {p : Point} (h : a.Covers p) (hw : a.Within b) :
    b.Covers p :=
  ⟨le_trans hw.1 h.1, le_trans h.2.1 hw.2.1, le_trans hw.2.2.1 h.2.2.1,
    le_trans h.2.2.2 hw.2.2.2⟩

/-- Expanding a box by a list of points gives a box that reaches at least
as far and covers every point of the list. -/
theorem expand_fold (pts : List Point) :
    ∀ b : BBox, b.Within (pts.foldl (fun (b : BBox) p => b.expand p) b) ∧
      ∀ p ∈ pts, (pts.foldl (fun (b : BBox) p => b.expand p) b).Covers p := by
  induction pts with
  | nil => intro b; exact ⟨⟨le_refl _, le_refl _, le_refl _, le_refl _⟩, fun p hp => by cases hp⟩
  | cons q rest ih =>
    intro b
    obtain ⟨hw, hc⟩ := ih (b.expand q)
    obtain ⟨hw0, hc0⟩ := BBox.expand_covers b q
    refine ⟨BBox.within_trans hw0 hw, ?_⟩
    intro p hp
    rcases List.mem_cons.1 hp with h | h
    · subst h; exact BBox.covers_mono hc0 hw
    · exact hc p h

/-- The same for the double loop of `computeBBox`. -/
theorem expand_fold_polygons (polys : List Polygon) :
    ∀ b : BBox,
      b.Within (polys.foldl
        (fun (b : BBox) poly => poly.vertices.foldl (fun (b : BBox) p => b.expand p) b) b) ∧
      ∀ poly ∈ polys, ∀ p ∈ poly.vertices,
        (polys.foldl
          (fun (b : BBox) poly => poly.vertices.foldl (fun (b : BBox) p => b.expand p) b)
          b).Covers p := by
  induction polys with
  | nil =>
    intro b
    exact ⟨⟨le_refl _, le_refl _, le_refl _, le_refl _⟩, fun poly hp => by cases hp⟩
  | cons q rest ih =>
    intro b
    obtain ⟨hw, hc⟩ := ih (q.vertices.foldl (fun (b : BBox) p => b.expand p) b)
    obtain ⟨hw0, hc0⟩ := expand_fold q.vertices b
    refine ⟨BBox.within_trans hw0 hw, ?_⟩
    intro poly hpoly p hp
    rcases List.mem_cons.1 hpoly with h | h
    · subst h; exact BBox.covers_mono (hc0 p hp) hw
    · exact hc poly h p hp

/-- The bounding box of a loaded zone covers every vertex of the zone. -/
theorem Zone.Loaded.covers_vertex {z : Zone} (hz : z.Loaded) (poly : Polygon)
    (hpoly : poly ∈ z.polygons) (v : Point) (hv : v ∈ poly.vertices) : z.bbox.Covers v := by
  have h := (expand_fold_polygons z.polygons {}).2 poly hpoly v hv
  have hb : (WKTParser.computeBBox z).bbox = z.bbox := by rw [hz.1]
  rw [← hb]
  exact h

/-- The bounding box of a loaded zone is not empty. -/
theorem Zone.Loaded.bbox_ordered {z : Zone} (hz : z.Loaded) :
    z.bbox.min_lon ≤ z.bbox.max_lon ∧ z.bbox.min_lat ≤ z.bbox.max_lat := by
  obtain ⟨poly, hpoly, hne⟩ := hz.2
  obtain ⟨v, hv⟩ := List.exists_mem_of_ne_nil _ hne
  obtain ⟨h1, h2, h3, h4⟩ := hz.covers_vertex poly hpoly v hv
  exact ⟨le_trans h1 h2, le_trans h3 h4⟩

/-! ## The grid index -/

theorem gridGrows_refl (S : Int → Prop) (grid : List (List (List Int))) :
    GridGrows S grid grid :=
  ⟨fun _ _ h => h, fun _ _ _ h => h, fun _ _ _ h => Or.inl h⟩

theorem gridGrows_trans {S : Int → Prop} {a b c : List (List (List Int))}
    (h1 : GridGrows S a b) (h2 : GridGrows S b c) : GridGrows S a c := by
  refine ⟨fun ny nx h => h2.1 ny nx (h1.1 ny nx h), fun y x j h => h2.2.1 y x j (h1.2.1 y x j h),
    fun y x j h => ?_⟩
  rcases h2.2.2 y x j h with h | h
  · exact h1.2.2 y x j h
  · exact Or.inr h

theorem gridGrows_weaken {S T : Int → Prop} {a b : List (List (List Int))}
    (h : GridGrows S a b) (hST : ∀ j, S j → T j) : GridGrows T a b :=
  ⟨h.1, h.2.1, fun y x j hc => (h.2.2 y x j hc).imp id (hST j)⟩

theorem mem_intRange (a b v : Int) : v ∈ intRange a b ↔ a ≤ v ∧ v ≤ b := by
  unfold intRange
  simp only [List.mem_map, List.mem_range]
  constructor
  · rintro ⟨k, hk, rfl⟩
    omega
  · rintro ⟨h1, h2⟩
    exact ⟨(v - a).toNat, by omega, by omega⟩

namespace GridIndex

/-- A `push_back` into a cell of the allocated grid succeeds, adds the index
to that cell and changes nothing else. -/
theorem pushCell_spec (grid : List (List (List Int))) (ny nx : Nat) (y x i : Int)
    (hd : GridDims grid ny nx) (hy0 : 0 ≤ y) (hy1 : y < ny) (hx0 : 0 ≤ x) (hx1 : x < nx) :
    ∃ grid1, pushCell grid y x i = .ok grid1 ∧ GridGrows (· = i) grid grid1 ∧
      CellHas grid1 y.toNat x.toNat i := by
  have hyl : y.toNat < grid.length := by rw [hd.1]; omega
  have hrow : grid.get? y.toNat = some grid[y.toNat] := by
    rw [List.get?_eq_getElem?, List.getElem?_eq_getElem hyl]
  have hrl : grid[y.toNat].length = nx := hd.2 _ (List.getElem_mem hyl)
  have hxl : x.toNat < grid[y.toNat].length := by rw [hrl]; omega
  have hcell : grid[y.toNat].get? x.toNat = some grid[y.toNat][x.toNat] := by
    rw [List.get?_eq_getElem?, List.getElem?_eq_getElem hxl]
  refine ⟨grid.set y.toNat (grid[y.toNat].set x.toNat (grid[y.toNat][x.toNat] ++ [i])), ?_, ?_, ?_⟩
  · unfold pushCell
    rw [if_neg (by omega)]
    simp only [hrow, hcell]
  · refine ⟨?_, ?_, ?_⟩
    · rintro ny1 nx1 ⟨h1, h2⟩
      refine ⟨by rw [List.length_set]; exact h1, ?_⟩
      intro row hrow1
      rcases List.mem_or_eq_of_mem_set hrow1 with h | h
      · exact h2 row h
      · rw [h, List.length_set]; exact h2 _ (List.getElem_mem hyl)
    · rintro y1 x1 j ⟨row, cell, h1, h2, h3⟩
      by_cases hy : y.toNat = y1
      · subst hy
        rw [hrow] at h1
        cases h1
        by_cases hx : x.toNat = x1
        · subst hx
          rw [hcell] at h2
          cases h2
          refine ⟨grid[y.toNat].set x.toNat (grid[y.toNat][x.toNat] ++ [i]),
            grid[y.toNat][x.toNat] ++ [i], ?_, ?_, List.mem_append_left _ h3⟩
          · rw [List.get?_eq_getElem?, List.getElem?_set, if_pos rfl, if_pos hyl]
          · rw [List.get?_eq_getElem?, List.getElem?_set, if_pos rfl, if_pos hxl]
        · refine ⟨grid[y.toNat].set x.toNat (grid[y.toNat][x.toNat] ++ [i]), cell, ?_, ?_, h3⟩
          · rw [List.get?_eq_getElem?, List.getElem?_set, if_pos rfl, if_pos hyl]
          · rw [List.get?_eq_getElem?, List.getElem?_set, if_neg hx, ← List.get?_eq_getElem?]
            exact h2
      · refine ⟨row, cell, ?_, h2, h3⟩
        rw [List.get?_eq_getElem?, List.getElem?_set, if_neg hy, ← List.get?_eq_getElem?]
        exact h1
    · rintro y1 x1 j ⟨row, cell, h1, h2, h3⟩
      by_cases hy : y.toNat = y1
      · subst hy
        rw [List.get?_eq_getElem?, List.getElem?_set, if_pos rfl, if_pos hyl] at h1
        cases h1
        by_cases hx : x.toNat = x1
        · subst hx
          rw [List.get?_eq_getElem?, List.getElem?_set, if_pos rfl, if_pos hxl] at h2
          cases h2
          rcases List.mem_append.1 h3 with h | h
          · exact Or.inl ⟨_, _, hrow, hcell, h⟩
          · exact Or.inr (List.mem_singleton.1 h)
        · rw [List.get?_eq_getElem?, List.getElem?_set, if_neg hx, ← List.get?_eq_getElem?] at h2
          exact Or.inl ⟨_, cell, hrow, h2, h3⟩
      · rw [List.get?_eq_getElem?, List.getElem?_set, if_neg hy, ← List.get?_eq_getElem?] at h1
        exact Or.inl ⟨row, cell, h1, h2, h3⟩
  · refine ⟨grid[y.toNat].set x.toNat (grid[y.toNat][x.toNat] ++ [i]),
      grid[y.toNat][x.toNat] ++ [i], ?_, ?_, List.mem_append_right _ (List.mem_singleton.2 rfl)⟩
    · rw [List.get?_eq_getElem?, List.getElem?_set, if_pos rfl, if_pos hyl]
    · rw [List.get?_eq_getElem?, List.getElem?_set, if_pos rfl, if_pos hxl]

/-- A loop over a list whose every step grows the grid, run on a grid of the
allocated shape: the loop returns, the grid has grown, and what a step
established is still there at the end. -/
theorem foldlM_grows {α : Type} (S : Int → Prop) (ny nx : Nat)
    (f : List (List (List Int)) → α → Except Fault (List (List (List Int))))
    (Q : α → List (List (List Int)) → Prop)
    (hQ : ∀ a g g1, Q a g → GridGrows S g g1 → Q a g1) (as : List α)
    (hstep : ∀ a ∈ as, ∀ g, GridDims g ny nx →
      ∃ g1, f g a = .ok g1 ∧ GridGrows S g g1 ∧ Q a g1) :
    ∀ g, GridDims g ny nx →
      ∃ g1, as.foldlM f g = .ok g1 ∧ GridGrows S g g1 ∧ ∀ a ∈ as, Q a g1 := by
  induction as with
  | nil =>
    intro g _
    exact ⟨g, rfl, gridGrows_refl S g, fun a ha => by cases ha⟩
  | cons a rest ih =>
    intro g hd
    obtain ⟨g1, hf, hg1, hq1⟩ := hstep a (List.mem_cons_self _ _) g hd
    obtain ⟨g2, hf2, hg2, hq2⟩ :=
      ih (fun b hb => hstep b (List.mem_cons_of_mem _ hb)) g1 (hg1.1 ny nx hd)
    refine ⟨g2, ?_, gridGrows_trans hg1 hg2, ?_⟩
    · rw [List.foldlM_cons, hf]
      exact hf2
    · intro b hb
      rcases List.mem_cons.1 hb with h | h
      · subst h; exact hQ _ _ _ hq1 hg2
      · exact hq2 b h

/-- Indexing one zone whose cell range lies inside the grid: the loop
returns, and every cell of the range holds the zone's index afterwards. -/
theorem indexZone_spec (g : GridIndex) (grid : List (List (List Int))) (ny nx : Nat) (i : Int)
    (bbox : BBox) (hd : GridDims grid ny nx)
    (hx0 : 0 ≤ g.getGridX bbox.min_lon) (hx1 : g.getGridX bbox.max_lon < nx)
    (hy0 : 0 ≤ g.getGridY bbox.min_lat) (hy1 : g.getGridY bbox.max_lat < ny) :
    ∃ grid1, indexZone g grid i bbox = .ok grid1 ∧ GridGrows (· = i) grid grid1 ∧
      ∀ y x : Int, g.getGridY bbox.min_lat ≤ y → y ≤ g.getGridY bbox.max_lat →
        g.getGridX bbox.min_lon ≤ x → x ≤ g.getGridX bbox.max_lon →
        CellHas grid1 y.toNat x.toNat i := by
  have hmono : ∀ (y x : Nat) (g0 g1 : List (List (List Int))), CellHas g0 y x i →
      GridGrows (· = i) g0 g1 → CellHas g1 y x i := fun y x g0 g1 h hg => hg.2.1 y x i h
  have hrow : ∀ y ∈ intRange (g.getGridY bbox.min_lat) (g.getGridY bbox.max_lat),
      ∀ g0, GridDims g0 ny nx →
      ∃ g1, (intRange (g.getGridX bbox.min_lon) (g.getGridX bbox.max_lon)).foldlM
          (fun grid x => pushCell grid y x i) g0 = .ok g1 ∧ GridGrows (· = i) g0 g1 ∧
        ∀ x ∈ intRange (g.getGridX bbox.min_lon) (g.getGridX bbox.max_lon),
          CellHas g1 y.toNat x.toNat i := by
    intro y hy g0 hd0
    obtain ⟨hya, hyb⟩ := (mem_intRange _ _ _).1 hy
    apply foldlM_grows (· = i) ny nx (fun grid x => pushCell grid y x i)
      (fun x g1 => CellHas g1 y.toNat x.toNat i) (fun x g0 g1 h hg => hmono _ _ g0 g1 h hg)
    · intro x hx g1 hd1
      obtain ⟨hxa, hxb⟩ := (mem_intRange _ _ _).1 hx
      exact pushCell_spec g1 ny nx y x i hd1 (by omega) (by omega) (by omega) (by omega)
    · exact hd0
  obtain ⟨grid1, hf, hg, hq⟩ := foldlM_grows (· = i) ny nx
    (fun grid y => (intRange (g.getGridX bbox.min_lon) (g.getGridX bbox.max_lon)).foldlM
      (fun grid x => pushCell grid y x i) grid)
    (fun y g1 => ∀ x ∈ intRange (g.getGridX bbox.min_lon) (g.getGridX bbox.max_lon),
      CellHas g1 y.toNat x.toNat i)
    (fun y g0 g1 h hg x hx => hmono _ _ g0 g1 (h x hx) hg)
    (intRange (g.getGridY bbox.min_lat) (g.getGridY bbox.max_lat)) hrow grid hd
  refine ⟨grid1, hf, hg, ?_⟩
  intro y x hya hyb hxa hxb
  exact hq y ((mem_intRange _ _ _).2 ⟨hya, hyb⟩) x ((mem_intRange _ _ _).2 ⟨hxa, hxb⟩)

/-- Indexing a list of zones whose cell ranges all lie inside the grid,
the first zone having index `i0`: the loop returns, the entries added are
indices of these zones, and every cell of the range of the `k`-th zone
holds `i0 + k`. -/
theorem indexZones_spec (g : GridIndex) (ny nx : Nat) :
    ∀ (zs : List Zone) (i0 : Int) (grid : List (List (List Int))),
      GridDims grid ny nx →
      (∀ z ∈ zs, 0 ≤ g.getGridX z.bbox.min_lon ∧ g.getGridX z.bbox.max_lon < nx ∧
        0 ≤ g.getGridY z.bbox.min_lat ∧ g.getGridY z.bbox.max_lat < ny) →
      ∃ grid1, indexZones g zs i0 grid = .ok grid1 ∧
        GridGrows (fun j => i0 ≤ j ∧ j < i0 + zs.length) grid grid1 ∧
        ∀ (k : Nat) (z : Zone), zs.get? k = some z →
          ∀ y x : Int, g.getGridY z.bbox.min_lat ≤ y → y ≤ g.getGridY z.bbox.max_lat →
            g.getGridX z.bbox.min_lon ≤ x → x ≤ g.getGridX z.bbox.max_lon →
            CellHas grid1 y.toNat x.toNat (i0 + k) := by
  intro zs
  induction zs with
  | nil =>
    intro i0 grid _ _
    exact ⟨grid, rfl, gridGrows_refl _ grid, fun k z hk => by simp at hk⟩
  | cons z rest ih =>
    intro i0 grid hd hin
    obtain ⟨hx0, hx1, hy0, hy1⟩ := hin z (List.mem_cons_self _ _)
    obtain ⟨grid1, hf1, hg1, hq1⟩ := indexZone_spec g grid ny nx i0 z.bbox hd hx0 hx1 hy0 hy1
    obtain ⟨grid2, hf2, hg2, hq2⟩ := ih (i0 + 1) grid1 (hg1.1 ny nx hd)
      (fun z1 hz1 => hin z1 (List.mem_cons_of_mem _ hz1))
    refine ⟨grid2, ?_, ?_, ?_⟩
    · unfold indexZones
      simp only [hf1]
      exact hf2
    · refine gridGrows_trans (gridGrows_weaken hg1 ?_) (gridGrows_weaken hg2 ?_)
      · intro j hj
        simp only [List.length_cons]
        push_cast
        omega
      · intro j hj
        simp only [List.length_cons]
        push_cast
        omega
    · intro k z1 hk y x hya hyb hxa hxb
      cases k with
      | zero =>
        simp only [List.get?_cons_zero, Option.some.injEq] at hk
        subst hk
        have := hg2.2.1 _ _ _ (hq1 y x hya hyb hxa hxb)
        simpa using this
      | succ k1 =>
        simp only [List.get?_cons_succ] at hk
        have := hq2 k1 z1 hk y x hya hyb hxa hxb
        have he : i0 + 1 + (k1 : Int) = i0 + ((k1 + 1 : Nat) : Int) := by push_cast; omega
        rw [he] at this
        exact this

end GridIndex

theorem truncToInt_of_nonneg (q : ℚ) (h : 0 ≤ q) : truncToInt q = ⌊q⌋ := by
  unfold truncToInt
  rw [if_pos h]

/-- Along one axis of the grid: for coordinates `a ≤ b` inside the padded
bounds, the cell numbers are in range and in the same order. -/
theorem grid_axis (minp maxp : ℚ) (n : Int) (hn : 1 ≤ n) (a b : ℚ)
    (ha : minp ≤ a) (hab : a ≤ b) (hb : b < maxp) :
    0 ≤ truncToInt ((a - minp) / ((maxp - minp) / n)) ∧
    truncToInt ((a - minp) / ((maxp - minp) / n)) ≤ truncToInt ((b - minp) / ((maxp - minp) / n)) ∧
    truncToInt ((b - minp) / ((maxp - minp) / n)) < n := by
  have hW : 0 < maxp - minp := by linarith
  have hnq : (0 : ℚ) < (n : ℚ) := by exact_mod_cast (by omega : 0 < n)
  have hcw : 0 < (maxp - minp) / n := div_pos hW hnq
  have hqa : 0 ≤ (a - minp) / ((maxp - minp) / n) := div_nonneg (by linarith) (le_of_lt hcw)
  have hqab : (a - minp) / ((maxp - minp) / n) ≤ (b - minp) / ((maxp - minp) / n) :=
    div_le_div_of_nonneg_right (by linarith) (le_of_lt hcw)
  have hqb : (b - minp) / ((maxp - minp) / n) < n := by
    rw [div_lt_iff₀ hcw, mul_div_cancel₀ _ (ne_of_gt hnq)]
    linarith
  rw [truncToInt_of_nonneg _ hqa, truncToInt_of_nonneg _ (le_trans hqa hqab)]
  exact ⟨Int.floor_nonneg.2 hqa, Int.floor_le_floor hqab, Int.floor_lt.2 hqb⟩

theorem foldl_min_le (f : Zone → ℚ) (zs : List Zone) :
    ∀ a : ℚ, zs.foldl (fun m zone => min m (f zone)) a ≤ a ∧
      ∀ z ∈ zs, zs.foldl (fun m zone => min m (f zone)) a ≤ f z := by
  induction zs with
  | nil => intro a; exact ⟨le_refl _, fun z hz => by cases hz⟩
  | cons z0 rest ih =>
    intro a
    obtain ⟨h1, h2⟩ := ih (min a (f z0))
    refine ⟨le_trans h1 (min_le_left _ _), fun z hz => ?_⟩
    rcases List.mem_cons.1 hz with h | h
    · subst h; exact le_trans h1 (min_le_right _ _)
    · exact h2 z h

theorem foldl_max_ge (f : Zone → ℚ) (zs : List Zone) :
    ∀ a : ℚ, a ≤ zs.foldl (fun m zone => max m (f zone)) a ∧
      ∀ z ∈ zs, f z ≤ zs.foldl (fun m zone => max m (f zone)) a := by
  induction zs with
  | nil => intro a; exact ⟨le_refl _, fun z hz => by cases hz⟩
  | cons z0 rest ih =>
    intro a
    obtain ⟨h1, h2⟩ := ih (max a (f z0))
    refine ⟨le_trans (le_max_left _ _) h1, fun z hz => ?_⟩
    rcases List.mem_cons.1 hz with h | h
    · subst h; exact le_trans (le_max_right _ _) h1
    · exact h2 z h

namespace GridIndex

/-- The frame the constructor computes for a non-empty list of loaded zones:
both grid sizes are positive, and every point covered by the bounding box
of one of the zones has cell numbers in range, between those of the corners
of the box. -/
theorem frame_spec (zones : List Zone) (cells_per_degree : Int) (hne : zones ≠ [])
    (hl : ∀ z ∈ zones, z.Loaded) (hc : 0 ≤ cells_per_degree) :
    1 ≤ (frame zones cells_per_degree).grid_size_x ∧
    1 ≤ (frame zones cells_per_degree).grid_size_y ∧
    ∀ z ∈ zones, ∀ p : Point, z.bbox.Covers p →
      (0 ≤ (frame zones cells_per_degree).getGridX z.bbox.min_lon ∧
        (frame zones cells_per_degree).getGridX z.bbox.min_lon
          ≤ (frame zones cells_per_degree).getGridX p.lon ∧
        (frame zones cells_per_degree).getGridX p.lon
          ≤ (frame zones cells_per_degree).getGridX z.bbox.max_lon ∧
        (frame zones cells_per_degree).getGridX z.bbox.max_lon
          < (frame zones cells_per_degree).grid_size_x) ∧
      (0 ≤ (frame zones cells_per_degree).getGridY z.bbox.min_lat ∧
        (frame zones cells_per_degree).getGridY z.bbox.min_lat
          ≤ (frame zones cells_per_degree).getGridY p.lat ∧
        (frame zones cells_per_degree).getGridY p.lat
          ≤ (frame zones cells_per_degree).getGridY z.bbox.max_lat ∧
        (frame zones cells_per_degree).getGridY z.bbox.max_lat
          < (frame zones cells_per_degree).grid_size_y) := by
  obtain ⟨z0, hz0⟩ := List.exists_mem_of_ne_nil _ hne
  have hminlon := foldl_min_le (fun z => z.bbox.min_lon) zones 180
  have hmaxlon := foldl_max_ge (fun z => z.bbox.max_lon) zones (-180)
  have hminlat := foldl_min_le (fun z => z.bbox.min_lat) zones 90
  have hmaxlat := foldl_max_ge (fun z => z.bbox.max_lat) zones (-90)
  have hcq : (0 : ℚ) ≤ (cells_per_degree : ℚ) := by exact_mod_cast hc
  have hWx : 0 ≤ (zones.foldl (fun m zone => max m zone.bbox.max_lon) (-180 : ℚ) + 1 / 10
      - (zones.foldl (fun m zone => min m zone.bbox.min_lon) (180 : ℚ) - 1 / 10)) := by
    have := (hl z0 hz0).bbox_ordered.1
    have := hminlon.2 z0 hz0
    have := hmaxlon.2 z0 hz0
    simp only at *
    linarith
  have hWy : 0 ≤ (zones.foldl (fun m zone => max m zone.bbox.max_lat) (-90 : ℚ) + 1 / 10
      - (zones.foldl (fun m zone => min m zone.bbox.min_lat) (90 : ℚ) - 1 / 10)) := by
    have := (hl z0 hz0).bbox_ordered.2
    have := hminlat.2 z0 hz0
    have := hmaxlat.2 z0 hz0
    simp only at *
    linarith
  have hgx : 1 ≤ (frame zones cells_per_degree).grid_size_x := by
    show 1 ≤ truncToInt _ + 1
    rw [truncToInt_of_nonneg _ (mul_nonneg hWx hcq)]
    have := Int.floor_nonneg.2 (mul_nonneg hWx hcq)
    omega
  have hgy : 1 ≤ (frame zones cells_per_degree).grid_size_y := by
    show 1 ≤ truncToInt _ + 1
    rw [truncToInt_of_nonneg _ (mul_nonneg hWy hcq)]
    have := Int.floor_nonneg.2 (mul_nonneg hWy hcq)
    omega
  refine ⟨hgx, hgy, ?_⟩
  intro z hz p hp
  obtain ⟨hp1, hp2, hp3, hp4⟩ := hp
  have h1 := hminlon.2 z hz
  have h2 := hmaxlon.2 z hz
  have h3 := hminlat.2 z hz
  have h4 := hmaxlat.2 z hz
  simp only at h1 h2 h3 h4
  constructor
  · obtain ⟨a1, a2, _⟩ := grid_axis (frame zones cells_per_degree).min_lon
      (frame zones cells_per_degree).max_lon _ hgx z.bbox.min_lon p.lon
      (by show _ - 1 / 10 ≤ _; linarith) hp1 (by show _ < _ + 1 / 10; linarith)
    obtain ⟨_, b2, b3⟩ := grid_axis (frame zones cells_per_degree).min_lon
      (frame zones cells_per_degree).max_lon _ hgx p.lon z.bbox.max_lon
      (by show _ - 1 / 10 ≤ _; linarith) hp2 (by show _ < _ + 1 / 10; linarith)
    exact ⟨a1, a2, b2, b3⟩
  · obtain ⟨a1, a2, _⟩ := grid_axis (frame zones cells_per_degree).min_lat
      (frame zones cells_per_degree).max_lat _ hgy z.bbox.min_lat p.lat
      (by show _ - 1 / 10 ≤ _; linarith) hp3 (by show _ < _ + 1 / 10; linarith)
    obtain ⟨_, b2, b3⟩ := grid_axis (frame zones cells_per_degree).min_lat
      (frame zones cells_per_degree).max_lat _ hgy p.lat z.bbox.max_lat
      (by show _ - 1 / 10 ≤ _; linarith) hp4 (by show _ < _ + 1 / 10; linarith)
    exact ⟨a1, a2, b2, b3⟩

theorem frame_dims (zones : List Zone) (cells_per_degree : Int) :
    GridDims (frame zones cells_per_degree).grid
      (frame zones cells_per_degree).grid_size_y.toNat
      (frame zones cells_per_degree).grid_size_x.toNat := by
  refine ⟨List.length_replicate _ _, ?_⟩
  intro row hrow
  rw [List.eq_of_mem_replicate hrow]
  exact List.length_replicate _ _

theorem frame_cells_empty (zones : List Zone) (cells_per_degree : Int) (y x : Nat) (j : Int) :
    ¬ CellHas (frame zones cells_per_degree).grid y x j := by
  rintro ⟨row, cell, h1, h2, h3⟩
  have hrow : row ∈ (frame zones cells_per_degree).grid := List.get?_mem h1
  have hr := List.eq_of_mem_replicate hrow
  rw [hr] at h2
  have hcell := List.eq_of_mem_replicate (List.get?_mem h2)
  rw [hcell] at h3
  cases h3

/-- The constructor succeeds on a non-empty list of loaded zones. The grid
it builds has the allocated shape, holds only indices of zones, and holds
the index of a zone in every cell of the cell range of its bounding box. -/
theorem create_spec (zones : List Zone) (cells_per_degree : Int) (hne : zones ≠ [])
    (hl : ∀ z ∈ zones, z.Loaded) (hc : 0 ≤ cells_per_degree) :
    ∃ grid, create zones cells_per_degree
        = .ok { frame zones cells_per_degree with grid := grid } ∧
      GridDims grid (frame zones cells_per_degree).grid_size_y.toNat
        (frame zones cells_per_degree).grid_size_x.toNat ∧
      (∀ y x j, CellHas grid y x j → 0 ≤ j ∧ j < zones.length) ∧
      ∀ (k : Nat) (z : Zone), zones.get? k = some z →
        ∀ y x : Int,
          (frame zones cells_per_degree).getGridY z.bbox.min_lat ≤ y →
          y ≤ (frame zones cells_per_degree).getGridY z.bbox.max_lat →
          (frame zones cells_per_degree).getGridX z.bbox.min_lon ≤ x →
          x ≤ (frame zones cells_per_degree).getGridX z.bbox.max_lon →
          CellHas grid y.toNat x.toNat k := by
  obtain ⟨hgx, hgy, hcov⟩ := frame_spec zones cells_per_degree hne hl hc
  have hin : ∀ z ∈ zones,
      0 ≤ (frame zones cells_per_degree).getGridX z.bbox.min_lon ∧
      (frame zones cells_per_degree).getGridX z.bbox.max_lon
        < ((frame zones cells_per_degree).grid_size_x.toNat : Int) ∧
      0 ≤ (frame zones cells_per_degree).getGridY z.bbox.min_lat ∧
      (frame zones cells_per_degree).getGridY z.bbox.max_lat
        < ((frame zones cells_per_degree).grid_size_y.toNat : Int) := by
    intro z hz
    have hord := (hl z hz).bbox_ordered
    obtain ⟨⟨a1, _, _, a4⟩, ⟨b1, _, _, b4⟩⟩ := hcov z hz ⟨z.bbox.min_lon, z.bbox.min_lat⟩
      ⟨le_refl _, hord.1, le_refl _, hord.2⟩
    refine ⟨a1, by omega, b1, by omega⟩
  obtain ⟨grid, hf, hg, hq⟩ := indexZones_spec (frame zones cells_per_degree) _ _ zones 0
    (frame zones cells_per_degree).grid (frame_dims zones cells_per_degree) hin
  refine ⟨grid, ?_, hg.1 _ _ (frame_dims zones cells_per_degree), ?_, ?_⟩
  · unfold create
    simp only
    rw [if_neg (by omega), hf]
  · intro y x j hj
    rcases hg.2.2 y x j hj with h | h
    · exact absurd h (frame_cells_empty zones cells_per_degree y x j)
    · omega
  · intro k z hk y x hya hyb hxa hxb
    have := hq k z hk y x hya hyb hxa hxb
    simpa using this

/-- The scan of a cell whose entries are indices of zones returns the id of
a zone that contains the point, once one entry of the cell is such a zone. -/
theorem scanCell_spec (zones : List Zone) (p : Point) (cell : List Int)
    (hvalid : ∀ j ∈ cell, 0 ≤ j ∧ j < zones.length)
    (hex : ∃ j ∈ cell, ∃ z, zones.get? j.toNat = some z ∧ z.containsPoint p = true) :
    ∃ z ∈ zones, z.containsPoint p = true ∧ scanCell zones p cell = .ok z.id := by
  induction cell with
  | nil =>
    obtain ⟨j, hj, _⟩ := hex
    cases hj
  | cons idx rest ih =>
    obtain ⟨h0, h1⟩ := hvalid idx (List.mem_cons_self _ _)
    have hlt : idx.toNat < zones.length := by omega
    have hget : zones.get? idx.toNat = some zones[idx.toNat] := by
      rw [List.get?_eq_getElem?, List.getElem?_eq_getElem hlt]
    unfold scanCell
    rw [if_neg (by omega)]
    simp only [hget]
    by_cases hc : zones[idx.toNat].containsPoint p = true
    · rw [if_pos hc]
      exact ⟨_, List.getElem_mem hlt, hc, rfl⟩
    · rw [if_neg hc]
      apply ih (fun j hj => hvalid j (List.mem_cons_of_mem _ hj))
      obtain ⟨j, hj, z, hz, hzc⟩ := hex
      rcases List.mem_cons.1 hj with h | h
      · subst h
        rw [hget] at hz
        cases hz
        exact absurd hzc hc
      · exact ⟨j, h, z, hz, hzc⟩

end GridIndex

/-! ## Lookup of a point that lies inside a zone -/

namespace GridIndex

/-- C10, as amended. For every non-empty list of loaded zones (bounding
boxes computed by `computeBBox`) whose ids are all non-empty, every zone `Z`
of it (at index `k`) and every point `p` that lies in the bounding box of
`Z` and that some polygon of `Z` ray-casts as inside: the constructor builds
the index, `p`'s grid cell is in range and its zone list contains `k`, and
`findZoneContainingPoint(p.lon, p.lat)` returns the id of a zone of the list
that contains `p`, which is not empty. -/
theorem findZoneContainingPoint_inside (zones : List Zone) (cells_per_degree : Int)
    (hne : zones ≠ []) (hl : ∀ z ∈ zones, z.Loaded) (hid : ∀ z ∈ zones, z.id ≠ "")
    (hc : 0 ≤ cells_per_degree)
    (k : Nat) (Z : Zone) (hk : zones.get? k = some Z)
    (poly : Polygon) (hpoly : poly ∈ Z.polygons) (p : Point) (hin : poly.contains p = true)
    (hbox : Z.bbox.contains p = true) :
    ∃ g, create zones cells_per_degree = .ok g ∧
      (0 ≤ g.getGridX p.lon ∧ g.getGridX p.lon < g.grid_size_x ∧
        0 ≤ g.getGridY p.lat ∧ g.getGridY p.lat < g.grid_size_y) ∧
      CellHas g.grid (g.getGridY p.lat).toNat (g.getGridX p.lon).toNat k ∧
      ∃ z ∈ zones, z.containsPoint p = true ∧ z.id ≠ "" ∧
        g.findZoneContainingPoint p.lon p.lat = .ok z.id := by
  obtain ⟨grid, hcreate, hdims, hvalid, hcells⟩ := create_spec zones cells_per_degree hne hl hc
  obtain ⟨_, _, hcov⟩ := frame_spec zones cells_per_degree hne hl hc
  have hZ : Z ∈ zones := List.get?_mem hk
  have hcover : Z.bbox.Covers p := (BBox.contains_iff _ _).1 hbox
  have hcontains : Z.containsPoint p = true := by
    unfold Zone.containsPoint
    rw [hbox]
    simp only [Bool.not_true, Bool.false_eq_true, if_false, List.any_eq_true]
    exact ⟨poly, hpoly, hin⟩
  obtain ⟨⟨a1, a2, a3, a4⟩, ⟨b1, b2, b3, b4⟩⟩ := hcov Z hZ p hcover
  have hcell := hcells k Z hk _ _ b2 b3 a2 a3
  refine ⟨{ frame zones cells_per_degree with grid := grid }, hcreate, ?_, hcell, ?_⟩
  · exact ⟨le_trans a1 a2, lt_of_le_of_lt a3 a4, le_trans b1 b2, lt_of_le_of_lt b3 b4⟩
  · obtain ⟨row, cell, hrow, hcol, hmem⟩ := hcell
    have hscan := scanCell_spec zones p cell
      (fun j hj => hvalid _ _ j ⟨row, cell, hrow, hcol, hj⟩)
      ⟨(k : Int), hmem, Z, by simpa using hk, hcontains⟩
    obtain ⟨z, hz, hzc, hzs⟩ := hscan
    refine ⟨z, hz, hzc, hid z hz, ?_⟩
    unfold findZoneContainingPoint
    have hx0 : 0 ≤ (frame zones cells_per_degree).getGridX p.lon := le_trans a1 a2
    have hx1 : (frame zones cells_per_degree).getGridX p.lon
        < (frame zones cells_per_degree).grid_size_x := lt_of_le_of_lt a3 a4
    have hy0 : 0 ≤ (frame zones cells_per_degree).getGridY p.lat := le_trans b1 b2
    have hy1 : (frame zones cells_per_degree).getGridY p.lat
        < (frame zones cells_per_degree).grid_size_y := lt_of_le_of_lt b3 b4
    have hgx : ∀ lon, getGridX { frame zones cells_per_degree with grid := grid } lon
        = (frame zones cells_per_degree).getGridX lon := fun _ => rfl
    have hgy : ∀ lat, getGridY { frame zones cells_per_degree with grid := grid } lat
        = (frame zones cells_per_degree).getGridY lat := fun _ => rfl
    simp only [hgx, hgy]
    rw [if_neg (by omega)]
    simp only [hrow, hcol]
    exact hzs

set_option maxRecDepth 100000 in
/-- C10 fails as stated, for two reasons. The zone loaded from a row with
an empty id field contains the point (0.05, 0.05), and the lookup of that
point returns the id of the zone, the empty string. And for the zone `Z` of
the ring `roundingRing`, whose id is not empty, the ray-cast accepts the
point `roundingPoint`, one unit in the last place left of the ring, while
the bounding box does not hold it: the lookup returns the empty string. -/
theorem findZoneContainingPoint_counterexample :
    (anonymousZone.Loaded ∧
      (∃ poly ∈ anonymousZone.polygons, poly.contains ⟨1 / 20, 1 / 20⟩ = true) ∧
      (match create [anonymousZone] 10 with
        | .ok g => g.findZoneContainingPoint (1 / 20) (1 / 20)
        | .error e => .error e) = .ok "" ∧
      ¬ ∃ id, id ≠ "" ∧
        (match create [anonymousZone] 10 with
          | .ok g => g.findZoneContainingPoint (1 / 20) (1 / 20)
          | .error e => .error e) = .ok id) ∧
    (roundingZone.Loaded ∧ roundingZone.id ≠ "" ∧
      (∃ poly ∈ roundingZone.polygons, poly.contains roundingPoint = true) ∧
      (match create [roundingZone] 10 with
        | .ok g => g.findZoneContainingPoint roundingPoint.lon roundingPoint.lat
        | .error e => .error e) = .ok "") := by
  have hfind : (match create [anonymousZone] 10 with
      | .ok g => g.findZoneContainingPoint (1 / 20) (1 / 20)
      | .error e => .error e) = .ok "" := by with_unfolding_all rfl
  refine ⟨⟨⟨by with_unfolding_all rfl, _, List.mem_cons_self _ _, by simp⟩,
    ⟨_, List.mem_cons_self _ _, by with_unfolding_all rfl⟩, hfind, ?_⟩,
    ⟨by with_unfolding_all rfl, roundingRing, List.mem_cons_self _ _, by
      simp [roundingRing]⟩, by decide,
    ⟨roundingRing, List.mem_cons_self _ _, by with_unfolding_all rfl⟩,
    by with_unfolding_all rfl⟩
  rw [hfind]
  rintro ⟨id, hne, h⟩
  cases h
  exact hne rfl

theorem sampleZones_loaded : ∀ z ∈ sampleZones, z.Loaded := by
  intro z hz
  refine ⟨sampleZones_bbox z hz, ?_⟩
  simp only [sampleZones, List.mem_cons, List.mem_singleton, List.not_mem_nil, or_false] at hz
  rcases hz with h | h <;> subst h <;> exact ⟨_, List.mem_cons_self _ _, by simp⟩

set_option maxRecDepth 100000 in
/-- C10 as amended, on the two sample zones, for zone A and the point
(0.05, 0.05), which lies in the bounding box of A. -/
theorem findZoneContainingPoint_inside_witness :
    ∃ g, create sampleZones 10 = .ok g ∧
      (0 ≤ g.getGridX (1 / 20) ∧ g.getGridX (1 / 20) < g.grid_size_x ∧
        0 ≤ g.getGridY (1 / 20) ∧ g.getGridY (1 / 20) < g.grid_size_y) ∧
      CellHas g.grid (g.getGridY (1 / 20)).toNat (g.getGridX (1 / 20)).toNat (0 : Nat) ∧
      ∃ z ∈ sampleZones, z.containsPoint ⟨1 / 20, 1 / 20⟩ = true ∧ z.id ≠ "" ∧
        g.findZoneContainingPoint (1 / 20) (1 / 20) = .ok z.id :=
  findZoneContainingPoint_inside sampleZones 10 (by simp [sampleZones]) sampleZones_loaded
    (by decide) (by decide) 0 _ rfl _ (List.mem_cons_self _ _) ⟨1 / 20, 1 / 20⟩
    (by with_unfolding_all rfl) (by with_unfolding_all rfl)

end GridIndex

/-! ## Rank and rank in percent -/

namespace CoarseETA

/-- C20. For every non-empty non-decreasing ETA table of `N` records and
every `os_eta`, the rank `ETARequest` computes from the search result
(`record_eta1`, plus `(os_eta - eta1) / (eta2 - eta1)` when there is an upper
neighbour) lies in `[0, N - 1]`; the rank in percent is `rank / (N - 1) * 100`
when `N > 1` and 0 when `N = 1`, and lies in `[0, 100]`. -/
theorem rank_in_range (path : String) (files : ETAFiles) (z1 z2 : String)
    (os_eta : ℚ) (t : List ℚ) (hfile : files (tableName path z1 z2) = some t)
    (hne : t ≠ []) (_hsorted : t.Sorted (· ≤ ·)) :
    ∃ sr, binarySearchETA path files z1 z2 os_eta = .ok sr ∧
      rankOf sr os_eta = (sr.record_eta1 : ℚ) +
        (if sr.record_eta2 ≠ -1 then (os_eta - sr.eta1) / (sr.eta2 - sr.eta1) else 0) ∧
      0 ≤ rankOf sr os_eta ∧ rankOf sr os_eta ≤ (t.length : ℚ) - 1 ∧
      (1 < t.length →
        rankPercent sr (rankOf sr os_eta) = rankOf sr os_eta / ((t.length : ℚ) - 1) * 100) ∧
      (t.length = 1 → rankPercent sr (rankOf sr os_eta) = 0) ∧
      0 ≤ rankPercent sr (rankOf sr os_eta) ∧ rankPercent sr (rankOf sr os_eta) ≤ 100 := by
  have hlen : 0 < t.length := List.length_pos.2 hne
  have hlenq : (1 : ℚ) ≤ (t.length : ℚ) := by exact_mod_cast hlen
  have hpct : ∀ (sr : SearchResult) (rank : ℚ), sr.total_records = (t.length : ℚ) →
      0 ≤ rank → rank ≤ (t.length : ℚ) - 1 →
      (1 < t.length → rankPercent sr rank = rank / ((t.length : ℚ) - 1) * 100) ∧
      (t.length = 1 → rankPercent sr rank = 0) ∧
      0 ≤ rankPercent sr rank ∧ rankPercent sr rank ≤ 100 := by
    intro sr rank htot h0 h1
    unfold rankPercent
    rw [htot]
    by_cases hN : 1 < t.length
    · have hNq : (1 : ℚ) < (t.length : ℚ) := by exact_mod_cast hN
      have hd : (0 : ℚ) < (t.length : ℚ) - 1 := by linarith
      rw [if_pos hNq]
      refine ⟨fun _ => rfl, fun h => by omega, ?_, ?_⟩
      · exact mul_nonneg (div_nonneg h0 (le_of_lt hd)) (by norm_num)
      · have : rank / ((t.length : ℚ) - 1) ≤ 1 := by rw [div_le_one hd]; exact h1
        linarith
    · have hNq : ¬ (1 : ℚ) < (t.length : ℚ) := by
        intro h; exact hN (by exact_mod_cast h)
      rw [if_neg hNq]
      exact ⟨fun h => absurd h hN, fun _ => rfl, le_refl _, by norm_num⟩
  rcases binarySearchETA_cases path files z1 z2 os_eta t hfile hne with
    ⟨mid, h0, h1, _, hs⟩ | ⟨v, _, _, hs⟩ | ⟨v, _, _, hs⟩ | ⟨hi, v1, v2, h0, h1, _, _, hl1, hl2, hs⟩
  · have hr : rankOf ⟨mid, os_eta, -1, -1, t.length⟩ os_eta = (mid : ℚ) := by
      unfold rankOf; simp
    have hm0 : (0 : ℚ) ≤ (mid : ℚ) := by exact_mod_cast h0
    have hm1 : (mid : ℚ) ≤ (t.length : ℚ) - 1 := by
      have : mid ≤ (t.length : Int) - 1 := by omega
      exact_mod_cast this
    refine ⟨_, hs, ?_, ?_⟩
    · rw [hr]; simp
    · rw [hr]; exact ⟨hm0, hm1, hpct _ _ rfl hm0 hm1⟩
  · have hr : rankOf ⟨(t.length : Int) - 1, v, -1, -1, t.length⟩ os_eta = (t.length : ℚ) - 1 := by
      unfold rankOf; simp
    refine ⟨_, hs, ?_, ?_⟩
    · rw [hr]; simp
    · rw [hr]; exact ⟨by linarith, le_refl _, hpct _ _ rfl (by linarith) (le_refl _)⟩
  · have hr : rankOf ⟨0, v, -1, -1, t.length⟩ os_eta = 0 := by
      unfold rankOf; simp
    refine ⟨_, hs, ?_, ?_⟩
    · rw [hr]; simp
    · rw [hr]; exact ⟨le_refl _, by linarith, hpct _ _ rfl (le_refl _) (by linarith)⟩
  · have hne1 : hi + 1 ≠ -1 := by omega
    have hr : rankOf ⟨hi, v1, hi + 1, v2, t.length⟩ os_eta
        = (hi : ℚ) + (os_eta - v1) / (v2 - v1) := by
      unfold rankOf; simp only [ne_eq, hne1, not_false_eq_true, if_true]
    have hd : 0 < v2 - v1 := by linarith
    have hf0 : 0 ≤ (os_eta - v1) / (v2 - v1) := div_nonneg (by linarith) (le_of_lt hd)
    have hf1 : (os_eta - v1) / (v2 - v1) ≤ 1 := by rw [div_le_one hd]; linarith
    have hh0 : (0 : ℚ) ≤ (hi : ℚ) := by exact_mod_cast h0
    have hh1 : (hi : ℚ) + 1 ≤ (t.length : ℚ) - 1 := by
      have : hi + 1 ≤ (t.length : Int) - 1 := by omega
      exact_mod_cast this
    refine ⟨_, hs, ?_, ?_⟩
    · rw [hr]; simp only [ne_eq, hne1, not_false_eq_true, if_true]
    · rw [hr]
      exact ⟨by linarith, by linarith, hpct _ _ rfl (by linarith) (by linarith)⟩

/-- C20 at the table `[10, 20, 30, 40, 50]` with the target 35. -/
theorem rank_in_range_witness :
    ∃ sr, binarySearchETA "eta" (fun _ => some [10, 20, 30, 40, 50]) "A" "B" 35 = .ok sr ∧
      rankOf sr 35 = (sr.record_eta1 : ℚ) +
        (if sr.record_eta2 ≠ -1 then (35 - sr.eta1) / (sr.eta2 - sr.eta1) else 0) ∧
      0 ≤ rankOf sr 35 ∧ rankOf sr 35 ≤ (([10, 20, 30, 40, 50] : List ℚ).length : ℚ) - 1 ∧
      (1 < ([10, 20, 30, 40, 50] : List ℚ).length →
        rankPercent sr (rankOf sr 35)
          = rankOf sr 35 / ((([10, 20, 30, 40, 50] : List ℚ).length : ℚ) - 1) * 100) ∧
      (([10, 20, 30, 40, 50] : List ℚ).length = 1 → rankPercent sr (rankOf sr 35) = 0) ∧
      0 ≤ rankPercent sr (rankOf sr 35) ∧ rankPercent sr (rankOf sr 35) ≤ 100 :=
  rank_in_range "eta" (fun _ => some [10, 20, 30, 40, 50]) "A" "B" 35 [10, 20, 30, 40, 50]
    rfl (by simp) (by norm_num [List.Sorted])

end CoarseETA

/-! ## The result of the percentile lookup -/

namespace CoarseETA

/-- C17. For every strictly ascending whole-number rank vector `x`, every
`y` of the same length and every `rank_p`, `FindStat` returns, and with `idx`
the smallest index whose rank is at least `rank_p` (`|x|` if there is none):
on an exact match (`idx < |x|` and `x[idx] ≤ rank_p + 1e-9`, the sum being
the double that the machine computes) the result is
`rank1 = x[idx]`, `eta1 = y[idx]` with `rank2` and `eta2` unset (`-1`);
otherwise `rank1, eta1` are `x[idx - 1], y[idx - 1]` when `idx > 0`, else
unset, and `rank2, eta2` are `x[idx], y[idx]` when `idx < |x|`, else unset. -/
theorem FindStat_result (x y : List ℚ) (rank_p : ℚ)
    (_hx : x.Sorted (· < ·)) (hwhole : ∀ e ∈ x, ∃ n : Int, e = (n : ℚ))
    (hlen : y.length = x.length) :
    ∃ (idx : Nat) (st : StatResult), FindStat x y rank_p = .ok st ∧
      idx ≤ x.length ∧
      (idx < x.length → rank_p ≤ x.getD idx 0) ∧
      (∀ j, j < idx → ¬ rank_p ≤ x.getD j 0) ∧
      ((idx < x.length ∧ x.getD idx 0 ≤ rankPlusEps rank_p) →
        (st.rank1 : ℚ) = x.getD idx 0 ∧ st.eta1 = y.getD idx 0 ∧
          st.rank2 = -1 ∧ st.eta2 = -1) ∧
      (¬ (idx < x.length ∧ x.getD idx 0 ≤ rankPlusEps rank_p) →
        (0 < idx → (st.rank1 : ℚ) = x.getD (idx - 1) 0 ∧ st.eta1 = y.getD (idx - 1) 0) ∧
        (idx = 0 → st.rank1 = -1 ∧ st.eta1 = -1) ∧
        (idx < x.length → (st.rank2 : ℚ) = x.getD idx 0 ∧ st.eta2 = y.getD idx 0) ∧
        (idx = x.length → st.rank2 = -1 ∧ st.eta2 = -1)) := by
  obtain ⟨hle, hlt, hge⟩ := lower_bound_spec x rank_p
  have htr : ∀ k, k < x.length → (truncToInt (x.getD k 0) : ℚ) = x.getD k 0 := by
    intro k hk
    obtain ⟨n, hn⟩ := hwhole _ (getD_mem x k hk)
    rw [hn, truncToInt_intCast]
  refine ⟨lower_bound x rank_p, _, FindStat_eq x y rank_p hlen, hle, hge,
    fun j hj => not_le.2 (hlt j hj), ?_, ?_⟩
  · intro hex
    rw [if_pos hex]
    exact ⟨htr _ hex.1, rfl, rfl, rfl⟩
  · intro hex
    rw [if_neg hex]
    refine ⟨fun h0 => ?_, fun h0 => ?_, fun h1 => ?_, fun h1 => ?_⟩
    · have hne : lower_bound x rank_p ≠ 0 := by omega
      simp only [if_pos hne]
      exact ⟨htr _ (by omega), trivial⟩
    · have hne : ¬ lower_bound x rank_p ≠ 0 := by omega
      simp only [if_neg hne]
      exact ⟨trivial, trivial⟩
    · simp only [if_pos h1]
      exact ⟨htr _ h1, trivial⟩
    · have hne : ¬ lower_bound x rank_p < x.length := by omega
      simp only [if_neg hne]
      exact ⟨trivial, trivial⟩

set_option maxRecDepth 100000 in
/-- C17 on the ranks `[0, 25, 50, 75, 100]`, the values
`[50, 100, 200, 400, 800]` and the rank `0x1.8fffffffbb47dp+4`, a double
below 25 whose exact sum with `10^-9` is below 25 while the sum of the
machine is 25: `FindStat` reports the exact match `(25, 100)`. -/
theorem FindStat_result_witness :
    (∃ (idx : Nat) (st : StatResult),
      FindStat [0, 25, 50, 75, 100] [50, 100, 200, 400, 800] roundingRank = .ok st ∧
      idx ≤ ([0, 25, 50, 75, 100] : List ℚ).length ∧
      (idx < ([0, 25, 50, 75, 100] : List ℚ).length →
        roundingRank ≤ ([0, 25, 50, 75, 100] : List ℚ).getD idx 0) ∧
      (∀ j, j < idx → ¬ roundingRank ≤ ([0, 25, 50, 75, 100] : List ℚ).getD j 0) ∧
      ((idx < ([0, 25, 50, 75, 100] : List ℚ).length ∧
          ([0, 25, 50, 75, 100] : List ℚ).getD idx 0 ≤ rankPlusEps roundingRank) →
        (st.rank1 : ℚ) = ([0, 25, 50, 75, 100] : List ℚ).getD idx 0 ∧
          st.eta1 = ([50, 100, 200, 400, 800] : List ℚ).getD idx 0 ∧
          st.rank2 = -1 ∧ st.eta2 = -1) ∧
      (¬ (idx < ([0, 25, 50, 75, 100] : List ℚ).length ∧
          ([0, 25, 50, 75, 100] : List ℚ).getD idx 0 ≤ rankPlusEps roundingRank) →
        (0 < idx → (st.rank1 : ℚ) = ([0, 25, 50, 75, 100] : List ℚ).getD (idx - 1) 0 ∧
          st.eta1 = ([50, 100, 200, 400, 800] : List ℚ).getD (idx - 1) 0) ∧
        (idx = 0 → st.rank1 = -1 ∧ st.eta1 = -1) ∧
        (idx < ([0, 25, 50, 75, 100] : List ℚ).length →
          (st.rank2 : ℚ) = ([0, 25, 50, 75, 100] : List ℚ).getD idx 0 ∧
          st.eta2 = ([50, 100, 200, 400, 800] : List ℚ).getD idx 0) ∧
        (idx = ([0, 25, 50, 75, 100] : List ℚ).length → st.rank2 = -1 ∧ st.eta2 = -1))) ∧
    FindStat [0, 25, 50, 75, 100] [50, 100, 200, 400, 800] roundingRank
      = .ok { rank1 := 25, eta1 := 100, rank2 := -1, eta2 := -1 } ∧
    Binary64.nearest roundingRank = roundingRank ∧
    rankPlusEps roundingRank = 25 ∧
    roundingRank + 1 / 1000000000 < 25 :=
  ⟨FindStat_result [0, 25, 50, 75, 100] [50, 100, 200, 400, 800] roundingRank
      (by norm_num [List.Sorted])
      (by
        intro e he
        simp only [List.mem_cons, List.mem_singleton, List.not_mem_nil, or_false] at he
        rcases he with rfl | rfl | rfl | rfl | rfl
        · exact ⟨0, by norm_num⟩
        · exact ⟨25, by norm_num⟩
        · exact ⟨50, by norm_num⟩
        · exact ⟨75, by norm_num⟩
        · exact ⟨100, by norm_num⟩)
      rfl,
    by with_unfolding_all rfl, by with_unfolding_all rfl, by with_unfolding_all rfl,
    by norm_num [roundingRank]⟩

end CoarseETA

/-! ## The key and its lookup -/

theorem toString_eq_decimal (n : Int) : toString n = decimal n := by
  unfold decimal
  cases n with
  | ofNat m =>
    rw [if_neg (by simp)]
    rfl
  | negSucc m =>
    rw [if_pos (Int.negSucc_lt_zero m)]
    rfl

namespace CoarseETA

/-- C16. For every start zone `z1`, end zone `z2` and `TimeZone` `tb`, the
key `ETARequest` builds is the comma-joined list of the fields of its zoning
type: `z1, z2, season, day_of_week, adjusted_hour` for `DOW_HOD`, with
`daytype` in place of `day_of_week` for `DAYTYPE_HOD`, and with
`start_hour, end_hour` in place of `adjusted_hour` for the two `RANGE`
types; the integers are written in decimal. -/
theorem makeKey_eq (time_zoning_type : TimeZoningType) (z1 z2 : String) (tb : TimeZone) :
    makeKey time_zoning_type z1 z2 tb
      = ",".intercalate (keyFields time_zoning_type z1 z2 tb) := by
  cases time_zoning_type <;>
    simp only [makeKey, keyFields, String.intercalate, String.intercalate.go,
      toString_eq_decimal]

theorem mapAt_error {β : Type} (m : List (String × β)) (key : String) (e : Fault)
    (h : mapAt m key = .error e) : e = .exception "map::at" := by
  unfold mapAt at h
  split at h
  · cases h
  · cases h; rfl

theorem mapAt_of_lookup_none {β : Type} (m : List (String × β)) (key : String)
    (h : m.lookup key = none) : mapAt m key = .error (.exception "map::at") := by
  unfold mapAt
  rw [h]

/-- The `try` block when the key is not in the hash index: it ends in the
exception of `std::map::at`, whatever the routing engine and the table
files are. -/
theorem ETARequestTry_key_absent (c : CoarseETA) (w : World) (query : ETAQuery)
    (z1 z2 : String)
    (hstart : c.spatial_index.findZoneContainingPoint query.start_long query.start_lat = .ok z1)
    (hend : c.spatial_index.findZoneContainingPoint query.end_long query.end_lat = .ok z2)
    (habsent : c.hash_table.lookup
      (makeKey c.time_zoning_type z1 z2
        (timeZoning w.get_time w.indeterminate query.start_datetime)) = none) :
    ETARequestTry c w query = .error (.exception "map::at") := by
  unfold ETARequestTry
  simp only [bind, Except.bind, hstart, hend]
  cases hx : mapAt aggregate_ranks c.aggregate_type with
  | error e =>
    simp only
    rw [mapAt_error _ _ e hx]
  | ok x =>
    simp only
    rw [mapAt_of_lookup_none _ _ habsent]

/-- C15. For every query whose composite key is absent from the hash index,
`ETARequest` returns `-1.0`: the `try` block ends in the exception of the
key lookup, and it does so whatever the routing engine would answer and
whatever table files exist, neither of which is consulted. -/
theorem ETARequest_key_absent (c : CoarseETA) (w : World) (query : ETAQuery)
    (z1 z2 : String)
    (hstart : c.spatial_index.findZoneContainingPoint query.start_long query.start_lat = .ok z1)
    (hend : c.spatial_index.findZoneContainingPoint query.end_long query.end_lat = .ok z2)
    (habsent : c.hash_table.lookup
      (makeKey c.time_zoning_type z1 z2
        (timeZoning w.get_time w.indeterminate query.start_datetime)) = none) :
    ETARequest c w query = some (-1) ∧
    ∀ (files : ETAFiles) (engine_reply : ℚ → ℚ → ℚ → ℚ → Except Fault ℚ),
      ETARequestTry c { w with files := files, engine_reply := engine_reply } query
          = .error (.exception "map::at") ∧
      ETARequest c { w with files := files, engine_reply := engine_reply } query
          = some (-1) := by
  have h1 := ETARequestTry_key_absent c w query z1 z2 hstart hend habsent
  refine ⟨by unfold ETARequest; rw [h1], ?_⟩
  intro files engine_reply
  have h2 := ETARequestTry_key_absent c
    { w with files := files, engine_reply := engine_reply } query z1 z2 hstart hend habsent
  exact ⟨h2, by unfold ETARequest; rw [h2]⟩

set_option maxRecDepth 100000 in
/-- C15 on the small installation, for a query on a Saturday, whose key
`A,B,4,5,0` is not in the index. -/
theorem ETARequest_key_absent_witness :
    ETARequest sampleETA (sampleWorld [10, 90] (.ok 50) (some ⟨0, 6, 0, 19⟩)) sampleQuery
      = some (-1) ∧
    ∀ (files : ETAFiles) (engine_reply : ℚ → ℚ → ℚ → ℚ → Except Fault ℚ),
      ETARequestTry sampleETA
          { sampleWorld [10, 90] (.ok 50) (some ⟨0, 6, 0, 19⟩) with
            files := files, engine_reply := engine_reply } sampleQuery
          = .error (.exception "map::at") ∧
      ETARequest sampleETA
          { sampleWorld [10, 90] (.ok 50) (some ⟨0, 6, 0, 19⟩) with
            files := files, engine_reply := engine_reply } sampleQuery
          = some (-1) :=
  ETARequest_key_absent sampleETA (sampleWorld [10, 90] (.ok 50) (some ⟨0, 6, 0, 19⟩))
    sampleQuery "A" "B" (by with_unfolding_all rfl) (by with_unfolding_all rfl)
    (by with_unfolding_all rfl)

theorem makeKey_split (time_zoning_type : TimeZoningType) (z1 z2 : String) (tb : TimeZone) :
    makeKey time_zoning_type z1 z2 tb
      = z1 ++ ("," ++ (z2 ++ ("," ++ keyTail time_zoning_type tb))) := by
  cases time_zoning_type <;> simp only [makeKey, keyTail, String.append_assoc]

theorem makeKey_empty_zone (time_zoning_type : TimeZoningType) (z1 z2 : String) (tb : TimeZone)
    (h : z1 = "" ∨ z2 = "") : HasEmptyField (makeKey time_zoning_type z1 z2 tb) := by
  rw [makeKey_split]
  unfold HasEmptyField
  simp only [String.data_append]
  rcases h with h | h
  · subst h
    left
    rfl
  · subst h
    right
    exact ⟨z1.data, (keyTail time_zoning_type tb).data, by simp⟩

/-- C14, as amended. For every query in which the grid lookup of the start
point or of the end point returns the empty zone id, `ETARequest` returns
`-1.0`, whatever ETA tables exist, provided no key of the hash index has an
empty field (none starts with a comma or has two adjacent commas). The
`-1.0` is the caught exception of the key lookup. -/
theorem ETARequest_zone_not_found (c : CoarseETA) (w : World) (query : ETAQuery)
    (z1 z2 : String)
    (hstart : c.spatial_index.findZoneContainingPoint query.start_long query.start_lat = .ok z1)
    (hend : c.spatial_index.findZoneContainingPoint query.end_long query.end_lat = .ok z2)
    (hempty : z1 = "" ∨ z2 = "")
    (hkeys : ∀ entry ∈ c.hash_table, ¬ HasEmptyField entry.1) :
    ETARequest c w query = some (-1) ∧
    ETARequestTry c w query = .error (.exception "map::at") := by
  have habsent : c.hash_table.lookup
      (makeKey c.time_zoning_type z1 z2
        (timeZoning w.get_time w.indeterminate query.start_datetime)) = none := by
    rw [List.lookup_eq_none_iff]
    intro entry hentry
    simp only [bne_iff_ne, ne_eq]
    intro heq
    exact hkeys entry hentry (heq ▸ makeKey_empty_zone _ _ _ _ hempty)
  have h1 := ETARequestTry_key_absent c w query z1 z2 hstart hend habsent
  exact ⟨by unfold ETARequest; rw [h1], h1⟩

set_option maxRecDepth 100000 in
/-- C14 fails as stated: the start point (10, 0.05) is outside the grid and
its lookup returns the empty id, the hash index holds the key `,B,4,4,0` and
the table `eta/_B.bin` exists; `ETARequest` returns the ETA 200, not `-1.0`. -/
theorem ETARequest_zone_not_found_counterexample :
    sampleIndex.findZoneContainingPoint outsideQuery.start_long outsideQuery.start_lat
      = .ok "" ∧
    ETARequest emptyZoneETA (emptyZoneWorld [10, 90] (.ok 50) (some sampleTm)) outsideQuery
      = some 200 ∧
    ETARequest emptyZoneETA (emptyZoneWorld [10, 90] (.ok 50) (some sampleTm)) outsideQuery
      ≠ some (-1) := by
  refine ⟨by with_unfolding_all rfl, by decide!, by decide!⟩

set_option maxRecDepth 100000 in
/-- C14 as amended, on the small installation, for the start point
(10, 0.05) outside the grid. -/
theorem ETARequest_zone_not_found_witness :
    ETARequest sampleETA (sampleWorld [10, 90] (.ok 50) (some sampleTm)) outsideQuery
      = some (-1) ∧
    ETARequestTry sampleETA (sampleWorld [10, 90] (.ok 50) (some sampleTm)) outsideQuery
      = .error (.exception "map::at") :=
  ETARequest_zone_not_found sampleETA (sampleWorld [10, 90] (.ok 50) (some sampleTm))
    outsideQuery "" "B" (by with_unfolding_all rfl) (by with_unfolding_all rfl)
    (Or.inl rfl) (by decide)

end CoarseETA

/-! ## The ray cast as a count of crossings -/

/-- In exact arithmetic the abscissa of the code, written from `vi`, and the
one of the specification, written from `vj`, are the same number. -/
theorem abscissa_eq_spec (vi vj p : Point) (h : vi.lat ≠ vj.lat) :
    (vj.lon - vi.lon) * (p.lat - vi.lat) / (vj.lat - vi.lat) + vi.lon
      = vj.lon + (vi.lon - vj.lon) * (p.lat - vj.lat) / (vi.lat - vj.lat) := by
  have h1 : vj.lat - vi.lat ≠ 0 := sub_ne_zero.2 (Ne.symm h)
  have h2 : vi.lat - vj.lat ≠ 0 := sub_ne_zero.2 h
  field_simp
  ring

/-- The state of the loop of `Polygon::contains` after the vertices
`0, ..., m - 1`: `j` is the vertex before `m` on the ring and `inside` tells
whether the number of edges counted so far is odd. -/
theorem contains_fold_count (vs : List Point) (p : Point) (n : Nat) :
    ∀ m,
      ((List.range m).foldl
        (fun (st : Nat × Bool) (i : Nat) =>
          (i, if edgeCrosses (vs.getD i ⟨0, 0⟩) (vs.getD st.1 ⟨0, 0⟩) p then !st.2 else st.2))
        (n - 1, false))
      = (if m = 0 then n - 1 else m - 1,
          decide (Odd ((List.range m).countP
            (fun i => edgeCrosses (vs.getD i ⟨0, 0⟩)
              (vs.getD (if i = 0 then n - 1 else i - 1) ⟨0, 0⟩) p)))) := by
  intro m
  induction m with
  | zero => simp
  | succ k ih =>
    rw [List.range_succ, List.foldl_append, ih, List.countP_append]
    simp only [List.foldl_cons, List.foldl_nil, Nat.add_one_ne_zero, if_false,
      Nat.add_sub_cancel, List.countP_cons, List.countP_nil]
    congr 1
    generalize List.countP _ (List.range k) = c
    generalize edgeCrosses (vs.getD k ⟨0, 0⟩)
      (vs.getD (if k = 0 then n - 1 else k - 1) ⟨0, 0⟩) p = b
    cases b
    · simp
    · by_cases ho : Odd c
      · have h1 : ¬ Odd (c + 1) := by
          rw [Nat.odd_add_one]
          exact not_not.2 ho
        simp [ho, h1]
      · have h1 : Odd (c + 1) := by
          rw [Nat.odd_add_one]
          exact ho
        simp [ho, h1]

/-- C18, as amended. For every polygon with at least 3 vertices and every
point `p`, `Polygon::contains(p)` is true exactly when the number of
cyclically consecutive vertex pairs `(vi, vj)` that the edge test of the
code accepts, with its abscissa written from `vi` and rounded as the machine
computes it, is odd; where the division is evaluated the latitudes of the
two vertices differ, and for vertices that are doubles the divisor
`vj.lat - vi.lat` is not zero; for a polygon with fewer than 3 vertices
`contains(p)` is false. -/
theorem Polygon.contains_iff_odd (poly : Polygon) (p : Point) :
    (3 ≤ poly.vertices.length → (poly.contains p = true ↔ Odd (poly.crossings p))) ∧
    (poly.vertices.length < 3 → poly.contains p = false) ∧
    ∀ vi vj : Point, (decide (vi.lat > p.lat) != decide (vj.lat > p.lat)) = true →
      vi.lat ≠ vj.lat ∧
      (Binary64.nearest vi.lat = vi.lat → Binary64.nearest vj.lat = vj.lat →
        Binary64.sub vj.lat vi.lat ≠ 0) := by
  refine ⟨?_, ?_, ?_⟩
  · intro h3
    unfold Polygon.contains Polygon.crossings
    simp only
    rw [if_neg (by omega), contains_fold_count]
    simp only [decide_eq_true_eq]
  · intro h3
    unfold Polygon.contains
    simp only
    rw [if_pos h3]
  · intro vi vj h
    simp only [bne_iff_ne, ne_eq, decide_eq_decide] at h
    have hne : vi.lat ≠ vj.lat := by
      intro heq
      rw [heq] at h
      exact h Iff.rfl
    exact ⟨hne, fun hi hj => Binary64.sub_ne_zero_of_ne _ _ hj hi (Ne.symm hne)⟩

set_option maxRecDepth 100000 in
/-- C18 fails as stated. The vertices of `roundingRing` and the point
`roundingPoint` are doubles, and `contains` is true, while the number of
crossings that the formula of the claim counts is 2, whether the formula is
evaluated exactly or rounded as the machine would; the formula of the code
counts 1. On the edge from the first to the second vertex the code's
abscissa falls one unit in the last place left of the vertex and the test
of the code fails, where the formula of the claim yields the vertex itself. -/
theorem Polygon.contains_iff_odd_counterexample :
    (roundingRing.vertices.all (fun v =>
        decide (Binary64.nearest v.lon = v.lon) && decide (Binary64.nearest v.lat = v.lat))
      = true) ∧
    Binary64.nearest roundingPoint.lon = roundingPoint.lon ∧
    Binary64.nearest roundingPoint.lat = roundingPoint.lat ∧
    3 ≤ roundingRing.vertices.length ∧
    roundingRing.contains roundingPoint = true ∧
    crossingCount roundingRing roundingPoint = 2 ∧
    crossingCountRounded roundingRing roundingPoint = 2 ∧
    roundingRing.crossings roundingPoint = 1 ∧
    ¬ (roundingRing.contains roundingPoint = true ↔
      Odd (crossingCount roundingRing roundingPoint)) ∧
    edgeCrosses (roundingRing.vertices.getD 1 ⟨0, 0⟩) (roundingRing.vertices.getD 0 ⟨0, 0⟩)
      roundingPoint = false ∧
    specCrosses (roundingRing.vertices.getD 1 ⟨0, 0⟩) (roundingRing.vertices.getD 0 ⟨0, 0⟩)
      roundingPoint = true := by
  have hc : crossingCount roundingRing roundingPoint = 2 := by with_unfolding_all rfl
  have hin : roundingRing.contains roundingPoint = true := by with_unfolding_all rfl
  refine ⟨by decide!, by with_unfolding_all rfl, by with_unfolding_all rfl,
    by decide, hin, hc, by with_unfolding_all rfl, by with_unfolding_all rfl, ?_,
    by with_unfolding_all rfl, by with_unfolding_all rfl⟩
  rw [hc, hin]
  intro h
  have := h.1 rfl
  revert this
  decide

set_option maxRecDepth 100000 in
/-- C18 as amended, on the square of zone A and the point (0.05, 0.05),
which one edge crosses, and on `roundingRing`, whose first two latitudes
differ and give a divisor that is not zero. -/
theorem Polygon.contains_iff_odd_witness :
    (Polygon.contains ⟨[⟨0, 0⟩, ⟨1 / 10, 0⟩, ⟨1 / 10, 1 / 10⟩, ⟨0, 1 / 10⟩, ⟨0, 0⟩]⟩
        ⟨1 / 20, 1 / 20⟩ = true ↔
      Odd (Polygon.crossings ⟨[⟨0, 0⟩, ⟨1 / 10, 0⟩, ⟨1 / 10, 1 / 10⟩, ⟨0, 1 / 10⟩, ⟨0, 0⟩]⟩
        ⟨1 / 20, 1 / 20⟩)) ∧
    Polygon.crossings ⟨[⟨0, 0⟩, ⟨1 / 10, 0⟩, ⟨1 / 10, 1 / 10⟩, ⟨0, 1 / 10⟩, ⟨0, 0⟩]⟩
        ⟨1 / 20, 1 / 20⟩ = 1 ∧
    Binary64.sub (roundingRing.vertices.getD 0 ⟨0, 0⟩).lat
      (roundingRing.vertices.getD 1 ⟨0, 0⟩).lat ≠ 0 :=
  ⟨(Polygon.contains_iff_odd
      ⟨[⟨0, 0⟩, ⟨1 / 10, 0⟩, ⟨1 / 10, 1 / 10⟩, ⟨0, 1 / 10⟩, ⟨0, 0⟩]⟩ ⟨1 / 20, 1 / 20⟩).1
      (by decide),
    by with_unfolding_all rfl,
    ((Polygon.contains_iff_odd roundingRing roundingPoint).2.2
      (roundingRing.vertices.getD 1 ⟨0, 0⟩) (roundingRing.vertices.getD 0 ⟨0, 0⟩)
      (by with_unfolding_all rfl)).2 (by with_unfolding_all rfl) (by with_unfolding_all rfl)⟩

/-! ## The hash index file: writing and loading -/

theorem fromLE_toLE (w n : Nat) : fromLE (toLE w n) = n % 256 ^ w := by
  induction w generalizing n with
  | zero => simp [toLE, fromLE, Nat.mod_one]
  | succ k ih =>
    rw [toLE, fromLE, ih, pow_succ', Nat.mod_mul]

theorem toLE_length (w n : Nat) : (toLE w n).length = w := by
  induction w generalizing n with
  | zero => rfl
  | succ k ih => rw [toLE, List.length_cons, ih]

/-- A good stream that holds the `n` bytes `a` first gives exactly them and
stays good. -/
theorem IStream.read_append (a tail dest : List Nat) (n : Nat) (h : a.length = n) :
    IStream.read ⟨a ++ tail, true⟩ n dest = (⟨tail, true⟩, a) := by
  subst h
  unfold IStream.read
  simp

theorem bufferAt_flatten (f64 : List Nat → ℚ) (enc : ℚ → List Nat) (tail : List Nat) :
    ∀ (ds : List ℚ) (k : Nat), (∀ d ∈ ds, (enc d).length = 8 ∧ f64 (enc d) = d) →
      k < ds.length → bufferAt f64 ((ds.map enc).flatten ++ tail) k = ds.getD k 0 := by
  intro ds
  induction ds with
  | nil => intro k _ hk; simp at hk
  | cons d ds ih =>
    intro k h hk
    have hd := h d (List.mem_cons_self _ _)
    cases k with
    | zero =>
      unfold bufferAt
      simp only [List.map_cons, List.flatten_cons, Nat.mul_zero, List.drop_zero,
        List.append_assoc, List.getD_cons_zero]
      rw [← hd.1, List.take_left]
      exact hd.2
    | succ j =>
      have hrec := ih j (fun e he => h e (List.mem_cons_of_mem _ he))
        (by simpa using hk)
      unfold bufferAt at hrec ⊢
      simp only [List.map_cons, List.flatten_cons, List.append_assoc, List.getD_cons_succ]
      have h8 : 8 * (j + 1) = (enc d).length + 8 * j := by rw [hd.1]; ring
      rw [h8, List.drop_append]
      exact hrec

theorem toAggregate_of_length (ds : List ℚ) (h : ds.length = 10) :
    toAggregate ds =
      { min_max := [ds.getD 0 0, ds.getD 1 0],
        min_med_max := [ds.getD 2 0, ds.getD 3 0, ds.getD 4 0],
        percentiles := [ds.getD 5 0, ds.getD 6 0, ds.getD 7 0, ds.getD 8 0, ds.getD 9 0] } := by
  match ds, h with
  | [d0, d1, d2, d3, d4, d5, d6, d7, d8, d9], _ => rfl

theorem keyOfBytes_data (key : String) : keyOfBytes (key.data.map Char.toNat) = key := by
  unfold keyOfBytes
  rw [List.map_map]
  have : (Char.ofNat ∘ Char.toNat) = id := by
    funext c
    exact Char.ofNat_toNat c
  rw [this, List.map_id]

/-- One iteration of the loop on a stream that starts with a whole record. -/
theorem CoarseETA.loadEntries_step (f64 : List Nat → ℚ) (enc : ℚ → List Nat) (stack : Uninit)
    (entry : String × List ℚ) (tail : List Nat) (remaining i : Nat)
    (hash_table : List (String × AggregateValues))
    (hlen : entry.1.length < 2 ^ 32) (h10 : entry.2.length = 10)
    (hdoubles : ∀ d ∈ entry.2, (enc d).length = 8 ∧ f64 (enc d) = d) :
    loadEntries f64 stack (remaining + 1) i ⟨encodeEntry enc entry ++ tail, true⟩ hash_table
      = loadEntries f64 stack remaining (i + 1) ⟨tail, true⟩
          (mapSet hash_table entry.1 (toAggregate entry.2)) := by
  have h80 : ((entry.2.map enc).flatten).length = 80 := by
    have : ∀ ds : List ℚ, (∀ d ∈ ds, (enc d).length = 8) →
        ((ds.map enc).flatten).length = 8 * ds.length := by
      intro ds
      induction ds with
      | nil => intro _; rfl
      | cons d ds ih =>
        intro h
        simp only [List.map_cons, List.flatten_cons, List.length_append, List.length_cons]
        rw [ih (fun e he => h e (List.mem_cons_of_mem _ he)), h d (List.mem_cons_self _ _)]
        ring
    rw [this _ (fun d hd => (hdoubles d hd).1), h10]
  have hkl : fromLE (toLE 4 entry.1.length) % 2 ^ 32 = entry.1.length := by
    rw [fromLE_toLE]
    have : (256 : Nat) ^ 4 = 2 ^ 32 := by norm_num
    rw [this, Nat.mod_mod, Nat.mod_eq_of_lt hlen]
  have hkb : (entry.1.data.map Char.toNat).length = entry.1.length := by
    rw [List.length_map]
    rfl
  rw [loadEntries]
  simp only [encodeEntry, List.append_assoc]
  rw [IStream.read_append _ _ _ 4 (toLE_length 4 _)]
  simp only [hkl]
  rw [IStream.read_append _ _ _ _ hkb]
  simp only
  rw [IStream.read_append _ _ _ 80 h80]
  simp only [keyOfBytes_data]
  have hb : ∀ k, k < 10 → bufferAt f64 (entry.2.map enc).flatten k = entry.2.getD k 0 := by
    intro k hk
    have := bufferAt_flatten f64 enc [] entry.2 k hdoubles (by omega)
    rwa [List.append_nil] at this
  rw [hb 0 (by norm_num), hb 1 (by norm_num), hb 2 (by norm_num), hb 3 (by norm_num),
    hb 4 (by norm_num), hb 5 (by norm_num), hb 6 (by norm_num), hb 7 (by norm_num),
    hb 8 (by norm_num), hb 9 (by norm_num), ← toAggregate_of_length _ h10]

/-- The loop on a stream that holds whole records stores them one after the
other. -/
theorem CoarseETA.loadEntries_records (f64 : List Nat → ℚ) (enc : ℚ → List Nat) (stack : Uninit)
    (tail : List Nat) :
    ∀ (entries : List (String × List ℚ)) (i : Nat) (hash_table : List (String × AggregateValues)),
      (∀ e ∈ entries, e.1.length < 2 ^ 32 ∧ e.2.length = 10 ∧
        ∀ d ∈ e.2, (enc d).length = 8 ∧ f64 (enc d) = d) →
      loadEntries f64 stack entries.length i
          ⟨(entries.map (encodeEntry enc)).flatten ++ tail, true⟩ hash_table
        = entries.foldl (fun t e => mapSet t e.1 (toAggregate e.2)) hash_table := by
  intro entries
  induction entries with
  | nil => intro i t _; rfl
  | cons e es ih =>
    intro i t h
    obtain ⟨h1, h2, h3⟩ := h e (List.mem_cons_self _ _)
    simp only [List.map_cons, List.flatten_cons, List.length_cons, List.append_assoc,
      List.foldl_cons]
    rw [CoarseETA.loadEntries_step f64 enc stack e _ _ i t h1 h2 h3]
    exact ih (i + 1) _ (fun e1 he1 => h e1 (List.mem_cons_of_mem _ he1))

theorem lookup_mapSet {β : Type} (m : List (String × β)) (key k : String) (v : β) :
    (mapSet m k v).lookup key = if key = k then some v else m.lookup key := by
  unfold mapSet
  by_cases h : key = k
  · subst h
    simp [List.lookup]
  · rw [if_neg h, List.lookup_cons]
    have hb : (key == k) = false := by simpa using h
    rw [hb]
    simp only
    induction m with
    | nil => rfl
    | cons e m ih =>
      by_cases he : e.1 = k
      · have hk : (key == e.1) = false := by rw [he]; exact hb
        rw [List.filter_cons_of_neg (by simp [he]), ih]
        obtain ⟨a, b⟩ := e
        rw [List.lookup_cons]
        simp only at hk
        rw [hk]
      · rw [List.filter_cons_of_pos (by simp [he])]
        obtain ⟨a, b⟩ := e
        rw [List.lookup_cons, List.lookup_cons, ih]

theorem lookup_foldl_mapSet (key : String) :
    ∀ (entries : List (String × List ℚ)) (hash_table : List (String × AggregateValues)),
      (entries.map Prod.fst).Nodup →
      (entries.foldl (fun t e => mapSet t e.1 (toAggregate e.2)) hash_table).lookup key
        = match entries.lookup key with
          | some ds => some (toAggregate ds)
          | none => hash_table.lookup key := by
  intro entries
  induction entries with
  | nil => intro t _; rfl
  | cons e es ih =>
    intro t hnd
    rw [List.map_cons, List.nodup_cons] at hnd
    obtain ⟨a, ds⟩ := e
    rw [List.foldl_cons, ih _ hnd.2, List.lookup_cons, lookup_mapSet]
    by_cases h : key = a
    · subst h
      have hnone : es.lookup key = none := by
        rw [List.lookup_eq_none_iff]
        intro p hp
        rw [bne_iff_ne]
        intro hk
        apply hnd.1
        rw [show (key, ds).1 = p.1 from hk]
        exact List.mem_map_of_mem _ hp
      simp [hnone]
    · have hb : (key == a) = false := by simpa using h
      simp only [hb, if_neg h]

theorem lookup_of_mem_nodup {β : Type} (key : String) (v : β) :
    ∀ (entries : List (String × β)), (entries.map Prod.fst).Nodup → (key, v) ∈ entries →
      entries.lookup key = some v := by
  intro entries
  induction entries with
  | nil => intro _ h; simp at h
  | cons e es ih =>
    intro hnd hmem
    rw [List.map_cons, List.nodup_cons] at hnd
    obtain ⟨a, b⟩ := e
    rw [List.lookup_cons]
    rcases List.mem_cons.1 hmem with h | h
    · have ha : key = a := congrArg Prod.fst h
      have hb : v = b := congrArg Prod.snd h
      subst ha hb
      simp
    · have hne : ¬ key = a := by
        intro hka
        apply hnd.1
        exact List.mem_map.2 ⟨(key, v), h, hka⟩
      have hb : (key == a) = false := by simpa using hne
      rw [hb]
      exact ih hnd.2 h

theorem sample_round_trip (n : Nat) (h : n < 2 ^ 64) :
    (sampleEnc (n : ℚ)).length = 8 ∧ sampleF64 (sampleEnc (n : ℚ)) = (n : ℚ) := by
  unfold sampleF64 sampleEnc
  refine ⟨toLE_length 8 _, ?_⟩
  rw [Rat.num_natCast, Int.toNat_ofNat, fromLE_toLE]
  have h256 : (256 : Nat) ^ 8 = 2 ^ 64 := by norm_num
  rw [h256, Nat.mod_eq_of_lt h]

namespace CoarseETA

/-- C12. Hash index round trip: for every list of entries (key, 10 doubles)
with pairwise distinct keys, fewer than 2^64 of them and each key shorter
than 2^32 bytes, written as the little-endian u64 number of entries followed
for each entry by the u32 length of the key, the bytes of the key and the 80
bytes of the doubles, `setup_hash_table` yields a mapping with exactly those
keys, each key mapping to min_max = doubles 0..1, min_med_max = doubles 2..4
and percentiles = doubles 5..9; this for every way `enc` of writing a double
as 8 bytes that the reading `f64` of the machine inverts, and whatever the
uninitialised locals hold. -/
theorem setup_hash_table_round_trip (f64 : List Nat → ℚ) (enc : ℚ → List Nat) (stack : Uninit)
    (entries : List (String × List ℚ))
    (hcount : entries.length < 2 ^ 64)
    (hentries : ∀ e ∈ entries, e.1.length < 2 ^ 32 ∧ e.2.length = 10 ∧
      ∀ d ∈ e.2, (enc d).length = 8 ∧ f64 (enc d) = d)
    (hdistinct : (entries.map Prod.fst).Nodup) :
    (∀ key, (setup_hash_table f64 stack (some (encodeIndex enc entries)) []).lookup key
      = (entries.lookup key).map toAggregate) ∧
    (∀ key ds, (key, ds) ∈ entries →
      mapAt (setup_hash_table f64 stack (some (encodeIndex enc entries)) []) key
        = .ok { min_max := ds.take 2, min_med_max := (ds.drop 2).take 3,
                percentiles := (ds.drop 5).take 5 }) ∧
    (∀ key, key ∉ entries.map Prod.fst →
      (setup_hash_table f64 stack (some (encodeIndex enc entries)) []).lookup key = none) := by
  have hload : setup_hash_table f64 stack (some (encodeIndex enc entries)) []
      = entries.foldl (fun t e => mapSet t e.1 (toAggregate e.2)) [] := by
    unfold setup_hash_table encodeIndex IStream.open
    simp only
    rw [IStream.read_append _ _ _ 8 (toLE_length 8 _)]
    simp only
    rw [fromLE_toLE]
    have h256 : (256 : Nat) ^ 8 = 2 ^ 64 := by norm_num
    rw [h256, Nat.mod_mod, Nat.mod_eq_of_lt hcount]
    have := loadEntries_records f64 enc stack [] entries 0 [] hentries
    rwa [List.append_nil] at this
  have hlookup : ∀ key, (setup_hash_table f64 stack (some (encodeIndex enc entries)) []).lookup key
      = (entries.lookup key).map toAggregate := by
    intro key
    rw [hload, lookup_foldl_mapSet key entries [] hdistinct]
    cases entries.lookup key <;> rfl
  refine ⟨hlookup, ?_, ?_⟩
  · intro key ds hmem
    unfold mapAt
    rw [hlookup, lookup_of_mem_nodup key ds entries hdistinct hmem]
    rfl
  · intro key hkey
    rw [hlookup]
    have : entries.lookup key = none := by
      rw [List.lookup_eq_none_iff]
      intro p hp
      rw [bne_iff_ne]
      intro hk
      apply hkey
      rw [hk]
      exact List.mem_map_of_mem _ hp
    rw [this]
    rfl

/-- C12 on a file of two entries, with whole numbers as doubles. -/
theorem setup_hash_table_round_trip_witness :
    mapAt (setup_hash_table sampleF64 zeroStack
        (some (encodeIndex sampleEnc
          [("A,B,4,4,0", [50, 800, 50, 200, 800, 50, 100, 200, 400, 800]),
           ("B,A,4,4,0", [60, 700, 60, 300, 700, 60, 150, 300, 500, 700])])) []) "B,A,4,4,0"
      = .ok { min_max := [60, 700], min_med_max := [60, 300, 700],
              percentiles := [60, 150, 300, 500, 700] } :=
  (setup_hash_table_round_trip sampleF64 sampleEnc zeroStack
    [("A,B,4,4,0", [50, 800, 50, 200, 800, 50, 100, 200, 400, 800]),
     ("B,A,4,4,0", [60, 700, 60, 300, 700, 60, 150, 300, 500, 700])]
    (by norm_num)
    (by
      intro e he
      simp only [List.mem_cons, List.mem_singleton, List.not_mem_nil, or_false] at he
      rcases he with rfl | rfl
      · refine ⟨by decide, by decide, ?_⟩
        intro d hd
        simp only [List.mem_cons, List.mem_singleton, List.not_mem_nil, or_false] at hd
        rcases hd with rfl | rfl | rfl | rfl | rfl | rfl | rfl | rfl | rfl | rfl <;>
          exact_mod_cast sample_round_trip _ (by norm_num)
      · refine ⟨by decide, by decide, ?_⟩
        intro d hd
        simp only [List.mem_cons, List.mem_singleton, List.not_mem_nil, or_false] at hd
        rcases hd with rfl | rfl | rfl | rfl | rfl | rfl | rfl | rfl | rfl | rfl <;>
          exact_mod_cast sample_round_trip _ (by norm_num))
    (by decide)).2.1 "B,A,4,4,0" [60, 700, 60, 300, 700, 60, 150, 300, 500, 700]
    (by simp)

/-- C13 fails. A hash index file that announces one entry and ends there is
loaded without any failure: the three reads of the record store nothing,
and the mapping gets one entry made of what the uninitialised `key_len` and
`buffer` hold; a file that cannot be opened or is empty is loaded as the
empty mapping when the uninitialised `num_entries` holds zero. -/
theorem setup_hash_table_short_read (f64 : List Nat → ℚ) (stack : Uninit) :
    setup_hash_table f64 stack (some [1, 0, 0, 0, 0, 0, 0, 0]) []
      = [(keyOfBytes (List.replicate (fromLE ((stack.key_len 0).take 4) % 2 ^ 32) 0),
          { min_max := [bufferAt f64 ((stack.buffer 0).take 80) 0,
              bufferAt f64 ((stack.buffer 0).take 80) 1],
            min_med_max := [bufferAt f64 ((stack.buffer 0).take 80) 2,
              bufferAt f64 ((stack.buffer 0).take 80) 3,
              bufferAt f64 ((stack.buffer 0).take 80) 4],
            percentiles := [bufferAt f64 ((stack.buffer 0).take 80) 5,
              bufferAt f64 ((stack.buffer 0).take 80) 6,
              bufferAt f64 ((stack.buffer 0).take 80) 7,
              bufferAt f64 ((stack.buffer 0).take 80) 8,
              bufferAt f64 ((stack.buffer 0).take 80) 9] })] ∧
    setup_hash_table f64 zeroStack (some []) [] = [] ∧
    setup_hash_table f64 zeroStack none [] = [] := by
  refine ⟨?_, rfl, rfl⟩
  have h1 : fromLE [1, 0, 0, 0, 0, 0, 0, 0] % 2 ^ 64 = 1 := by decide
  unfold setup_hash_table IStream.open
  simp only
  have h8 := IStream.read_append [1, 0, 0, 0, 0, 0, 0, 0] [] stack.num_entries 8 rfl
  rw [List.append_nil] at h8
  rw [h8]
  simp only [h1]
  rw [loadEntries]
  simp [IStream.read, loadEntries, mapSet]

end CoarseETA

/-! ## What the parser stores -/

namespace WKTParser

theorem pointsEqual_self (p : Point) : pointsEqual p p = true := by
  unfold pointsEqual
  simp

/-- The ring that `closeRing` leaves is closed when it has 3 points or
more. -/
theorem closeRing_closed (vertices : List Point) :
    3 ≤ (closeRing vertices).length →
      pointsEqual ((closeRing vertices).getD 0 ⟨0, 0⟩)
        ((closeRing vertices).getD ((closeRing vertices).length - 1) ⟨0, 0⟩) = true := by
  unfold closeRing
  by_cases h3 : 3 ≤ vertices.length
  · rw [if_pos h3]
    by_cases heq : pointsEqual (vertices.getD 0 ⟨0, 0⟩)
        (vertices.getD (vertices.length - 1) ⟨0, 0⟩) = true
    · rw [heq]
      intro _
      exact heq
    · rw [Bool.not_eq_true] at heq
      rw [heq]
      intro _
      simp only [Bool.not_false, if_true, List.length_append, List.length_singleton,
        Nat.add_sub_cancel]
      have h0 : (vertices ++ [vertices.getD 0 ⟨0, 0⟩]).getD 0 ⟨0, 0⟩
          = vertices.getD 0 ⟨0, 0⟩ := by
        cases vertices with
        | nil => simp at h3
        | cons a as => rfl
      have hl : (vertices ++ [vertices.getD 0 ⟨0, 0⟩]).getD vertices.length ⟨0, 0⟩
          = vertices.getD 0 ⟨0, 0⟩ := by
        rw [List.getD_append_right _ _ _ _ (le_refl _)]
        simp
      rw [h0, hl]
      exact pointsEqual_self _
  · rw [if_neg h3]
    intro h
    exact absurd h h3

theorem closeRing_nil : closeRing [] = [] := rfl

/-- Every polygon that `parseSinglePolygonString` returns is closed when it
has 3 vertices or more. -/
theorem parseSinglePolygonString_closed (readDouble : List Char → Option (ℚ × List Char))
    (poly_str : List Char) (polygon : Polygon)
    (h : parseSinglePolygonString readDouble poly_str = .ok polygon) :
    3 ≤ polygon.vertices.length →
      pointsEqual (polygon.vertices.getD 0 ⟨0, 0⟩)
        (polygon.vertices.getD (polygon.vertices.length - 1) ⟨0, 0⟩) = true := by
  have hform : polygon = ⟨[]⟩ ∨ ∃ vs, polygon = ⟨closeRing vs⟩ := by
    unfold parseSinglePolygonString at h
    split at h
    · split at h
      · left
        injection h with h
        exact h.symm
      · split at h
        · cases h
        · split at h
          · right
            injection h with h
            exact ⟨[], h.symm⟩
          · split at h
            · cases h
            · split at h
              · cases h
              · split at h
                · cases h
                · right
                  injection h with h
                  exact ⟨_, h.symm⟩
    · left
      injection h with h
      exact h.symm
  rcases hform with rfl | ⟨vs, rfl⟩
  · intro h3
    simp at h3
  · exact closeRing_closed vs

/-- The loop of `parseMultiPolygon` adds only polygons in the stored
state. -/
theorem polygonsLoop_stored (readDouble : List Char → Option (ℚ × List Char))
    (polygons_str : List Char) :
    ∀ (fuel pos : Nat) (polygons out : List Polygon),
      (∀ poly ∈ polygons, poly.Stored) →
      polygonsLoop readDouble polygons_str fuel pos polygons = .ok out →
      ∀ poly ∈ out, poly.Stored := by
  intro fuel
  induction fuel with
  | zero =>
    intro pos polygons out hin h
    unfold polygonsLoop at h
    split at h
    · cases h
    · injection h with h
      subst h
      exact hin
  | succ fuel ih =>
    intro pos polygons out hin h
    unfold polygonsLoop at h
    split at h
    · split at h
      · injection h with h
        subst h
        exact hin
      · split at h
        · injection h with h
          subst h
          exact hin
        · split at h
          · cases h
          · split at h
            · cases h
            · rename_i polygon hparse
              refine ih _ _ out ?_ h
              by_cases hempty : polygon.vertices.isEmpty = true
              · simp only [hempty, Bool.not_true]
                exact hin
              · rw [Bool.not_eq_true] at hempty
                simp only [hempty, Bool.not_false, if_true]
                intro poly hmem
                rcases List.mem_append.1 hmem with hm | hm
                · exact hin poly hm
                · rw [List.mem_singleton] at hm
                  subst hm
                  refine ⟨?_, parseSinglePolygonString_closed readDouble _ _ hparse⟩
                  intro hnil
                  rw [hnil] at hempty
                  simp at hempty
    · injection h with h
      subst h
      exact hin

theorem parseMultiPolygon_stored (readDouble : List Char → Option (ℚ × List Char))
    (wkt : List Char) (zone zone1 : Zone) (ok : Bool)
    (hin : ∀ poly ∈ zone.polygons, poly.Stored)
    (h : parseMultiPolygon readDouble wkt zone = .ok (ok, zone1)) :
    ∀ poly ∈ zone1.polygons, poly.Stored := by
  unfold parseMultiPolygon at h
  split at h
  · injection h with h
    injection h with _ h
    subst h
    exact hin
  · simp only at h
    split at h
    · cases h
    · split at h
      · cases h
      · rename_i polygons hloop
        injection h with h
        injection h with _ h
        subst h
        exact polygonsLoop_stored readDouble _ _ _ _ _ hin hloop

theorem parsePolygon_stored (readDouble : List Char → Option (ℚ × List Char))
    (wkt : List Char) (zone zone1 : Zone) (ok : Bool)
    (hin : ∀ poly ∈ zone.polygons, poly.Stored)
    (h : parsePolygon readDouble wkt zone = .ok (ok, zone1)) :
    ∀ poly ∈ zone1.polygons, poly.Stored := by
  unfold parsePolygon at h
  split at h
  · injection h with h
    injection h with _ h
    subst h
    exact hin
  · simp only at h
    split at h
    · cases h
    · split at h
      · cases h
      · rename_i polygon hparse
        split at h
        · rename_i hne
          injection h with h
          injection h with _ h
          subst h
          intro poly hmem
          rcases List.mem_append.1 hmem with hm | hm
          · exact hin poly hm
          · rw [List.mem_singleton] at hm
            subst hm
            refine ⟨?_, parseSinglePolygonString_closed readDouble _ _ hparse⟩
            intro hnil
            rw [hnil] at hne
            simp at hne
        · injection h with h
          injection h with _ h
          subst h
          exact hin

/-- C19, amended. Every polygon that the zone loader stores in a zone, from
any POLYGON or MULTIPOLYGON text that `parseWKTGeometry` accepts, has at
least 1 vertex, and if it has at least 3 vertices it is a closed ring: its
first and last vertices are equal within epsilon = 1e-9 on both
coordinates. -/
theorem parseWKTGeometry_stored (readDouble : List Char → Option (ℚ × List Char))
    (wkt : List Char) (id : String) (zone : Zone)
    (h : parseWKTGeometry readDouble wkt (freshZone id) = .ok (true, zone)) :
    ∀ poly ∈ zone.polygons,
      1 ≤ poly.vertices.length ∧
      (3 ≤ poly.vertices.length →
        pointsEqual (poly.vertices.getD 0 ⟨0, 0⟩)
          (poly.vertices.getD (poly.vertices.length - 1) ⟨0, 0⟩) = true) := by
  have hfresh : ∀ poly ∈ (freshZone id).polygons, poly.Stored := by
    intro poly hmem
    simp [freshZone] at hmem
  have hstored : ∀ poly ∈ zone.polygons, poly.Stored := by
    unfold parseWKTGeometry at h
    simp only at h
    split at h
    · exact parseMultiPolygon_stored readDouble wkt _ _ _ hfresh h
    · split at h
      · exact parsePolygon_stored readDouble wkt _ _ _ hfresh h
      · injection h with h
        injection h with h _
        cases h
  intro poly hmem
  obtain ⟨h1, h2⟩ := hstored poly hmem
  exact ⟨List.length_pos.2 h1, h2⟩

set_option maxRecDepth 1000000 in
/-- C19 as stated fails: the text `POLYGON ((0 0, 1 1))` is accepted and the
zone gets a polygon of 2 vertices, which are not equal within epsilon. -/
theorem parseWKTGeometry_stored_counterexample :
    parseWKTGeometry readDecimal "POLYGON ((0 0, 1 1))".data (freshZone "Z")
      = .ok (true, { freshZone "Z" with polygons := [⟨[⟨0, 0⟩, ⟨1, 1⟩]⟩] }) ∧
    ¬ (3 ≤ (Polygon.mk [⟨0, 0⟩, ⟨1, 1⟩]).vertices.length) ∧
    pointsEqual ⟨0, 0⟩ ⟨1, 1⟩ = false :=
  ⟨by with_unfolding_all rfl, by decide, by with_unfolding_all rfl⟩

set_option maxRecDepth 1000000 in
/-- C19, amended, on an open triangle, which is stored with its first point
once more. -/
theorem parseWKTGeometry_stored_witness :
    parseWKTGeometry readDecimal "POLYGON ((0 0, 4 0, 4 4))".data (freshZone "Z")
      = .ok (true, { freshZone "Z" with
          polygons := [⟨[⟨0, 0⟩, ⟨4, 0⟩, ⟨4, 4⟩, ⟨0, 0⟩]⟩] }) ∧
    ∀ poly ∈ [Polygon.mk [⟨0, 0⟩, ⟨4, 0⟩, ⟨4, 4⟩, ⟨0, 0⟩]],
      1 ≤ poly.vertices.length ∧
      (3 ≤ poly.vertices.length →
        pointsEqual (poly.vertices.getD 0 ⟨0, 0⟩)
          (poly.vertices.getD (poly.vertices.length - 1) ⟨0, 0⟩) = true) :=
  ⟨by with_unfolding_all rfl,
    parseWKTGeometry_stored readDecimal "POLYGON ((0 0, 4 0, 4 4))".data "Z"
      { freshZone "Z" with polygons := [⟨[⟨0, 0⟩, ⟨4, 0⟩, ⟨4, 4⟩, ⟨0, 0⟩]⟩] }
      (by with_unfolding_all rfl)⟩

set_option maxRecDepth 1000000 in
/-- C11 fails. The text of two groups `MULTIPOLYGON (((0 0, 4 0, 4 4, 0 0)),
((10 10, 14 10, 14 14, 10 10)))` gives a zone with one polygon, not two: the
first group loses its first point, and the second group gives no polygon;
`parsePolygon` reads the ring of the first group as it is written. -/
theorem parseMultiPolygon_two_groups :
    parseMultiPolygon readDecimal twoSquares (freshZone "Z")
      = .ok (true, { freshZone "Z" with
          polygons := [⟨[⟨4, 0⟩, ⟨4, 4⟩, ⟨0, 0⟩, ⟨4, 0⟩]⟩] }) ∧
    parseMultiPolygon readDecimal "MULTIPOLYGON (((0 0, 4 0, 4 4, 0 0)))".data (freshZone "Z")
      = .ok (true, { freshZone "Z" with
          polygons := [⟨[⟨4, 0⟩, ⟨4, 4⟩, ⟨0, 0⟩, ⟨4, 0⟩]⟩] }) ∧
    parsePolygon readDecimal "POLYGON ((0 0, 4 0, 4 4, 0 0))".data (freshZone "Z")
      = .ok (true, { freshZone "Z" with
          polygons := [⟨[⟨0, 0⟩, ⟨4, 0⟩, ⟨4, 4⟩, ⟨0, 0⟩]⟩] }) :=
  ⟨by with_unfolding_all rfl, by with_unfolding_all rfl, by with_unfolding_all rfl⟩

end WKTParser

/-! ## The loop of `parseMultiPolygon` ends within its fuel -/

theorem Str.find_bounds (s pat : List Char) (pos i : Nat) (h : Str.find s pat pos = some i) :
    pos ≤ i ∧ i ≤ s.length := by
  unfold Str.find at h
  have hmem := List.mem_of_find?_eq_some h
  rw [List.mem_map] at hmem
  obtain ⟨k, hk, rfl⟩ := hmem
  rw [List.mem_range] at hk
  omega

theorem Str.substr_no_fuel (s : List Char) (pos len : Nat) :
    Str.substr s pos len ≠ .error .fuel := by
  unfold Str.substr
  split
  · intro h
    injection h with h
    cases h
  · intro h
    cases h

namespace WKTParser

theorem findMatchingParenFrom_bounds :
    ∀ (l : List Char) (i : Nat) (depth : Int) (r : Nat),
      findMatchingParenFrom l i depth = some r → i ≤ r ∧ r < i + l.length := by
  intro l
  induction l with
  | nil => intro i depth r h; cases h
  | cons c rest ih =>
    intro i depth r h
    unfold findMatchingParenFrom at h
    rw [List.length_cons]
    split at h
    · have := ih _ _ _ h
      omega
    · split at h
      · split at h
        · injection h with h
          omega
        · have := ih _ _ _ h
          omega
      · have := ih _ _ _ h
        omega

theorem findMatchingParen_bounds (str : List Char) (start_pos r : Nat)
    (h : findMatchingParen str start_pos = some r) : start_pos ≤ r ∧ r < str.length := by
  unfold findMatchingParen at h
  have hb := findMatchingParenFrom_bounds _ _ _ _ h
  rw [List.length_drop] at hb
  omega

theorem trim_no_fuel (str : List Char) : trim str ≠ .error .fuel := by
  unfold trim
  split
  · intro h
    cases h
  · split
    · exact Str.substr_no_fuel _ _ _
    · exact Str.substr_no_fuel _ _ _

theorem ringPoints_no_fuel (readDouble : List Char → Option (ℚ × List Char)) :
    ∀ (pieces : List (List Char)) (vertices : List Point),
      ringPoints readDouble pieces vertices ≠ .error .fuel := by
  intro pieces
  induction pieces with
  | nil =>
    intro vertices h
    cases h
  | cons point_str rest ih =>
    intro vertices h
    unfold ringPoints at h
    split at h
    · rename_i e he
      injection h with h
      rw [h] at he
      exact trim_no_fuel _ he
    · split at h
      · exact ih _ h
      · split at h
        · exact ih _ h
        · exact ih _ h

theorem parseSinglePolygonString_no_fuel (readDouble : List Char → Option (ℚ × List Char))
    (poly_str : List Char) : parseSinglePolygonString readDouble poly_str ≠ .error .fuel := by
  intro h
  unfold parseSinglePolygonString at h
  split at h
  · split at h
    · cases h
    · split at h
      · rename_i e he
        injection h with h
        rw [h] at he
        exact Str.substr_no_fuel _ _ _ he
      · split at h
        · cases h
        · split at h
          · rename_i e he
            injection h with h
            rw [h] at he
            exact Str.substr_no_fuel _ _ _ he
          · split at h
            · rename_i e he
              injection h with h
              rw [h] at he
              split at he
              · exact Str.substr_no_fuel _ _ _ he
              · cases he
            · split at h
              · rename_i e he
                injection h with h
                rw [h] at he
                exact ringPoints_no_fuel readDouble _ _ he
              · cases h
  · cases h

/-- The loop of `parseMultiPolygon` does not run out of fuel when the fuel
covers the text from `pos` on; `parseMultiPolygon` gives it the length of
the text, from position 0. -/
theorem polygonsLoop_no_fuel (readDouble : List Char → Option (ℚ × List Char))
    (polygons_str : List Char) (hsize : polygons_str.length + 1 < 2 ^ 64) :
    ∀ (fuel pos : Nat) (polygons : List Polygon),
      polygons_str.length ≤ pos + fuel →
      polygonsLoop readDouble polygons_str fuel pos polygons ≠ .error .fuel := by
  intro fuel
  induction fuel with
  | zero =>
    intro pos polygons hfuel h
    unfold polygonsLoop at h
    split at h
    · omega
    · cases h
  | succ fuel ih =>
    intro pos polygons hfuel h
    unfold polygonsLoop at h
    split at h
    · split at h
      · cases h
      · rename_i poly_start hfind
        have hps := Str.find_bounds _ _ _ _ hfind
        have hadd : Str.sizeAdd poly_start 1 = poly_start + 1 := by
          unfold Str.sizeAdd
          exact Nat.mod_eq_of_lt (by omega)
        split at h
        · cases h
        · rename_i poly_end hparen
          rw [hadd] at hparen
          have hpe := findMatchingParen_bounds _ _ _ hparen
          have hadd1 : Str.sizeAdd poly_end 1 = poly_end + 1 := by
            unfold Str.sizeAdd
            exact Nat.mod_eq_of_lt (by omega)
          split at h
          · rename_i e he
            injection h with h
            rw [h] at he
            exact Str.substr_no_fuel _ _ _ he
          · split at h
            · rename_i e he
              injection h with h
              rw [h] at he
              exact parseSinglePolygonString_no_fuel readDouble _ he
            · rw [hadd1] at h
              exact ih _ _ (by omega) h
    · cases h

end WKTParser

/-! ## A run with both interpolations -/

namespace CoarseETA

set_option maxRecDepth 100000 in
/-- C21. With the aggregate type `min_med_max`, `y = [50, 300, 900]`, the ETA
table `[10, 20, 30, 40, 50]` and `os_eta = 35`: `binarySearchETA` returns
`record_eta1 = 2`, `record_eta2 = 3` (with the ETAs 30 and 40), the rank is
2.5, the rank in percent is 62.5, `FindStat` brackets it with the ranks 50
and 100 (values 300 and 900), the final ETA is 450, and `ETARequest`
returns it. -/
theorem ETARequest_scenario :
    binarySearchETA "eta" (sampleWorld [10, 20, 30, 40, 50] (.ok 35) (some sampleTm)).files
        "A" "B" 35 = .ok ⟨2, 30, 3, 40, 5⟩ ∧
    rankOf ⟨2, 30, 3, 40, 5⟩ 35 = 5 / 2 ∧
    rankPercent ⟨2, 30, 3, 40, 5⟩ (5 / 2) = 125 / 2 ∧
    mapAt aggregate_ranks "min_med_max" = .ok [0, 50, 100] ∧
    FindStat [0, 50, 100] [50, 300, 900] (125 / 2) = .ok ⟨50, 300, 100, 900⟩ ∧
    finalEta ⟨50, 300, 100, 900⟩ (125 / 2) = 450 ∧
    ETARequest medianETA (sampleWorld [10, 20, 30, 40, 50] (.ok 35) (some sampleTm)) sampleQuery
      = some 450 :=
  ⟨by with_unfolding_all rfl, by decide!, by decide!, by with_unfolding_all rfl,
    by with_unfolding_all rfl, by decide!, by decide!⟩

end CoarseETA

/-! ## Weekday, day type and rounded hour -/

namespace CoarseETA

/-- After a successful parse, the day type `timeZoning` stores. -/
theorem timeZoning_daytype_eq (get_time : String → Option Tm) (indeterminate : TimeZone)
    (s : String) (tm : Tm) (hparse : get_time s = some tm) :
    (timeZoning get_time indeterminate s).daytype
      = if Int.tmod (tm.tm_wday + 6) 7 ≥ 5 then "weekend" else "weekday" := by
  unfold timeZoning
  simp only [hparse]
  split <;> rfl

/-- C22. For every timestamp that parses with a Sunday-based weekday `wday`
in 0..6, an hour in 0..23 and a minute in 0..59, `timeZoning` sets
`day_of_week = (wday + 6) mod 7`, `daytype` to "weekend" exactly when
`day_of_week ≥ 5` and to "weekday" otherwise, and `adjusted_hour` to
`(hour + 1) mod 24` when `minute > 30` and to `hour` otherwise; the hour
range stored is a range of the table that holds the rounded hour. -/
theorem timeZoning_weekday_hour (get_time : String → Option Tm) (indeterminate : TimeZone)
    (s : String) (tm : Tm) (hparse : get_time s = some tm)
    (hwday : 0 ≤ tm.tm_wday ∧ tm.tm_wday ≤ 6)
    (hhour : 0 ≤ tm.tm_hour ∧ tm.tm_hour ≤ 23)
    (_hmin : 0 ≤ tm.tm_min ∧ tm.tm_min ≤ 59) :
    (timeZoning get_time indeterminate s).day_of_week = (tm.tm_wday + 6) % 7 ∧
    (5 ≤ (timeZoning get_time indeterminate s).day_of_week →
      (timeZoning get_time indeterminate s).daytype = "weekend") ∧
    ((timeZoning get_time indeterminate s).day_of_week < 5 →
      (timeZoning get_time indeterminate s).daytype = "weekday") ∧
    ((timeZoning get_time indeterminate s).daytype = "weekend" →
      5 ≤ (timeZoning get_time indeterminate s).day_of_week) ∧
    (30 < tm.tm_min →
      (timeZoning get_time indeterminate s).adjusted_hour = (tm.tm_hour + 1) % 24) ∧
    (tm.tm_min ≤ 30 → (timeZoning get_time indeterminate s).adjusted_hour = tm.tm_hour) ∧
    ((timeZoning get_time indeterminate s).start_hour,
        (timeZoning get_time indeterminate s).end_hour) ∈ ranges ∧
    (timeZoning get_time indeterminate s).start_hour
      ≤ (timeZoning get_time indeterminate s).adjusted_hour ∧
    (timeZoning get_time indeterminate s).adjusted_hour
      ≤ (timeZoning get_time indeterminate s).end_hour := by
  obtain ⟨hd, ha⟩ := timeZoning_fields_eq get_time indeterminate s tm hparse
  have hdt := timeZoning_daytype_eq get_time indeterminate s tm hparse
  obtain ⟨hw0, hw1⟩ := hwday
  obtain ⟨hh0, hh1⟩ := hhour
  have hmod : Int.tmod (tm.tm_wday + 6) 7 = (tm.tm_wday + 6) % 7 :=
    Int.tmod_eq_emod (by omega) (by decide)
  have hadj : 0 ≤ Int.tmod (tm.tm_hour + (if tm.tm_min > 30 then 1 else 0)) 24 ∧
      Int.tmod (tm.tm_hour + (if tm.tm_min > 30 then 1 else 0)) 24 ≤ 23 := by
    split
    · rw [Int.tmod_eq_emod (by omega) (by decide)]; omega
    · rw [Int.tmod_eq_emod (by omega) (by decide)]; omega
  have hrange := timeZoning_range get_time indeterminate s tm hparse hadj.1 hadj.2
  rw [hd, hdt, ha, hmod]
  refine ⟨rfl, ?_, ?_, ?_, ?_, ?_, ?_⟩
  · intro h5
    rw [if_pos h5]
  · intro h5
    rw [if_neg (by omega)]
  · intro hwe
    by_contra hlt
    rw [if_neg hlt] at hwe
    exact absurd hwe (by decide)
  · intro hm
    rw [if_pos hm, Int.tmod_eq_emod (by omega) (by decide)]
  · intro hm
    rw [if_neg (by omega), Int.tmod_eq_emod (by omega) (by decide)]
    omega
  · rw [ha] at hrange
    exact hrange

set_option maxRecDepth 100000 in
/-- C22 at `2016-01-01 00:19:39`, a Friday: day of week 4, "weekday",
rounded hour 0, range (0, 6); at 23:31 the rounded hour is 0, and at 10:30
it stays 10. -/
theorem timeZoning_weekday_hour_witness :
    ((timeZoning (fun _ => some sampleTm) ⟨0, 0, "", 0, 0, 0⟩ "2016-01-01 00:19:39").day_of_week
        = (sampleTm.tm_wday + 6) % 7 ∧
      (5 ≤ (timeZoning (fun _ => some sampleTm) ⟨0, 0, "", 0, 0, 0⟩
          "2016-01-01 00:19:39").day_of_week →
        (timeZoning (fun _ => some sampleTm) ⟨0, 0, "", 0, 0, 0⟩ "2016-01-01 00:19:39").daytype
          = "weekend") ∧
      ((timeZoning (fun _ => some sampleTm) ⟨0, 0, "", 0, 0, 0⟩
          "2016-01-01 00:19:39").day_of_week < 5 →
        (timeZoning (fun _ => some sampleTm) ⟨0, 0, "", 0, 0, 0⟩ "2016-01-01 00:19:39").daytype
          = "weekday") ∧
      ((timeZoning (fun _ => some sampleTm) ⟨0, 0, "", 0, 0, 0⟩ "2016-01-01 00:19:39").daytype
          = "weekend" →
        5 ≤ (timeZoning (fun _ => some sampleTm) ⟨0, 0, "", 0, 0, 0⟩
          "2016-01-01 00:19:39").day_of_week) ∧
      (30 < sampleTm.tm_min →
        (timeZoning (fun _ => some sampleTm) ⟨0, 0, "", 0, 0, 0⟩
          "2016-01-01 00:19:39").adjusted_hour = (sampleTm.tm_hour + 1) % 24) ∧
      (sampleTm.tm_min ≤ 30 →
        (timeZoning (fun _ => some sampleTm) ⟨0, 0, "", 0, 0, 0⟩
          "2016-01-01 00:19:39").adjusted_hour = sampleTm.tm_hour) ∧
      ((timeZoning (fun _ => some sampleTm) ⟨0, 0, "", 0, 0, 0⟩ "2016-01-01 00:19:39").start_hour,
          (timeZoning (fun _ => some sampleTm) ⟨0, 0, "", 0, 0, 0⟩
            "2016-01-01 00:19:39").end_hour) ∈ ranges ∧
      (timeZoning (fun _ => some sampleTm) ⟨0, 0, "", 0, 0, 0⟩ "2016-01-01 00:19:39").start_hour
        ≤ (timeZoning (fun _ => some sampleTm) ⟨0, 0, "", 0, 0, 0⟩
          "2016-01-01 00:19:39").adjusted_hour ∧
      (timeZoning (fun _ => some sampleTm) ⟨0, 0, "", 0, 0, 0⟩ "2016-01-01 00:19:39").adjusted_hour
        ≤ (timeZoning (fun _ => some sampleTm) ⟨0, 0, "", 0, 0, 0⟩
          "2016-01-01 00:19:39").end_hour) ∧
    timeZoning (fun _ => some sampleTm) ⟨0, 0, "", 0, 0, 0⟩ "2016-01-01 00:19:39"
      = ⟨4, 4, "weekday", 0, 0, 6⟩ ∧
    (timeZoning (fun _ => some ⟨0, 5, 23, 31⟩) ⟨0, 0, "", 0, 0, 0⟩
      "2016-01-01 23:31:00").adjusted_hour = 0 ∧
    (timeZoning (fun _ => some ⟨0, 5, 10, 30⟩) ⟨0, 0, "", 0, 0, 0⟩
      "2016-01-01 10:30:00").adjusted_hour = 10 :=
  ⟨timeZoning_weekday_hour (fun _ => some sampleTm) ⟨0, 0, "", 0, 0, 0⟩ "2016-01-01 00:19:39"
      sampleTm rfl (by decide) (by decide) (by decide),
    by decide, by decide, by decide⟩

end CoarseETA

/-! ## The choice of the aggregate vector -/

namespace CoarseETA

/-- C25. `setAggregateTypeField(type)` succeeds exactly when `type` is one of
"percentiles", "min_med_max", "min_max"; it then selects the vector of that
name, records `aggregate_type = type` and changes nothing else; for every
other string it throws and leaves the object, with the selected field and
`aggregate_type`, as it was. -/
theorem setAggregateTypeField_spec (self : CoarseETA) (type : String) :
    ((setAggregateTypeField self type).1 = .ok () ↔
      (type = "percentiles" ∨ type = "min_med_max" ∨ type = "min_max")) ∧
    (type = "percentiles" →
      (setAggregateTypeField self type).2
        = { self with field := some .percentiles, aggregate_type := type }) ∧
    (type = "min_med_max" →
      (setAggregateTypeField self type).2
        = { self with field := some .min_med_max, aggregate_type := type }) ∧
    (type = "min_max" →
      (setAggregateTypeField self type).2
        = { self with field := some .min_max, aggregate_type := type }) ∧
    (∀ v : AggregateValues, v.select .percentiles = v.percentiles ∧
      v.select .min_med_max = v.min_med_max ∧ v.select .min_max = v.min_max) ∧
    (¬ (type = "percentiles" ∨ type = "min_med_max" ∨ type = "min_max") →
      (∃ what, (setAggregateTypeField self type).1 = .error (.exception what)) ∧
      (setAggregateTypeField self type).2 = self) := by
  unfold setAggregateTypeField
  refine ⟨?_, ?_, ?_, ?_, fun v => ⟨rfl, rfl, rfl⟩, ?_⟩
  · by_cases h1 : type = "percentiles"
    · simp [h1]
    · by_cases h2 : type = "min_med_max"
      · simp [h2]
      · by_cases h3 : type = "min_max"
        · simp [h3]
        · simp only [if_neg h1, if_neg h2, if_neg h3, h1, h2, h3, or_self, iff_false]
          intro h
          cases h
  · intro h
    rw [if_pos h]
  · intro h
    subst h
    rw [if_neg (by decide), if_pos rfl]
  · intro h
    subst h
    rw [if_neg (by decide), if_neg (by decide), if_pos rfl]
  · intro h
    have h1 : ¬ type = "percentiles" := fun e => h (Or.inl e)
    have h2 : ¬ type = "min_med_max" := fun e => h (Or.inr (Or.inl e))
    have h3 : ¬ type = "min_max" := fun e => h (Or.inr (Or.inr e))
    rw [if_neg h1, if_neg h2, if_neg h3]
    exact ⟨⟨_, rfl⟩, rfl⟩

/-- C25 on the small installation: "min_med_max" is accepted and selects
that vector; "median" is refused and the object stays as it was. -/
theorem setAggregateTypeField_spec_witness :
    (setAggregateTypeField sampleETA "min_med_max").1 = .ok () ∧
    (setAggregateTypeField sampleETA "min_med_max").2
      = { sampleETA with field := some .min_med_max, aggregate_type := "min_med_max" } ∧
    ((∃ what, (setAggregateTypeField sampleETA "median").1 = .error (.exception what)) ∧
      (setAggregateTypeField sampleETA "median").2 = sampleETA) :=
  ⟨(setAggregateTypeField_spec sampleETA "min_med_max").1.2 (Or.inr (Or.inl rfl)),
    (setAggregateTypeField_spec sampleETA "min_med_max").2.2.1 rfl,
    (setAggregateTypeField_spec sampleETA "median").2.2.2.2.2 (by decide)⟩

end CoarseETA

/-! ## The search of a table without records -/

namespace CoarseETA

/-- C26 fails. On a table without records `binarySearchETA` returns before
the unset markers are written: `total_records = 0` and the four neighbour
fields hold the zeros of the value-initialised result, so that the test
`record_eta2 != -1` of `ETARequest` succeeds. -/
theorem binarySearchETA_no_records (path z1 z2 : String) (os_eta : ℚ) :
    binarySearchETA path (fun _ => some []) z1 z2 os_eta = .ok ⟨0, 0, 0, 0, 0⟩ ∧
    (SearchResult.mk 0 0 0 0 0).record_eta2 ≠ -1 ∧
    (SearchResult.mk 0 0 0 0 0).record_eta1 ≠ -1 :=
  ⟨rfl, by decide, by decide⟩

end CoarseETA

/-! ## Bounding boxes as unions -/

theorem BBox.expand_eq (b : BBox) (p : Point) :
    b.expand p = { min_lon := min b.min_lon p.lon, max_lon := max b.max_lon p.lon,
                   min_lat := min b.min_lat p.lat, max_lat := max b.max_lat p.lat } := by
  unfold BBox.expand
  simp only
  have e1 : min b.min_lon p.lon = if p.lon < b.min_lon then p.lon else b.min_lon := by
    split_ifs with h
    · exact min_eq_right (le_of_lt h)
    · exact min_eq_left (not_lt.1 h)
  have e2 : max b.max_lon p.lon = if p.lon > b.max_lon then p.lon else b.max_lon := by
    split_ifs with h
    · exact max_eq_right (le_of_lt h)
    · exact max_eq_left (not_lt.1 h)
  have e3 : min b.min_lat p.lat = if p.lat < b.min_lat then p.lat else b.min_lat := by
    split_ifs with h
    · exact min_eq_right (le_of_lt h)
    · exact min_eq_left (not_lt.1 h)
  have e4 : max b.max_lat p.lat = if p.lat > b.max_lat then p.lat else b.max_lat := by
    split_ifs with h
    · exact max_eq_right (le_of_lt h)
    · exact max_eq_left (not_lt.1 h)
  rw [e1, e2, e3, e4]
  split_ifs <;> rfl

theorem BBox.union_expand (b c : BBox) (p : Point) :
    (b.union c).expand p = b.union (c.expand p) := by
  rw [BBox.expand_eq, BBox.expand_eq]
  unfold BBox.union
  simp only [min_assoc, max_assoc]

theorem BBox.fold_union (pts : List Point) :
    ∀ b c : BBox, pts.foldl (fun (b : BBox) p => b.expand p) (b.union c)
      = b.union (pts.foldl (fun (b : BBox) p => b.expand p) c) := by
  induction pts with
  | nil => intro b c; rfl
  | cons p rest ih =>
    intro b c
    rw [List.foldl_cons, List.foldl_cons, BBox.union_expand, ih]

/-- A box that reaches at least as far as the fresh box is its own union
with the fresh box. -/
theorem BBox.union_fresh (b : BBox) (h : BBox.Within {} b) : b.union {} = b := by
  obtain ⟨h1, h2, h3, h4⟩ := h
  unfold BBox.union
  simp only at h1 h2 h3 h4
  cases b
  simp only [BBox.mk.injEq]
  exact ⟨min_eq_left h1, max_eq_left h2, min_eq_left h3, max_eq_left h4⟩

/-- The double loop of `computeBBox`, started from a box that reaches at
least as far as the fresh box, is the union with the boxes of the polygons
one after the other. -/
theorem BBox.fold_polygons_union (polys : List Polygon) :
    ∀ b : BBox, BBox.Within {} b →
      polys.foldl
          (fun (b : BBox) poly => poly.vertices.foldl (fun (b : BBox) p => b.expand p) b) b
        = polys.foldl (fun (b : BBox) poly => b.union poly.bbox) b := by
  induction polys with
  | nil => intro b _; rfl
  | cons poly rest ih =>
    intro b hb
    rw [List.foldl_cons, List.foldl_cons]
    have hstep : poly.vertices.foldl (fun (b : BBox) p => b.expand p) b = b.union poly.bbox := by
      have := BBox.fold_union poly.vertices b {}
      rw [BBox.union_fresh b hb] at this
      exact this
    rw [hstep]
    apply ih
    rw [← hstep]
    exact BBox.within_trans hb (expand_fold poly.vertices b).1

/-- C24. For every non-empty sequence of points, expanding a freshly
initialised `BBox` (min_lon = 180, max_lon = -180, min_lat = 90,
max_lat = -90) by each point in turn yields a box with `min_lon ≤ max_lon`
and `min_lat ≤ max_lat` that contains every point of the sequence; and for a
zone, `computeBBox` yields the union of the bounding boxes of all its
polygons, and changes nothing else of the zone. -/
theorem BBox.expand_all (pts : List Point) (hne : pts ≠ []) (zone : Zone) :
    ({} : BBox) = ⟨180, -180, 90, -90⟩ ∧
    (pts.foldl (fun (b : BBox) p => b.expand p) {}).min_lon
      ≤ (pts.foldl (fun (b : BBox) p => b.expand p) {}).max_lon ∧
    (pts.foldl (fun (b : BBox) p => b.expand p) {}).min_lat
      ≤ (pts.foldl (fun (b : BBox) p => b.expand p) {}).max_lat ∧
    (∀ p ∈ pts, (pts.foldl (fun (b : BBox) p => b.expand p) {}).contains p = true) ∧
    (WKTParser.computeBBox zone).bbox
      = zone.polygons.foldl (fun (b : BBox) poly => b.union poly.bbox) {} ∧
    (WKTParser.computeBBox zone).id = zone.id ∧
    (WKTParser.computeBBox zone).polygons = zone.polygons := by
  obtain ⟨q, hq⟩ := List.exists_mem_of_ne_nil _ hne
  have hcov := (expand_fold pts {}).2
  obtain ⟨h1, h2, h3, h4⟩ := hcov q hq
  refine ⟨rfl, le_trans h1 h2, le_trans h3 h4, ?_, ?_, rfl, rfl⟩
  · intro p hp
    exact (BBox.contains_iff _ _).2 (hcov p hp)
  · exact BBox.fold_polygons_union zone.polygons {} ⟨le_refl _, le_refl _, le_refl _, le_refl _⟩

set_option maxRecDepth 100000 in
/-- C24 on the vertices of zone A and on a zone of two squares. -/
theorem BBox.expand_all_witness :
    ({} : BBox) = ⟨180, -180, 90, -90⟩ ∧
    (([⟨0, 0⟩, ⟨1 / 10, 0⟩, ⟨1 / 10, 1 / 10⟩] : List Point).foldl
        (fun (b : BBox) p => b.expand p) {}).min_lon
      ≤ (([⟨0, 0⟩, ⟨1 / 10, 0⟩, ⟨1 / 10, 1 / 10⟩] : List Point).foldl
        (fun (b : BBox) p => b.expand p) {}).max_lon ∧
    (([⟨0, 0⟩, ⟨1 / 10, 0⟩, ⟨1 / 10, 1 / 10⟩] : List Point).foldl
        (fun (b : BBox) p => b.expand p) {}).min_lat
      ≤ (([⟨0, 0⟩, ⟨1 / 10, 0⟩, ⟨1 / 10, 1 / 10⟩] : List Point).foldl
        (fun (b : BBox) p => b.expand p) {}).max_lat ∧
    (∀ p ∈ ([⟨0, 0⟩, ⟨1 / 10, 0⟩, ⟨1 / 10, 1 / 10⟩] : List Point),
      (([⟨0, 0⟩, ⟨1 / 10, 0⟩, ⟨1 / 10, 1 / 10⟩] : List Point).foldl
        (fun (b : BBox) p => b.expand p) {}).contains p = true) ∧
    (WKTParser.computeBBox ⟨"Z", [⟨[⟨0, 0⟩, ⟨1, 0⟩, ⟨1, 1⟩]⟩, ⟨[⟨5, 5⟩, ⟨6, 5⟩, ⟨6, 7⟩]⟩], {}⟩).bbox
      = (Zone.mk "Z" [⟨[⟨0, 0⟩, ⟨1, 0⟩, ⟨1, 1⟩]⟩, ⟨[⟨5, 5⟩, ⟨6, 5⟩, ⟨6, 7⟩]⟩] {}).polygons.foldl
          (fun (b : BBox) poly => b.union poly.bbox) {} ∧
    (WKTParser.computeBBox ⟨"Z", [⟨[⟨0, 0⟩, ⟨1, 0⟩, ⟨1, 1⟩]⟩, ⟨[⟨5, 5⟩, ⟨6, 5⟩, ⟨6, 7⟩]⟩], {}⟩).id
      = (Zone.mk "Z" [⟨[⟨0, 0⟩, ⟨1, 0⟩, ⟨1, 1⟩]⟩, ⟨[⟨5, 5⟩, ⟨6, 5⟩, ⟨6, 7⟩]⟩] {}).id ∧
    (WKTParser.computeBBox
        ⟨"Z", [⟨[⟨0, 0⟩, ⟨1, 0⟩, ⟨1, 1⟩]⟩, ⟨[⟨5, 5⟩, ⟨6, 5⟩, ⟨6, 7⟩]⟩], {}⟩).polygons
      = (Zone.mk "Z" [⟨[⟨0, 0⟩, ⟨1, 0⟩, ⟨1, 1⟩]⟩, ⟨[⟨5, 5⟩, ⟨6, 5⟩, ⟨6, 7⟩]⟩] {}).polygons :=
  BBox.expand_all [⟨0, 0⟩, ⟨1 / 10, 0⟩, ⟨1 / 10, 1 / 10⟩] (by simp)
    ⟨"Z", [⟨[⟨0, 0⟩, ⟨1, 0⟩, ⟨1, 1⟩]⟩, ⟨[⟨5, 5⟩, ⟨6, 5⟩, ⟨6, 7⟩]⟩], {}⟩

/-! ## The bounding box test before the ray cast -/

theorem Polygon.contains_three (poly : Polygon) (p : Point) (h : poly.contains p = true) :
    3 ≤ poly.vertices.length := by
  unfold Polygon.contains at h
  simp only at h
  by_contra hlt
  rw [if_pos (by omega)] at h
  cases h

/-- C30, as amended. For every zone whose bounding box was computed by
`computeBBox` and every point `p`: the bounding box holds every vertex of
every polygon of the zone; `containsPoint(p)` is true exactly when `p` lies
in the bounding box and some polygon of the zone ray-casts `p` as inside;
so for a point in the bounding box `containsPoint(p)` equals "some polygon
of the zone contains `p`". -/
theorem Zone.containsPoint_eq_any (zone : Zone) (p : Point) :
    (∀ poly ∈ (WKTParser.computeBBox zone).polygons, ∀ v ∈ poly.vertices,
      (WKTParser.computeBBox zone).bbox.contains v = true) ∧
    ((WKTParser.computeBBox zone).containsPoint p = true ↔
      (WKTParser.computeBBox zone).bbox.contains p = true ∧
        ∃ poly ∈ (WKTParser.computeBBox zone).polygons, poly.contains p = true) ∧
    ((WKTParser.computeBBox zone).bbox.contains p = true →
      (WKTParser.computeBBox zone).containsPoint p
        = (WKTParser.computeBBox zone).polygons.any (fun poly => poly.contains p)) := by
  refine ⟨?_, ?_, ?_⟩
  · intro poly hpoly v hv
    exact (BBox.contains_iff _ _).2 ((expand_fold_polygons zone.polygons {}).2 poly hpoly v hv)
  · unfold Zone.containsPoint
    by_cases hb : (WKTParser.computeBBox zone).bbox.contains p = true
    · rw [hb]
      simp only [Bool.not_true, Bool.false_eq_true, if_false, List.any_eq_true, true_and]
    · rw [Bool.not_eq_true] at hb
      rw [hb]
      simp
  · intro hb
    unfold Zone.containsPoint
    rw [hb]
    rfl

set_option maxRecDepth 100000 in
/-- C30 fails as stated. The bounding box of `roundingZone` is the one
`computeBBox` computes, its polygon ray-casts `roundingPoint` as inside, and
the point is not in the bounding box: `containsPoint` is false where "some
polygon of the zone contains the point" is true. -/
theorem Zone.containsPoint_eq_any_counterexample :
    WKTParser.computeBBox roundingZone = roundingZone ∧
    (∃ poly ∈ roundingZone.polygons, poly.contains roundingPoint = true) ∧
    roundingZone.bbox.contains roundingPoint = false ∧
    roundingZone.containsPoint roundingPoint = false ∧
    roundingZone.polygons.any (fun poly => poly.contains roundingPoint) = true :=
  ⟨by with_unfolding_all rfl,
    ⟨roundingRing, List.mem_cons_self _ _, by with_unfolding_all rfl⟩,
    by with_unfolding_all rfl, by with_unfolding_all rfl, by with_unfolding_all rfl⟩

set_option maxRecDepth 100000 in
/-- C30 as amended, on zone A of the small installation and the point
(0.05, 0.05), which lies in its bounding box and in its square. -/
theorem Zone.containsPoint_eq_any_witness :
    (WKTParser.computeBBox (sampleZones.getD 0 anonymousZone)).bbox.contains ⟨1 / 20, 1 / 20⟩
      = true ∧
    (WKTParser.computeBBox (sampleZones.getD 0 anonymousZone)).containsPoint ⟨1 / 20, 1 / 20⟩
      = (WKTParser.computeBBox (sampleZones.getD 0 anonymousZone)).polygons.any
          (fun poly => poly.contains ⟨1 / 20, 1 / 20⟩) ∧
    (WKTParser.computeBBox (sampleZones.getD 0 anonymousZone)).containsPoint ⟨1 / 20, 1 / 20⟩
      = true :=
  ⟨by with_unfolding_all rfl,
    (Zone.containsPoint_eq_any (sampleZones.getD 0 anonymousZone) ⟨1 / 20, 1 / 20⟩).2.2
      (by with_unfolding_all rfl),
    by with_unfolding_all rfl⟩

/-! ## The table search on a sorted table -/

namespace CoarseETA

theorem getD_of_readETA (t : List ℚ) (i : Int) (v : ℚ) (h : readETA t i = .ok v) :
    0 ≤ i ∧ i.toNat < t.length ∧ t.getD i.toNat 0 = v := by
  obtain ⟨h0, h1, h2⟩ := readETA_ok_range t i v h
  have hlt : i.toNat < t.length := by omega
  refine ⟨h0, hlt, ?_⟩
  rw [List.getD_eq_getElem _ _ hlt]
  rw [List.get?_eq_getElem?, List.getElem?_eq_getElem hlt] at h2
  exact Option.some.inj h2

/-- The table search returns on every table with records, in one of four
shapes, and the rank computed from its result is described by `RankAt`. -/
theorem search_rank (path : String) (files : ETAFiles) (z1 z2 : String)
    (os_eta : ℚ) (t : List ℚ) (hfile : files (tableName path z1 z2) = some t) (hne : t ≠ []) :
    ∃ sr, binarySearchETA path files z1 z2 os_eta = .ok sr ∧
      sr.total_records = (t.length : ℚ) ∧
      RankAt t os_eta (rankOf sr os_eta) ∧
      ((∃ mid : Nat, mid < t.length ∧ t.getD mid 0 = os_eta ∧
          sr = ⟨(mid : Int), os_eta, -1, -1, t.length⟩) ∨
        (sr.record_eta2 = -1 ∧ sr.eta2 = -1 ∧
          (t.getD (t.length - 1) 0 < os_eta ∨ os_eta < t.getD 0 0)) ∨
        (∃ hi : Nat, hi + 1 < t.length ∧ t.getD hi 0 < os_eta ∧ os_eta < t.getD (hi + 1) 0 ∧
          sr = ⟨(hi : Int), t.getD hi 0, (hi : Int) + 1, t.getD (hi + 1) 0, t.length⟩)) := by
  have hlen : 0 < t.length := List.length_pos.2 hne
  rcases binarySearchETA_cases path files z1 z2 os_eta t hfile hne with
    ⟨mid, h0, h1, hr, hs⟩ | ⟨v, hr, hlt, hs⟩ | ⟨v, hr, hlt, hs⟩ |
    ⟨hi, v1, v2, h0, h1, hr1, hr2, hl1, hl2, hs⟩
  · obtain ⟨_, hm1, hm2⟩ := getD_of_readETA _ _ _ hr
    have hmid : ((mid.toNat : Nat) : Int) = mid := by omega
    have hrank : rankOf ⟨mid, os_eta, -1, -1, t.length⟩ os_eta = ((mid.toNat : Nat) : ℚ) := by
      unfold rankOf
      simp only [ne_eq, not_true_eq_false, if_false]
      have : ((mid.toNat : Nat) : ℚ) = ((mid.toNat : Int) : ℚ) := by push_cast; rfl
      rw [this, hmid]
    refine ⟨_, hs, rfl, ?_, ?_⟩
    · left
      exact ⟨mid.toNat, hm1, hm2, hrank⟩
    · left
      refine ⟨mid.toNat, hm1, hm2, ?_⟩
      rw [hmid]
  · obtain ⟨_, _, hm2⟩ := getD_of_readETA _ _ _ hr
    have hidx : ((t.length : Int) - 1).toNat = t.length - 1 := by omega
    rw [hidx] at hm2
    refine ⟨_, hs, rfl, ?_, ?_⟩
    · right; left
      refine ⟨by rw [hm2]; exact hlt, ?_⟩
      unfold rankOf
      simp
    · right; left
      exact ⟨rfl, rfl, Or.inl (by rw [hm2]; exact hlt)⟩
  · obtain ⟨_, _, hm2⟩ := getD_of_readETA _ _ _ hr
    have hidx : (0 : Int).toNat = 0 := rfl
    rw [hidx] at hm2
    refine ⟨_, hs, rfl, ?_, ?_⟩
    · right; right; left
      refine ⟨by rw [hm2]; exact hlt, ?_⟩
      unfold rankOf
      simp
    · right; left
      exact ⟨rfl, rfl, Or.inr (by rw [hm2]; exact hlt)⟩
  · obtain ⟨_, _, hm1⟩ := getD_of_readETA _ _ _ hr1
    obtain ⟨_, _, hm2⟩ := getD_of_readETA _ _ _ hr2
    have hidx : (hi + 1).toNat = hi.toNat + 1 := by omega
    rw [hidx] at hm2
    have hhi : ((hi.toNat : Nat) : Int) = hi := by omega
    have hne1 : hi + 1 ≠ -1 := by omega
    have hcast : ((hi.toNat : Nat) : ℚ) = (hi : ℚ) := by
      have : ((hi.toNat : Nat) : ℚ) = ((hi.toNat : Int) : ℚ) := by push_cast; rfl
      rw [this, hhi]
    refine ⟨_, hs, rfl, ?_, ?_⟩
    · right; right; right
      refine ⟨hi.toNat, by omega, by rw [hm1]; exact hl1, by rw [hm2]; exact hl2, ?_⟩
      unfold rankOf
      simp only [ne_eq, hne1, not_false_eq_true, if_true]
      rw [hm1, hm2, hcast]
    · right; right
      refine ⟨hi.toNat, by omega, by rw [hm1]; exact hl1, by rw [hm2]; exact hl2, ?_⟩
      rw [hm1, hm2, hhi]

/-- The rank lies between 0 and the last index. -/
theorem rankAt_bounds (t : List ℚ) (hne : t ≠ []) (os_eta rank : ℚ)
    (h : RankAt t os_eta rank) : 0 ≤ rank ∧ rank ≤ (t.length : ℚ) - 1 := by
  have hlen : 0 < t.length := List.length_pos.2 hne
  have hlenq : (1 : ℚ) ≤ (t.length : ℚ) := by exact_mod_cast hlen
  rcases h with ⟨mid, hm, _, rfl⟩ | ⟨_, rfl⟩ | ⟨_, rfl⟩ | ⟨hi, hh, hl1, hl2, rfl⟩
  · have h1 : ((mid : ℚ)) + 1 ≤ (t.length : ℚ) := by exact_mod_cast hm
    exact ⟨by positivity, by linarith⟩
  · exact ⟨by linarith, le_refl _⟩
  · exact ⟨le_refl _, by linarith⟩
  · have hd : 0 < t.getD (hi + 1) 0 - t.getD hi 0 := by linarith
    have hf0 : 0 ≤ (os_eta - t.getD hi 0) / (t.getD (hi + 1) 0 - t.getD hi 0) :=
      div_nonneg (by linarith) (le_of_lt hd)
    have hf1 : (os_eta - t.getD hi 0) / (t.getD (hi + 1) 0 - t.getD hi 0) ≤ 1 := by
      rw [div_le_one hd]; linarith
    have h1 : ((hi : ℚ)) + 1 + 1 ≤ (t.length : ℚ) := by exact_mod_cast hh
    have h0 : (0 : ℚ) ≤ (hi : ℚ) := by positivity
    exact ⟨by linarith, by linarith⟩

/-- In a sorted table a smaller record has a smaller index. -/
theorem index_lt_of_lt (t : List ℚ) (hsorted : t.Sorted (· ≤ ·)) (i j : Nat)
    (hi : i < t.length) (h : t.getD i 0 < t.getD j 0) : i < j := by
  by_contra hge
  have := sorted_getD_le t hsorted j i (by omega) hi
  exact absurd (lt_of_lt_of_le h this) (lt_irrefl _)

/-- On a sorted table a larger target never gets a smaller rank. -/
theorem rankAt_mono (t : List ℚ) (hne : t ≠ []) (hsorted : t.Sorted (· ≤ ·))
    (a b ra rb : ℚ) (hab : a < b) (ha : RankAt t a ra) (hb : RankAt t b rb) : ra ≤ rb := by
  have hlen : 0 < t.length := List.length_pos.2 hne
  obtain ⟨ha0, ha1⟩ := rankAt_bounds t hne a ra ha
  obtain ⟨hb0, hb1⟩ := rankAt_bounds t hne b rb hb
  have hlast : ∀ i, i < t.length → t.getD i 0 ≤ t.getD (t.length - 1) 0 :=
    fun i hi => sorted_getD_le t hsorted i (t.length - 1) (by omega) (by omega)
  have hfirst : ∀ i, i < t.length → t.getD 0 0 ≤ t.getD i 0 :=
    fun i hi => sorted_getD_le t hsorted 0 i (by omega) hi
  rcases ha with ⟨ma, hma, hva, rfl⟩ | ⟨hva, rfl⟩ | ⟨_, rfl⟩ | ⟨ia, hia, hla1, hla2, rfl⟩
  · rcases hb with ⟨mb, hmb, hvb, rfl⟩ | ⟨_, rfl⟩ | ⟨hvb, rfl⟩ | ⟨ib, hib, hlb1, hlb2, rfl⟩
    · have := index_lt_of_lt t hsorted ma mb hma (by rw [hva, hvb]; exact hab)
      exact_mod_cast le_of_lt this
    · exact ha1
    · have := hfirst ma hma
      rw [hva] at this
      linarith
    · have hlt := index_lt_of_lt t hsorted ma (ib + 1) hma (by rw [hva]; linarith)
      have hd : 0 < t.getD (ib + 1) 0 - t.getD ib 0 := by linarith
      have hf0 : 0 ≤ (b - t.getD ib 0) / (t.getD (ib + 1) 0 - t.getD ib 0) :=
        div_nonneg (by linarith) (le_of_lt hd)
      have hle : (ma : ℚ) ≤ (ib : ℚ) := by exact_mod_cast (by omega : ma ≤ ib)
      linarith
  · rcases hb with ⟨mb, hmb, hvb, rfl⟩ | ⟨_, rfl⟩ | ⟨hvb, rfl⟩ | ⟨ib, hib, hlb1, hlb2, rfl⟩
    · have := hlast mb hmb
      rw [hvb] at this
      linarith
    · exact le_refl _
    · have := hlast 0 hlen
      linarith
    · have := hlast (ib + 1) hib
      linarith
  · exact hb0
  · have hda : 0 < t.getD (ia + 1) 0 - t.getD ia 0 := by linarith
    have hfa1 : (a - t.getD ia 0) / (t.getD (ia + 1) 0 - t.getD ia 0) ≤ 1 := by
      rw [div_le_one hda]; linarith
    rcases hb with ⟨mb, hmb, hvb, rfl⟩ | ⟨_, rfl⟩ | ⟨hvb, rfl⟩ | ⟨ib, hib, hlb1, hlb2, rfl⟩
    · have hlt := index_lt_of_lt t hsorted ia mb (by omega) (by rw [hvb]; linarith)
      have hle : (ia : ℚ) + 1 ≤ (mb : ℚ) := by exact_mod_cast (by omega : ia + 1 ≤ mb)
      linarith
    · exact ha1
    · have := hfirst ia (by omega)
      linarith
    · have hlt := index_lt_of_lt t hsorted ia (ib + 1) (by omega) (by linarith)
      have hdb : 0 < t.getD (ib + 1) 0 - t.getD ib 0 := by linarith
      have hfb0 : 0 ≤ (b - t.getD ib 0) / (t.getD (ib + 1) 0 - t.getD ib 0) :=
        div_nonneg (by linarith) (le_of_lt hdb)
      rcases Nat.lt_or_eq_of_le (by omega : ia ≤ ib) with hlt2 | heq
      · have hle : (ia : ℚ) + 1 ≤ (ib : ℚ) := by exact_mod_cast (by omega : ia + 1 ≤ ib)
        linarith
      · subst heq
        have : (a - t.getD ia 0) / (t.getD (ia + 1) 0 - t.getD ia 0)
            ≤ (b - t.getD ia 0) / (t.getD (ia + 1) 0 - t.getD ia 0) :=
          div_le_div_of_nonneg_right (by linarith) (le_of_lt hda)
        linarith

/-- The table search reads the directory only at the name of the table. -/
theorem binarySearchETA_congr (path : String) (files1 files2 : ETAFiles) (z1 z2 : String)
    (os_eta : ℚ) (h : files1 (tableName path z1 z2) = files2 (tableName path z1 z2)) :
    binarySearchETA path files1 z1 z2 os_eta = binarySearchETA path files2 z1 z2 os_eta := by
  unfold binarySearchETA
  simp only [h]

/-- The rank in percent of a rank between 0 and the last index lies between
0 and 100, and grows with the rank. -/
theorem rankPercent_mono (sra srb : SearchResult) (n : Nat)
    (hta : sra.total_records = (n : ℚ)) (htb : srb.total_records = (n : ℚ))
    (ra rb : ℚ) (h0 : 0 ≤ ra) (hab : ra ≤ rb) (h1 : rb ≤ (n : ℚ) - 1) :
    0 ≤ rankPercent sra ra ∧ rankPercent sra ra ≤ rankPercent srb rb ∧
      rankPercent srb rb ≤ 100 := by
  unfold rankPercent
  rw [hta, htb]
  by_cases hN : (1 : ℚ) < (n : ℚ)
  · have hd : (0 : ℚ) < (n : ℚ) - 1 := by linarith
    rw [if_pos hN, if_pos hN]
    have e1 : 0 ≤ ra / ((n : ℚ) - 1) := div_nonneg h0 (le_of_lt hd)
    have e2 : ra / ((n : ℚ) - 1) ≤ rb / ((n : ℚ) - 1) :=
      div_le_div_of_nonneg_right hab (le_of_lt hd)
    have e3 : rb / ((n : ℚ) - 1) ≤ 1 := by rw [div_le_one hd]; exact h1
    exact ⟨by linarith, by linarith, by linarith⟩
  · rw [if_neg hN, if_neg hN]
    exact ⟨le_refl _, le_refl _, by norm_num⟩

/-- C28. For every non-empty non-decreasing ETA table (duplicates allowed)
and every `os_eta` equal to some record of the table, `binarySearchETA`
reports an exact hit: `record_eta2 = -1`, `eta2 = -1`, `eta1 = os_eta` and
the record at index `record_eta1` equals `os_eta`; conversely, when `os_eta`
is at least some record and at most some record (it lies between the minimum
and the maximum of the table) and equals no record, the result has an upper
neighbour, `record_eta2 ≠ -1`. -/
theorem binarySearchETA_exact (path : String) (files : ETAFiles) (z1 z2 : String)
    (os_eta : ℚ) (t : List ℚ) (hfile : files (tableName path z1 z2) = some t)
    (hne : t ≠ []) (hsorted : t.Sorted (· ≤ ·)) :
    (os_eta ∈ t →
      ∃ sr, binarySearchETA path files z1 z2 os_eta = .ok sr ∧
        sr.record_eta2 = -1 ∧ sr.eta2 = -1 ∧ sr.eta1 = os_eta ∧
        0 ≤ sr.record_eta1 ∧ sr.record_eta1 < t.length ∧
        t.get? sr.record_eta1.toNat = some os_eta) ∧
    (os_eta ∉ t → (∃ lo ∈ t, lo ≤ os_eta) → (∃ hi ∈ t, os_eta ≤ hi) →
      ∃ sr, binarySearchETA path files z1 z2 os_eta = .ok sr ∧ sr.record_eta2 ≠ -1) := by
  have hlen : 0 < t.length := List.length_pos.2 hne
  have hlast : ∀ i, i < t.length → t.getD i 0 ≤ t.getD (t.length - 1) 0 :=
    fun i hi => sorted_getD_le t hsorted i (t.length - 1) (by omega) (by omega)
  have hfirst : ∀ i, i < t.length → t.getD 0 0 ≤ t.getD i 0 :=
    fun i hi => sorted_getD_le t hsorted 0 i (by omega) hi
  have hidx : ∀ v ∈ t, ∃ k, k < t.length ∧ t.getD k 0 = v := by
    intro v hv
    obtain ⟨k, hk, hkv⟩ := List.mem_iff_getElem.1 hv
    exact ⟨k, hk, by rw [List.getD_eq_getElem _ _ hk]; exact hkv⟩
  obtain ⟨sr, hs, _, _, hshape⟩ := search_rank path files z1 z2 os_eta t hfile hne
  constructor
  · intro hmem
    obtain ⟨k, hk, hkv⟩ := hidx os_eta hmem
    rcases hshape with ⟨mid, hm, hmv, rfl⟩ | ⟨_, _, hout | hout⟩ |
      ⟨hi, hh, hl1, hl2, _⟩
    · refine ⟨_, hs, rfl, rfl, rfl, by simp, by simpa using hm, ?_⟩
      simp only [Int.toNat_ofNat]
      rw [List.get?_eq_getElem?, List.getElem?_eq_getElem hm, ← hmv,
        List.getD_eq_getElem _ _ hm]
    · have := hlast k hk
      rw [hkv] at this
      linarith
    · have := hfirst k hk
      rw [hkv] at this
      linarith
    · rcases Nat.lt_or_ge hi k with hlt | hge
      · have := sorted_getD_le t hsorted (hi + 1) k (by omega) hk
        rw [hkv] at this
        linarith
      · have := sorted_getD_le t hsorted k hi hge (by omega)
        rw [hkv] at this
        linarith
  · intro hnot ⟨lo, hlo, hlo1⟩ ⟨hi1, hhi, hhi1⟩
    obtain ⟨ka, hka, hkav⟩ := hidx lo hlo
    obtain ⟨kb, hkb, hkbv⟩ := hidx hi1 hhi
    rcases hshape with ⟨mid, hm, hmv, _⟩ | ⟨_, _, hout | hout⟩ |
      ⟨hi, hh, hl1, hl2, rfl⟩
    · exact absurd (by rw [← hmv]; exact getD_mem t mid hm) hnot
    · have := hlast kb hkb
      rw [hkbv] at this
      linarith
    · have := hfirst ka hka
      rw [hkav] at this
      linarith
    · refine ⟨_, hs, ?_⟩
      show (hi : Int) + 1 ≠ -1
      omega

/-- C28 on the table `[10, 20, 20, 30]`: the target 20 is a record, the
target 25 lies between two records. -/
theorem binarySearchETA_exact_witness :
    (∃ sr, binarySearchETA "eta" (fun _ => some [10, 20, 20, 30]) "A" "B" 20 = .ok sr ∧
        sr.record_eta2 = -1 ∧ sr.eta2 = -1 ∧ sr.eta1 = 20 ∧
        0 ≤ sr.record_eta1 ∧ sr.record_eta1 < ([10, 20, 20, 30] : List ℚ).length ∧
        ([10, 20, 20, 30] : List ℚ).get? sr.record_eta1.toNat = some 20) ∧
    (∃ sr, binarySearchETA "eta" (fun _ => some [10, 20, 20, 30]) "A" "B" 25 = .ok sr ∧
        sr.record_eta2 ≠ -1) :=
  ⟨(binarySearchETA_exact "eta" (fun _ => some [10, 20, 20, 30]) "A" "B" 20
      [10, 20, 20, 30] rfl (by simp) (by norm_num [List.Sorted])).1 (by simp),
    (binarySearchETA_exact "eta" (fun _ => some [10, 20, 20, 30]) "A" "B" 25
      [10, 20, 20, 30] rfl (by simp) (by norm_num [List.Sorted])).2 (by norm_num)
      ⟨10, by simp, by norm_num⟩ ⟨30, by simp, by norm_num⟩⟩

end CoarseETA

/-! ## Monotonicity of the pipeline in the routing engine's ETA -/

namespace CoarseETA

/-- C29. For every non-empty non-decreasing ETA table (duplicates allowed),
every non-decreasing aggregate vector `y` with its fixed rank vector, and
all `os_eta_a ≤ os_eta_b` that the routing engine may return for a query:
the table search returns for both, and the rank, the rank in percent and
the final ETA that `ETARequest` computes for `os_eta_a` are each at most
those it computes for `os_eta_b`. -/
theorem ETARequest_monotone (c : CoarseETA) (wa wb : World) (query : ETAQuery)
    (z1 z2 : String) (x y : List ℚ) (os_eta_a os_eta_b : ℚ) (t : List ℚ)
    (hra : Reaches c wa query z1 z2 x y os_eta_a)
    (hrb : Reaches c wb query z1 z2 x y os_eta_b)
    (hfa : wa.files (tableName c.spatialETA_path z1 z2) = some t)
    (hfb : wb.files (tableName c.spatialETA_path z1 z2) = some t)
    (hne : t ≠ []) (hsorted : t.Sorted (· ≤ ·))
    (hlen : y.length = x.length) (hy : y.Sorted (· ≤ ·))
    (hab : os_eta_a ≤ os_eta_b) :
    ∃ (sra srb : SearchResult) (ea eb : ℚ),
      binarySearchETA c.spatialETA_path wa.files z1 z2 os_eta_a = .ok sra ∧
      binarySearchETA c.spatialETA_path wb.files z1 z2 os_eta_b = .ok srb ∧
      rankOf sra os_eta_a ≤ rankOf srb os_eta_b ∧
      rankPercent sra (rankOf sra os_eta_a) ≤ rankPercent srb (rankOf srb os_eta_b) ∧
      ETARequest c wa query = some ea ∧ ETARequest c wb query = some eb ∧ ea ≤ eb := by
  obtain ⟨sra, hsa, hta, hranka, _⟩ :=
    search_rank c.spatialETA_path wa.files z1 z2 os_eta_a t hfa hne
  obtain ⟨srb, hsb, htb, hrankb, _⟩ :=
    search_rank c.spatialETA_path wb.files z1 z2 os_eta_b t hfb hne
  obtain ⟨ha0, ha1⟩ := rankAt_bounds t hne _ _ hranka
  obtain ⟨hb0, hb1⟩ := rankAt_bounds t hne _ _ hrankb
  have hrank : rankOf sra os_eta_a ≤ rankOf srb os_eta_b := by
    rcases lt_or_eq_of_le hab with hlt | heq
    · exact rankAt_mono t hne hsorted _ _ _ _ hlt hranka hrankb
    · subst heq
      have hcongr := binarySearchETA_congr c.spatialETA_path wa.files wb.files z1 z2 os_eta_a
        (by rw [hfa, hfb])
      rw [hcongr, hsb] at hsa
      cases hsa
      exact le_refl _
  obtain ⟨hp0, hp1, hp2⟩ := rankPercent_mono sra srb t.length hta htb _ _ ha0 hrank hb1
  have hxs := ranks_cases c.aggregate_type x hra.ranks
  have hrv := isRankVector_of_ranks x hxs
  have hxne : x ≠ [] := by rcases hxs with h | h | h <;> subst h <;> simp
  have hx0 : x.getD 0 0 = 0 := by rcases hxs with h | h | h <;> subst h <;> rfl
  have hx1 : x.getD (x.length - 1) 0 = 100 := by rcases hxs with h | h | h <;> subst h <;> rfl
  obtain ⟨ea, eb, hea, heb, hle⟩ := interpolatedEta_mono x y hlen hrv hy hxne _ _
    (by rw [hx0]; exact hp0) hp1 (by rw [hx1]; exact hp2) (le_of_eq hx1)
  exact ⟨sra, srb, ea, eb, hsa, hsb, hrank, hp1,
    ETARequest_of_reaches c wa query z1 z2 x y os_eta_a sra ea hra hsa hea,
    ETARequest_of_reaches c wb query z1 z2 x y os_eta_b srb eb hrb hsb heb, hle⟩

set_option maxRecDepth 100000 in
/-- C29 on the small installation with the table `[10, 20, 20, 30]`, for the
routing engine's ETAs 20 and 25. -/
theorem ETARequest_monotone_witness :
    ∃ (sra srb : SearchResult) (ea eb : ℚ),
      binarySearchETA sampleETA.spatialETA_path
        (sampleWorld [10, 20, 20, 30] (.ok 20) (some sampleTm)).files "A" "B" 20 = .ok sra ∧
      binarySearchETA sampleETA.spatialETA_path
        (sampleWorld [10, 20, 20, 30] (.ok 25) (some sampleTm)).files "A" "B" 25 = .ok srb ∧
      rankOf sra 20 ≤ rankOf srb 25 ∧
      rankPercent sra (rankOf sra 20) ≤ rankPercent srb (rankOf srb 25) ∧
      ETARequest sampleETA (sampleWorld [10, 20, 20, 30] (.ok 20) (some sampleTm)) sampleQuery
        = some ea ∧
      ETARequest sampleETA (sampleWorld [10, 20, 20, 30] (.ok 25) (some sampleTm)) sampleQuery
        = some eb ∧ ea ≤ eb :=
  ETARequest_monotone sampleETA (sampleWorld [10, 20, 20, 30] (.ok 20) (some sampleTm))
    (sampleWorld [10, 20, 20, 30] (.ok 25) (some sampleTm)) sampleQuery "A" "B"
    [0, 25, 50, 75, 100] [50, 100, 200, 400, 800] 20 25 [10, 20, 20, 30]
    (sample_reaches [10, 20, 20, 30] 20) (sample_reaches [10, 20, 20, 30] 25)
    rfl rfl (by simp) (by norm_num [List.Sorted]) rfl (by norm_num [List.Sorted])
    (by norm_num)

end CoarseETA

/-! ## The grid lookup as a linear scan -/

theorem gridOrdered_weaken {grid : List (List (List Int))} {i k : Int}
    (h : GridOrdered grid i) (hik : i ≤ k) : GridOrdered grid k :=
  fun row hrow cell hcell =>
    ⟨(h row hrow cell hcell).1, fun j hj => le_trans ((h row hrow cell hcell).2 j hj) hik⟩

namespace GridIndex

/-- A `push_back` of an index that no entry exceeds keeps the cells in
order. -/
theorem pushCell_ordered (grid grid1 : List (List (List Int))) (y x i : Int)
    (hord : GridOrdered grid i) (h : pushCell grid y x i = .ok grid1) :
    GridOrdered grid1 i := by
  unfold pushCell at h
  split at h
  · cases h
  · split at h
    · cases h
    · rename_i row hrow
      split at h
      · cases h
      · rename_i cell hcell
        injection h with h
        subst h
        have hrowmem : row ∈ grid := List.get?_mem hrow
        have hcellmem : cell ∈ row := List.get?_mem hcell
        intro row1 hrow1 cell1 hcell1
        rcases List.mem_or_eq_of_mem_set hrow1 with hr | hr
        · exact hord row1 hr cell1 hcell1
        · subst hr
          rcases List.mem_or_eq_of_mem_set hcell1 with hc | hc
          · exact hord row hrowmem cell1 hc
          · subst hc
            obtain ⟨hs, hb⟩ := hord row hrowmem cell hcellmem
            refine ⟨?_, ?_⟩
            · unfold List.Sorted
              rw [List.pairwise_append]
              refine ⟨hs, List.pairwise_singleton _ _, ?_⟩
              intro a ha b hb1
              rw [List.mem_singleton] at hb1
              subst hb1
              exact hb a ha
            · intro j hj
              rcases List.mem_append.1 hj with h1 | h1
              · exact hb j h1
              · rw [List.mem_singleton] at h1
                rw [h1]

/-- A loop over a list keeps an invariant of the grid that each of its
steps keeps. -/
theorem foldlM_invariant {α : Type} (I : List (List (List Int)) → Prop)
    (f : List (List (List Int)) → α → Except Fault (List (List (List Int)))) (as : List α)
    (hstep : ∀ a ∈ as, ∀ g g1, I g → f g a = .ok g1 → I g1) :
    ∀ g g1, I g → as.foldlM f g = .ok g1 → I g1 := by
  induction as with
  | nil =>
    intro g g1 hI h
    injection h with h
    subst h
    exact hI
  | cons a rest ih =>
    intro g g1 hI h
    rw [List.foldlM_cons] at h
    cases hf : f g a with
    | error e =>
      rw [hf] at h
      cases h
    | ok g2 =>
      rw [hf] at h
      exact ih (fun b hb => hstep b (List.mem_cons_of_mem _ hb)) g2 g1
        (hstep a (List.mem_cons_self _ _) g g2 hI hf) h

theorem indexZone_ordered (g : GridIndex) (grid grid1 : List (List (List Int))) (i : Int)
    (bbox : BBox) (hord : GridOrdered grid i) (h : indexZone g grid i bbox = .ok grid1) :
    GridOrdered grid1 i := by
  unfold indexZone at h
  refine foldlM_invariant (fun gr => GridOrdered gr i) _ _ ?_ grid grid1 hord h
  intro y _ g0 g1 h0 hrow
  refine foldlM_invariant (fun gr => GridOrdered gr i) _ _ ?_ g0 g1 h0 hrow
  intro x _ g2 g3 h2 hpush
  exact pushCell_ordered g2 g3 y x i h2 hpush

theorem indexZones_ordered (g : GridIndex) :
    ∀ (zs : List Zone) (i0 : Int) (grid grid1 : List (List (List Int))),
      GridOrdered grid (i0 - 1) → indexZones g zs i0 grid = .ok grid1 →
      GridOrdered grid1 (i0 + zs.length - 1) := by
  intro zs
  induction zs with
  | nil =>
    intro i0 grid grid1 hord h
    unfold indexZones at h
    injection h with h
    subst h
    simpa using hord
  | cons z rest ih =>
    intro i0 grid grid1 hord h
    unfold indexZones at h
    split at h
    · cases h
    · rename_i grid2 h2
      have hord2 := indexZone_ordered g grid grid2 i0 z.bbox
        (gridOrdered_weaken hord (by omega)) h2
      have := ih (i0 + 1) grid2 grid1 (by simpa using hord2) h
      have he : i0 + 1 + (rest.length : Int) - 1 = i0 + ((z :: rest).length : Int) - 1 := by
        simp only [List.length_cons]
        push_cast
        omega
      rw [he] at this
      exact this

theorem frame_ordered (zones : List Zone) (cells_per_degree : Int) :
    GridOrdered (frame zones cells_per_degree).grid (-1) := by
  intro row hrow cell hcell
  have hr := List.eq_of_mem_replicate hrow
  rw [hr] at hcell
  have hc := List.eq_of_mem_replicate hcell
  rw [hc]
  exact ⟨List.sorted_nil, fun j hj => by cases hj⟩

/-- The grid the constructor builds lists the zone indices of every cell in
non-decreasing order. -/
theorem create_ordered (zones : List Zone) (cells_per_degree : Int) (g : GridIndex)
    (h : create zones cells_per_degree = .ok g) :
    ∀ row ∈ g.grid, ∀ cell ∈ row, cell.Sorted (· ≤ ·) := by
  unfold create at h
  simp only at h
  split at h
  · cases h
  · split at h
    · cases h
    · rename_i grid hgrid
      injection h with h
      subst h
      have := indexZones_ordered (frame zones cells_per_degree) zones 0 _ grid
        (by simpa using frame_ordered zones cells_per_degree) hgrid
      intro row hrow cell hcell
      exact (this row hrow cell hcell).1

end GridIndex

theorem Zone.containsPoint_covers (z : Zone) (p : Point) (h : z.containsPoint p = true) :
    z.bbox.Covers p := by
  unfold Zone.containsPoint at h
  by_cases hb : z.bbox.contains p = true
  · exact (BBox.contains_iff _ _).1 hb
  · rw [Bool.not_eq_true] at hb
    rw [hb] at h
    simp at h

/-- The first zone that `find?` meets has the least index among the zones
that satisfy the test. -/
theorem find_least {α : Type} (q : α → Bool) :
    ∀ (l : List α) (z : α), l.find? q = some z →
      ∃ k, l.get? k = some z ∧ q z = true ∧ ∀ j zj, j < k → l.get? j = some zj → q zj = false := by
  intro l
  induction l with
  | nil => intro z h; cases h
  | cons a rest ih =>
    intro z h
    by_cases ha : q a = true
    · rw [List.find?_cons_of_pos _ ha] at h
      injection h with h
      subst h
      exact ⟨0, rfl, ha, fun j zj hj _ => by omega⟩
    · rw [List.find?_cons_of_neg _ ha] at h
      obtain ⟨k, hk, hq, hleast⟩ := ih z h
      refine ⟨k + 1, by simpa using hk, hq, ?_⟩
      intro j zj hj hget
      cases j with
      | zero =>
        simp only [List.get?_cons_zero, Option.some.injEq] at hget
        subst hget
        simpa using ha
      | succ j1 =>
        simp only [List.get?_cons_succ] at hget
        exact hleast j1 zj (by omega) hget

namespace GridIndex

/-- The scan of a cell whose entries are indices of zones that do not
contain the point returns the empty id. -/
theorem scanCell_none (zones : List Zone) (p : Point) (cell : List Int)
    (hvalid : ∀ j ∈ cell, 0 ≤ j ∧ j < zones.length)
    (hnone : ∀ z ∈ zones, z.containsPoint p = false) :
    scanCell zones p cell = .ok "" := by
  induction cell with
  | nil => rfl
  | cons idx rest ih =>
    obtain ⟨h0, h1⟩ := hvalid idx (List.mem_cons_self _ _)
    have hlt : idx.toNat < zones.length := by omega
    have hget : zones.get? idx.toNat = some zones[idx.toNat] := by
      rw [List.get?_eq_getElem?, List.getElem?_eq_getElem hlt]
    unfold scanCell
    rw [if_neg (by omega)]
    simp only [hget]
    rw [hnone _ (List.getElem_mem hlt)]
    simp only [Bool.false_eq_true, if_false]
    exact ih (fun j hj => hvalid j (List.mem_cons_of_mem _ hj))

/-- The scan of an ordered cell that holds the least index `k` of a zone
containing the point returns the id of that zone. -/
theorem scanCell_least (zones : List Zone) (p : Point) (k : Nat) (z : Zone)
    (hk : zones.get? k = some z) (hz : z.containsPoint p = true)
    (hleast : ∀ j zj, j < k → zones.get? j = some zj → zj.containsPoint p = false) :
    ∀ cell : List Int, (∀ j ∈ cell, 0 ≤ j ∧ j < zones.length) → cell.Sorted (· ≤ ·) →
      (k : Int) ∈ cell → scanCell zones p cell = .ok z.id := by
  intro cell
  induction cell with
  | nil => intro _ _ h; cases h
  | cons idx rest ih =>
    intro hvalid hsorted hmem
    obtain ⟨h0, h1⟩ := hvalid idx (List.mem_cons_self _ _)
    have hlt : idx.toNat < zones.length := by omega
    have hget : zones.get? idx.toNat = some zones[idx.toNat] := by
      rw [List.get?_eq_getElem?, List.getElem?_eq_getElem hlt]
    have hle : idx ≤ (k : Int) := by
      rcases List.mem_cons.1 hmem with h | h
      · omega
      · exact List.rel_of_sorted_cons hsorted _ h
    obtain ⟨zi, hzi⟩ : ∃ zi, zones.get? idx.toNat = some zi := ⟨_, hget⟩
    unfold scanCell
    rw [if_neg (by omega)]
    simp only [hzi]
    by_cases hc : zi.containsPoint p = true
    · rw [if_pos hc]
      have hge : ¬ idx.toNat < k := by
        intro hlt2
        have := hleast idx.toNat _ hlt2 hzi
        rw [this] at hc
        cases hc
      have heq : idx.toNat = k := by omega
      rw [heq, hk] at hzi
      injection hzi with hzi
      rw [hzi]
    · rw [if_neg hc]
      have hne : (k : Int) ≠ idx := by
        intro heq
        have hk2 : idx.toNat = k := by omega
        rw [hk2, hk] at hzi
        injection hzi with hzi
        rw [← hzi] at hc
        exact hc hz
      have hrest : (k : Int) ∈ rest := by
        rcases List.mem_cons.1 hmem with h | h
        · exact absurd h hne
        · exact h
      exact ih (fun j hj => hvalid j (List.mem_cons_of_mem _ hj)) (List.Sorted.of_cons hsorted)
        hrest

end GridIndex

theorem linearScan_none (zones : List Zone) (p : Point)
    (h : ∀ z ∈ zones, z.containsPoint p = false) : linearScan zones p = "" := by
  unfold linearScan
  have : zones.find? (fun z => z.containsPoint p) = none := by
    rw [List.find?_eq_none]
    intro z hz
    rw [h z hz]
    simp
  rw [this]

theorem linearScan_least (zones : List Zone) (p : Point) (k : Nat) (z : Zone)
    (hk : zones.get? k = some z) (hz : z.containsPoint p = true)
    (hleast : ∀ j zj, j < k → zones.get? j = some zj → zj.containsPoint p = false) :
    linearScan zones p = z.id := by
  unfold linearScan
  cases hf : zones.find? (fun z => z.containsPoint p) with
  | none =>
    rw [List.find?_eq_none] at hf
    exact absurd hz (hf z (List.get?_mem hk))
  | some z1 =>
    obtain ⟨k1, hk1, hq1, hleast1⟩ := find_least (fun z => z.containsPoint p) zones z1 hf
    have hkk : k1 = k := by
      rcases Nat.lt_trichotomy k1 k with h | h | h
      · have := hleast k1 z1 h hk1
        rw [this] at hq1
        cases hq1
      · exact h
      · have := hleast1 k z h hk
        simp only at this
        rw [this] at hz
        cases hz
    subst hkk
    rw [hk] at hk1
    injection hk1 with hk1
    rw [hk1]

theorem linearScan_eq_empty_iff (zones : List Zone) (p : Point)
    (hid : ∀ z ∈ zones, z.id ≠ "") :
    linearScan zones p = "" ↔ ∀ z ∈ zones, z.containsPoint p = false := by
  constructor
  · intro h
    unfold linearScan at h
    cases hf : zones.find? (fun z => z.containsPoint p) with
    | none =>
      rw [List.find?_eq_none] at hf
      intro z hz
      simpa using hf z hz
    | some z1 =>
      rw [hf] at h
      exact absurd h (hid z1 (List.mem_of_find?_eq_some hf))
  · exact linearScan_none zones p

namespace GridIndex

/-- The lookup in the grid the constructor builds over a non-empty list of
loaded zones returns what the linear scan returns. -/
theorem findZoneContainingPoint_eq_scan (zones : List Zone) (cells_per_degree : Int)
    (hne : zones ≠ []) (hl : ∀ z ∈ zones, z.Loaded) (hc : 0 ≤ cells_per_degree) :
    ∃ g, create zones cells_per_degree = .ok g ∧
      ∀ p : Point, g.findZoneContainingPoint p.lon p.lat = .ok (linearScan zones p) := by
  obtain ⟨grid, hcreate, hdims, hvalid, hcells⟩ := create_spec zones cells_per_degree hne hl hc
  obtain ⟨_, _, hcov⟩ := frame_spec zones cells_per_degree hne hl hc
  have hsorted := create_ordered zones cells_per_degree _ hcreate
  refine ⟨{ frame zones cells_per_degree with grid := grid }, hcreate, ?_⟩
  intro p
  have hgx : ∀ lon, getGridX { frame zones cells_per_degree with grid := grid } lon
      = (frame zones cells_per_degree).getGridX lon := fun _ => rfl
  have hgy : ∀ lat, getGridY { frame zones cells_per_degree with grid := grid } lat
      = (frame zones cells_per_degree).getGridY lat := fun _ => rfl
  have hrange : ∀ z ∈ zones, z.containsPoint p = true →
      (0 ≤ (frame zones cells_per_degree).getGridX p.lon ∧
        (frame zones cells_per_degree).getGridX p.lon
          < (frame zones cells_per_degree).grid_size_x) ∧
      (0 ≤ (frame zones cells_per_degree).getGridY p.lat ∧
        (frame zones cells_per_degree).getGridY p.lat
          < (frame zones cells_per_degree).grid_size_y) := by
    intro z hz hzc
    obtain ⟨⟨a1, a2, a3, a4⟩, ⟨b1, b2, b3, b4⟩⟩ := hcov z hz p (z.containsPoint_covers p hzc)
    exact ⟨⟨le_trans a1 a2, lt_of_le_of_lt a3 a4⟩, ⟨le_trans b1 b2, lt_of_le_of_lt b3 b4⟩⟩
  unfold findZoneContainingPoint
  simp only [hgx, hgy]
  by_cases hout : (frame zones cells_per_degree).getGridX p.lon < 0 ∨
      (frame zones cells_per_degree).getGridX p.lon
        ≥ (frame zones cells_per_degree).grid_size_x ∨
      (frame zones cells_per_degree).getGridY p.lat < 0 ∨
      (frame zones cells_per_degree).getGridY p.lat
        ≥ (frame zones cells_per_degree).grid_size_y
  · rw [if_pos hout]
    have hnone : ∀ z ∈ zones, z.containsPoint p = false := by
      intro z hz
      by_contra hzc
      rw [Bool.not_eq_false] at hzc
      obtain ⟨⟨x0, x1⟩, ⟨y0, y1⟩⟩ := hrange z hz hzc
      omega
    rw [linearScan_none zones p hnone]
  · rw [if_neg hout]
    have hyl : ((frame zones cells_per_degree).getGridY p.lat).toNat < grid.length := by
      rw [hdims.1]; omega
    have hrow : grid.get? ((frame zones cells_per_degree).getGridY p.lat).toNat
        = some grid[((frame zones cells_per_degree).getGridY p.lat).toNat] := by
      rw [List.get?_eq_getElem?, List.getElem?_eq_getElem hyl]
    obtain ⟨row, hrow1⟩ : ∃ row, grid.get?
        ((frame zones cells_per_degree).getGridY p.lat).toNat = some row := ⟨_, hrow⟩
    have hrl : row.length = (frame zones cells_per_degree).grid_size_x.toNat :=
      hdims.2 row (List.get?_mem hrow1)
    have hxl : ((frame zones cells_per_degree).getGridX p.lon).toNat < row.length := by
      rw [hrl]; omega
    have hcell : row.get? ((frame zones cells_per_degree).getGridX p.lon).toNat
        = some row[((frame zones cells_per_degree).getGridX p.lon).toNat] := by
      rw [List.get?_eq_getElem?, List.getElem?_eq_getElem hxl]
    obtain ⟨cell, hcell1⟩ : ∃ cell, row.get?
        ((frame zones cells_per_degree).getGridX p.lon).toNat = some cell := ⟨_, hcell⟩
    show (match grid.get? ((frame zones cells_per_degree).getGridY p.lat).toNat with
      | none => Except.error Fault.undefined
      | some row =>
        match row.get? ((frame zones cells_per_degree).getGridX p.lon).toNat with
        | none => Except.error Fault.undefined
        | some cell => scanCell zones ⟨p.lon, p.lat⟩ cell) = _
    simp only [hrow1, hcell1]
    have hcv : ∀ j ∈ cell, 0 ≤ j ∧ j < zones.length :=
      fun j hj => hvalid _ _ j ⟨row, cell, hrow1, hcell1, hj⟩
    have hcs : cell.Sorted (· ≤ ·) :=
      hsorted row (List.get?_mem hrow1) cell (List.get?_mem hcell1)
    cases hf : zones.find? (fun z => z.containsPoint p) with
    | none =>
      have hnone : ∀ z ∈ zones, z.containsPoint p = false := by
        rw [List.find?_eq_none] at hf
        intro z hz
        simpa using hf z hz
      rw [linearScan_none zones p hnone]
      exact scanCell_none zones p cell hcv hnone
    | some z =>
      obtain ⟨k, hk, hq, hleast⟩ := find_least (fun z => z.containsPoint p) zones z hf
      simp only at hq hleast
      have hz : z ∈ zones := List.get?_mem hk
      obtain ⟨⟨a1, a2, a3, a4⟩, ⟨b1, b2, b3, b4⟩⟩ := hcov z hz p (z.containsPoint_covers p hq)
      obtain ⟨row2, cell2, hr2, hc2, hmem⟩ := hcells k z hk _ _ b2 b3 a2 a3
      rw [hrow1] at hr2
      injection hr2 with hr2
      subst hr2
      rw [hcell1] at hc2
      injection hc2 with hc2
      subst hc2
      rw [linearScan_least zones p k z hk hq hleast]
      exact scanCell_least zones p k z hk hq hleast cell hcv hcs hmem

/-- C27, as amended. For every non-empty list of loaded zones and every
point `p`, `findZoneContainingPoint(p)` on the index the constructor builds
equals a linear scan of the zones in load order: it returns the id of the
lowest-index zone whose `containsPoint(p)` is true, and the empty id when
no zone contains `p`; when no zone has an empty id, the result is the empty
id exactly when no zone contains `p`. -/
theorem findZoneContainingPoint_linear (zones : List Zone) (cells_per_degree : Int)
    (hne : zones ≠ []) (hl : ∀ z ∈ zones, z.Loaded) (hc : 0 ≤ cells_per_degree) :
    ∃ g, create zones cells_per_degree = .ok g ∧
      ∀ p : Point,
        g.findZoneContainingPoint p.lon p.lat = .ok (linearScan zones p) ∧
        (∀ (k : Nat) (z : Zone), zones.get? k = some z → z.containsPoint p = true →
          (∀ j zj, j < k → zones.get? j = some zj → zj.containsPoint p = false) →
          g.findZoneContainingPoint p.lon p.lat = .ok z.id) ∧
        ((∀ z ∈ zones, z.containsPoint p = false) →
          g.findZoneContainingPoint p.lon p.lat = .ok "") ∧
        ((∀ z ∈ zones, z.id ≠ "") →
          (g.findZoneContainingPoint p.lon p.lat = .ok "" ↔
            ∀ z ∈ zones, z.containsPoint p = false)) := by
  obtain ⟨g, hcreate, hscan⟩ :=
    findZoneContainingPoint_eq_scan zones cells_per_degree hne hl hc
  refine ⟨g, hcreate, fun p => ⟨hscan p, ?_, ?_, ?_⟩⟩
  · intro k z hk hz hleast
    rw [hscan p, linearScan_least zones p k z hk hz hleast]
  · intro hnone
    rw [hscan p, linearScan_none zones p hnone]
  · intro hid
    rw [hscan p]
    constructor
    · intro h
      injection h with h
      exact (linearScan_eq_empty_iff zones p hid).1 h
    · intro h
      rw [(linearScan_eq_empty_iff zones p hid).2 h]

set_option maxRecDepth 100000 in
/-- C27 fails as stated: the only zone of the list, loaded from a row with
an empty id field, contains the point (0.05, 0.05), and the lookup of that
point returns the empty id. -/
theorem findZoneContainingPoint_linear_counterexample :
    anonymousZone.Loaded ∧
    anonymousZone.containsPoint ⟨1 / 20, 1 / 20⟩ = true ∧
    (match create [anonymousZone] 10 with
      | .ok g => g.findZoneContainingPoint (1 / 20) (1 / 20)
      | .error e => .error e) = .ok "" ∧
    ¬ (∀ z ∈ [anonymousZone], z.containsPoint ⟨1 / 20, 1 / 20⟩ = false) := by
  have hc : anonymousZone.containsPoint ⟨1 / 20, 1 / 20⟩ = true := by with_unfolding_all rfl
  refine ⟨⟨by with_unfolding_all rfl, _, List.mem_cons_self _ _, by simp⟩, hc,
    by with_unfolding_all rfl, ?_⟩
  intro h
  have := h anonymousZone (List.mem_cons_self _ _)
  rw [hc] at this
  cases this

/-- C27, as amended, on the two sample zones with ten cells per degree. -/
theorem findZoneContainingPoint_linear_witness :
    ∃ g, create sampleZones 10 = .ok g ∧
      ∀ p : Point,
        g.findZoneContainingPoint p.lon p.lat = .ok (linearScan sampleZones p) ∧
        (∀ (k : Nat) (z : Zone), sampleZones.get? k = some z → z.containsPoint p = true →
          (∀ j zj, j < k → sampleZones.get? j = some zj → zj.containsPoint p = false) →
          g.findZoneContainingPoint p.lon p.lat = .ok z.id) ∧
        ((∀ z ∈ sampleZones, z.containsPoint p = false) →
          g.findZoneContainingPoint p.lon p.lat = .ok "") ∧
        ((∀ z ∈ sampleZones, z.id ≠ "") →
          (g.findZoneContainingPoint p.lon p.lat = .ok "" ↔
            ∀ z ∈ sampleZones, z.containsPoint p = false)) :=
  findZoneContainingPoint_linear sampleZones 10 (by simp [sampleZones]) sampleZones_loaded
    (by decide)

end GridIndex

/-! ## The parser never throws -/

theorem Str.substr_ok (s : List Char) (pos len : Nat) (h : pos ≤ s.length) :
    Str.substr s pos len = .ok ((s.drop pos).take len) := by
  unfold Str.substr
  rw [if_neg (by omega)]

theorem Str.substr_ne_error (s : List Char) (pos len : Nat) (e : Fault) (h : pos ≤ s.length) :
    Str.substr s pos len ≠ .error e := by
  rw [Str.substr_ok s pos len h]
  intro h1
  cases h1

theorem Str.substr_length (s r : List Char) (pos len : Nat) (h : Str.substr s pos len = .ok r) :
    r.length ≤ s.length := by
  unfold Str.substr at h
  split at h
  · cases h
  · injection h with h
    subst h
    rw [List.length_take, List.length_drop]
    omega

theorem Str.rfind_bounds (s pat : List Char) (i : Nat) (h : Str.rfind s pat = some i) :
    i ≤ s.length := by
  unfold Str.rfind at h
  have hmem := List.mem_of_find?_eq_some h
  rw [List.mem_reverse, List.mem_range] at hmem
  omega

theorem Str.find_first_not_of_bounds (s : List Char) (i : Nat)
    (h : Str.find_first_not_of s = some i) : i < s.length := by
  unfold Str.find_first_not_of at h
  have hmem := List.mem_of_find?_eq_some h
  rw [List.mem_range] at hmem
  exact hmem

namespace WKTParser

theorem trim_ne_error (str : List Char) (e : Fault) : trim str ≠ .error e := by
  intro h
  unfold trim at h
  split at h
  · cases h
  · rename_i first hfirst
    have hb := Str.find_first_not_of_bounds str first hfirst
    split at h
    · exact Str.substr_ne_error _ _ _ _ (by omega) h
    · exact Str.substr_ne_error _ _ _ _ (by omega) h

theorem ringPoints_ne_error (readDouble : List Char → Option (ℚ × List Char)) (e : Fault) :
    ∀ (pieces : List (List Char)) (vertices : List Point),
      ringPoints readDouble pieces vertices ≠ .error e := by
  intro pieces
  induction pieces with
  | nil =>
    intro vertices h
    cases h
  | cons point_str rest ih =>
    intro vertices h
    unfold ringPoints at h
    split at h
    · rename_i e1 he
      exact trim_ne_error _ _ he
    · split at h
      · exact ih _ h
      · split at h
        · exact ih _ h
        · exact ih _ h

/-- The function `parseSinglePolygonString` throws on no text. -/
theorem parseSinglePolygonString_ne_error (readDouble : List Char → Option (ℚ × List Char))
    (poly_str : List Char) (e : Fault) :
    parseSinglePolygonString readDouble poly_str ≠ .error e := by
  intro h
  unfold parseSinglePolygonString at h
  split at h
  · rename_i start endPos hstart hend
    have hb := Str.rfind_bounds _ _ _ hend
    split at h
    · cases h
    · rename_i hlt
      split at h
      · rename_i e1 he
        exact Str.substr_ne_error _ _ _ _ (by omega) he
      · split at h
        · cases h
        · split at h
          · rename_i e1 he
            exact Str.substr_ne_error _ _ _ _ (by omega) he
          · rename_i first_ring _
            split at h
            · rename_i e1 he
              split at he
              · rename_i hc
                have hlen : 1 ≤ first_ring.length := by
                  cases first_ring with
                  | nil => simp at hc
                  | cons a as => simp
                exact Str.substr_ne_error _ _ _ _ hlen he
              · cases he
            · split at h
              · rename_i e1 he
                exact ringPoints_ne_error readDouble _ _ _ he
              · cases h
  · cases h

/-- The loop of `parseMultiPolygon` neither throws nor runs out of fuel, on
a text of a length that a `std::string` can have, when the fuel covers the
text from `pos` on. -/
theorem polygonsLoop_ne_error (readDouble : List Char → Option (ℚ × List Char))
    (polygons_str : List Char) (hsize : polygons_str.length + 1 < 2 ^ 64) (e : Fault) :
    ∀ (fuel pos : Nat) (polygons : List Polygon),
      polygons_str.length ≤ pos + fuel →
      polygonsLoop readDouble polygons_str fuel pos polygons ≠ .error e := by
  intro fuel
  induction fuel with
  | zero =>
    intro pos polygons hfuel h
    unfold polygonsLoop at h
    split at h
    · omega
    · cases h
  | succ fuel ih =>
    intro pos polygons hfuel h
    unfold polygonsLoop at h
    split at h
    · split at h
      · cases h
      · rename_i poly_start hfind
        have hps := Str.find_bounds _ _ _ _ hfind
        have hadd : Str.sizeAdd poly_start 1 = poly_start + 1 := by
          unfold Str.sizeAdd
          exact Nat.mod_eq_of_lt (by omega)
        split at h
        · cases h
        · rename_i poly_end hparen
          rw [hadd] at hparen
          have hpe := findMatchingParen_bounds _ _ _ hparen
          have hadd1 : Str.sizeAdd poly_end 1 = poly_end + 1 := by
            unfold Str.sizeAdd
            exact Nat.mod_eq_of_lt (by omega)
          split at h
          · rename_i e1 he
            exact Str.substr_ne_error _ _ _ _ hps.2 he
          · split at h
            · rename_i e1 he
              exact parseSinglePolygonString_ne_error readDouble _ _ he
            · rw [hadd1] at h
              exact ih _ _ (by omega) h
    · cases h

theorem parsePolygon_ne_error (readDouble : List Char → Option (ℚ × List Char))
    (wkt : List Char) (zone : Zone) (e : Fault) :
    parsePolygon readDouble wkt zone ≠ .error e := by
  intro h
  unfold parsePolygon at h
  split at h
  · cases h
  · rename_i start hfind
    have hb := Str.find_bounds _ _ _ _ hfind
    simp only at h
    split at h
    · rename_i e1 he
      exact Str.substr_ne_error _ _ _ _ hb.2 he
    · split at h
      · rename_i e1 he
        exact parseSinglePolygonString_ne_error readDouble _ _ he
      · split at h
        · cases h
        · cases h

theorem parseMultiPolygon_ne_error (readDouble : List Char → Option (ℚ × List Char))
    (wkt : List Char) (zone : Zone) (hsize : wkt.length + 1 < 2 ^ 64) (e : Fault) :
    parseMultiPolygon readDouble wkt zone ≠ .error e := by
  intro h
  unfold parseMultiPolygon at h
  split at h
  · cases h
  · rename_i start hfind
    have hb := Str.find_bounds _ _ _ _ hfind
    simp only at h
    split at h
    · rename_i e1 he
      exact Str.substr_ne_error _ _ _ _ hb.2 he
    · rename_i polygons_str hps
      have hlen := Str.substr_length _ _ _ _ hps
      split at h
      · rename_i e1 he
        exact polygonsLoop_ne_error readDouble polygons_str (by omega) _ _ _ _ (by omega) he
      · cases h

/-- The function `parseWKTGeometry` throws on no text of a length that a
`std::string` can have. -/
theorem parseWKTGeometry_ne_error (readDouble : List Char → Option (ℚ × List Char))
    (wkt : List Char) (zone : Zone) (hsize : wkt.length + 1 < 2 ^ 64) (e : Fault) :
    parseWKTGeometry readDouble wkt zone ≠ .error e := by
  intro h
  unfold parseWKTGeometry at h
  simp only at h
  split at h
  · exact parseMultiPolygon_ne_error readDouble wkt zone hsize e h
  · split at h
    · exact parsePolygon_ne_error readDouble wkt zone e h
    · cases h

/-- The geometry parser leaves the id of the zone as it is. -/
theorem parseWKTGeometry_id (readDouble : List Char → Option (ℚ × List Char))
    (wkt : List Char) (zone zone1 : Zone) (ok : Bool)
    (h : parseWKTGeometry readDouble wkt zone = .ok (ok, zone1)) : zone1.id = zone.id := by
  unfold parseWKTGeometry at h
  simp only at h
  split at h
  · unfold parseMultiPolygon at h
    split at h
    · injection h with h
      injection h with _ h
      rw [h]
    · simp only at h
      split at h
      · cases h
      · split at h
        · cases h
        · injection h with h
          injection h with _ h
          rw [← h]
  · split at h
    · unfold parsePolygon at h
      split at h
      · injection h with h
        injection h with _ h
        rw [h]
      · simp only at h
        split at h
        · cases h
        · split at h
          · cases h
          · split at h
            · injection h with h
              injection h with _ h
              rw [← h]
            · injection h with h
              injection h with _ h
              rw [h]
    · injection h with h
      injection h with _ h
      rw [h]

theorem trimQuotes_ne_error (str : List Char) (e : Fault) : trimQuotes str ≠ .error e := by
  intro h
  unfold trimQuotes at h
  split at h
  · cases h
  · have hle : (str.takeWhile isQuoteOrSpace).length ≤ str.length :=
      List.Sublist.length_le (List.takeWhile_sublist _)
    exact Str.substr_ne_error _ _ _ _ hle h

theorem trimQuotes_length (str r : List Char) (h : trimQuotes str = .ok r) :
    r.length ≤ str.length := by
  unfold trimQuotes at h
  split at h
  · injection h with h
    rw [← h]
  · exact Str.substr_length _ _ _ _ h

end WKTParser

/-! ## The zones file, line by line -/

theorem isPrefixOf_single (c : Char) (l : List Char) :
    [c].isPrefixOf l = true ↔ l.head? = some c := by
  cases l with
  | nil => simp [List.isPrefixOf]
  | cons b bs =>
    simp only [List.isPrefixOf, List.head?_cons, Option.some.injEq, Bool.and_true, beq_iff_eq]
    exact eq_comm

theorem takeWhile_eq_take (c : Char) :
    ∀ (s : List Char) (i : Nat), s.get? i = some c →
      (∀ j a, j < i → s.get? j = some a → a ≠ c) →
      s.takeWhile (fun a => a != c) = s.take i := by
  intro s
  induction s with
  | nil => intro i h _; cases h
  | cons a rest ih =>
    intro i h hbefore
    cases i with
    | zero =>
      simp only [List.get?_cons_zero, Option.some.injEq] at h
      subst h
      simp
    | succ j =>
      have ha : a ≠ c := hbefore 0 a (by omega) rfl
      simp only [List.get?_cons_succ] at h
      have hrec := ih j h (fun k b hk hb => hbefore (k + 1) b (by omega) (by simpa using hb))
      rw [List.takeWhile_cons_of_pos (by simpa using ha), List.take_succ_cons, hrec]

theorem Str.find_char_some (s : List Char) (c : Char) (i : Nat)
    (h : Str.find s [c] 0 = some i) :
    s.takeWhile (fun a => a != c) = s.take i ∧ i < s.length ∧ c ∈ s := by
  unfold Str.find at h
  obtain ⟨k, hk, hq, hleast⟩ := find_least _ _ _ h
  have hget : s.get? i = some c := by
    rw [isPrefixOf_single, List.head?_drop] at hq
    rw [List.get?_eq_getElem?]
    exact hq
  have hlt : i < s.length := (List.get?_eq_some.1 hget).1
  refine ⟨takeWhile_eq_take c s i hget ?_, hlt, List.get?_mem hget⟩
  intro j a hj hja hac
  subst hac
  have hki : k = i := by
    have := List.get?_eq_some.1 hk
    obtain ⟨hkl, hkv⟩ := this
    simp only [List.get_eq_getElem, List.getElem_map, List.getElem_range] at hkv
    omega
  subst hki
  have hjl : j < s.length + 1 - 0 := by omega
  have hj2 : ((List.range (s.length + 1 - 0)).map (fun k => 0 + k)).get? j = some j := by
    rw [List.get?_eq_getElem?, List.getElem?_map, List.getElem?_range hjl]
    simp
  have := hleast j j hj hj2
  rw [Bool.eq_false_iff] at this
  apply this
  rw [isPrefixOf_single, List.head?_drop, ← List.get?_eq_getElem?]
  exact hja

theorem Str.find_char_none (s : List Char) (c : Char) (h : Str.find s [c] 0 = none) :
    c ∉ s := by
  unfold Str.find at h
  rw [List.find?_eq_none] at h
  intro hmem
  obtain ⟨k, hk, hkv⟩ := List.mem_iff_getElem.1 hmem
  apply h k
  · rw [List.mem_map]
    exact ⟨k, List.mem_range.2 (by omega), by omega⟩
  · rw [isPrefixOf_single, List.head?_drop, List.getElem?_eq_getElem hk, hkv]

theorem Str.getlines_length (delim : Char) :
    ∀ (s cur : List Char), ∀ line ∈ Str.getlines delim s cur,
      line.length ≤ s.length + cur.length := by
  intro s
  induction s with
  | nil =>
    intro cur line hmem
    unfold Str.getlines at hmem
    split at hmem
    · cases hmem
    · rw [List.mem_singleton] at hmem
      rw [hmem, List.length_reverse]
      omega
  | cons c rest ih =>
    intro cur line hmem
    unfold Str.getlines at hmem
    split at hmem
    · rcases List.mem_cons.1 hmem with h | h
      · rw [h, List.length_reverse, List.length_cons]
        omega
      · have := ih [] line h
        rw [List.length_cons]
        simp only [List.length_nil] at this
        omega
    · have := ih (c :: cur) line hmem
      simp only [List.length_cons] at this ⊢
      omega

namespace WKTParser

/-- The body of the loop of `parseCSV` returns on every line of a length
that a `std::string` can have, with the zone of the line or with none. -/
theorem parseLine_eq (readDouble : List Char → Option (ℚ × List Char)) (line : List Char)
    (hsize : line.length + 1 < 2 ^ 64) :
    parseLine readDouble line = .ok (zoneOfLine readDouble line) := by
  unfold parseLine zoneOfLine
  cases hf : Str.find line [','] 0 with
  | none =>
    have hno := Str.find_char_none _ _ hf
    simp only [if_neg hno]
  | some i =>
    obtain ⟨htw, hlt, hmem⟩ := Str.find_char_some _ _ _ hf
    have hadd : Str.sizeAdd i 1 = i + 1 := by
      unfold Str.sizeAdd
      exact Nat.mod_eq_of_lt (by omega)
    have h1 : Str.substr line 0 i = .ok (line.take i) := by
      rw [Str.substr_ok _ _ _ (Nat.zero_le _)]
      rfl
    have h2 : Str.substr line (i + 1) Str.npos = .ok (line.drop (i + 1)) := by
      rw [Str.substr_ok _ _ _ (by omega)]
      congr 1
      apply List.take_of_length_le
      rw [List.length_drop]
      unfold Str.npos
      omega
    have hlen : (line.take i).length = i := by
      rw [List.length_take]
      omega
    simp only [if_pos hmem, hadd, h1, h2, htw, hlen]
    cases htq : trimQuotes (line.drop (i + 1)) with
    | error e => exact absurd htq (trimQuotes_ne_error _ e)
    | ok wkt =>
      have hw : wkt.length + 1 < 2 ^ 64 := by
        have := trimQuotes_length _ _ htq
        rw [List.length_drop] at this
        omega
      simp only
      cases hp : parseWKTGeometry readDouble wkt (freshZone (String.mk (line.take i))) with
      | error e => exact absurd hp (parseWKTGeometry_ne_error readDouble wkt _ hw e)
      | ok r =>
        obtain ⟨ok, zone⟩ := r
        cases ok <;> rfl

/-- The loop of `parseCSV` over lines of a length that a `std::string` can
have returns, and appends the zones of the lines in their order. -/
theorem parseLines_eq (readDouble : List Char → Option (ℚ × List Char)) :
    ∀ (lines : List (List Char)) (zones : List Zone),
      (∀ line ∈ lines, line.length + 1 < 2 ^ 64) →
      parseLines readDouble lines zones
        = .ok (zones ++ lines.filterMap (zoneOfLine readDouble)) := by
  intro lines
  induction lines with
  | nil =>
    intro zones _
    unfold parseLines
    simp
  | cons line rest ih =>
    intro zones hsize
    unfold parseLines
    rw [parseLine_eq readDouble line (hsize line (List.mem_cons_self _ _))]
    cases hz : zoneOfLine readDouble line with
    | none =>
      simp only
      rw [ih zones (fun l hl => hsize l (List.mem_cons_of_mem _ hl)),
        List.filterMap_cons_none hz]
    | some zone =>
      simp only
      rw [ih _ (fun l hl => hsize l (List.mem_cons_of_mem _ hl)),
        List.filterMap_cons_some hz, List.append_assoc]
      rfl

end WKTParser

namespace WKTParser

/-- C23. For every zones file (a header line followed by data lines) of a
length that a `std::string` can have, `parseCSV` does not abort: it returns,
in file order, exactly one zone for each data line that has a comma and a
geometry accepted by `parseWKTGeometry`, with the id equal to the text
before the first comma; a line with no comma, with an unsupported WKT type
or with an unparsable geometry gives no zone and does not change the zones
of the other lines. A file that cannot be opened gives no zone. -/
theorem parseCSV_spec (readDouble : List Char → Option (ℚ × List Char)) (text : List Char)
    (hsize : text.length + 1 < 2 ^ 64) :
    parseCSV readDouble (some text)
      = .ok (((Str.getlines '\n' text []).drop 1).filterMap (zoneOfLine readDouble)) ∧
    parseCSV readDouble none = .ok [] ∧
    (∀ line z, zoneOfLine readDouble line = some z →
      ',' ∈ line ∧ z.id = String.mk (line.takeWhile (fun c => c != ',')) ∧
      ∃ wkt zone,
        trimQuotes (line.drop ((line.takeWhile (fun c => c != ',')).length + 1)) = .ok wkt ∧
        parseWKTGeometry readDouble wkt
          (freshZone (String.mk (line.takeWhile (fun c => c != ',')))) = .ok (true, zone) ∧
        z = computeBBox zone) ∧
    (∀ line, ',' ∉ line → zoneOfLine readDouble line = none) ∧
    (∀ line wkt,
      trimQuotes (line.drop ((line.takeWhile (fun c => c != ',')).length + 1)) = .ok wkt →
      (∀ zone, parseWKTGeometry readDouble wkt
          (freshZone (String.mk (line.takeWhile (fun c => c != ',')))) ≠ .ok (true, zone)) →
      zoneOfLine readDouble line = none) ∧
    (∀ (before after : List (List Char)) (bad : List Char),
      zoneOfLine readDouble bad = none →
      (before ++ bad :: after).filterMap (zoneOfLine readDouble)
        = (before ++ after).filterMap (zoneOfLine readDouble)) := by
  refine ⟨?_, ?_, ?_, ?_, ?_, ?_⟩
  · unfold parseCSV
    simp only
    rw [parseLines_eq readDouble _ []]
    · rw [List.nil_append]
    · intro line hline
      have hmem : line ∈ Str.getlines '\n' text [] := List.mem_of_mem_drop hline
      have := Str.getlines_length '\n' text [] line hmem
      simp only [List.length_nil] at this
      omega
  · rfl
  · intro line z hz
    unfold zoneOfLine at hz
    split at hz
    · rename_i hmem
      simp only at hz
      split at hz
      · rename_i wkt htq
        split at hz
        · rename_i zone hp
          injection hz with hz
          refine ⟨hmem, ?_, wkt, zone, htq, hp, hz.symm⟩
          rw [← hz]
          exact parseWKTGeometry_id readDouble wkt _ zone true hp
        · cases hz
      · cases hz
    · cases hz
  · intro line hno
    unfold zoneOfLine
    rw [if_neg hno]
  · intro line wkt htq hrej
    unfold zoneOfLine
    by_cases hmem : ',' ∈ line
    · rw [if_pos hmem]
      show (match trimQuotes (line.drop ((line.takeWhile (fun c => c != ',')).length + 1)) with
        | .ok wkt =>
          match parseWKTGeometry readDouble wkt
              (freshZone (String.mk (line.takeWhile (fun c => c != ',')))) with
          | .ok (true, zone) => some (computeBBox zone)
          | _ => none
        | .error _ => none) = none
      rw [htq]
      dsimp only
      cases hp : parseWKTGeometry readDouble wkt
          (freshZone (String.mk (line.takeWhile (fun c => c != ',')))) with
      | error e => rfl
      | ok r =>
        obtain ⟨ok, zone⟩ := r
        cases ok
        · rfl
        · exact absurd hp (hrej zone)
    · rw [if_neg hmem]
  · intro before after bad hbad
    rw [List.filterMap_append, List.filterMap_append, List.filterMap_cons_none hbad]

set_option maxRecDepth 1000000 in
/-- C23 on a zones file of a header and five lines, of which the row without
a comma, the row of an unsupported type and the row without a point give no
zone. -/
theorem parseCSV_spec_witness :
    parseCSV readDecimal (some sampleCSV)
      = .ok (((Str.getlines '\n' sampleCSV []).drop 1).filterMap (zoneOfLine readDecimal)) ∧
    ((Str.getlines '\n' sampleCSV []).drop 1).filterMap (zoneOfLine readDecimal)
      = [ ⟨"A", [⟨[⟨0, 0⟩, ⟨4, 0⟩, ⟨4, 4⟩, ⟨0, 0⟩]⟩], ⟨0, 4, 0, 4⟩⟩,
          ⟨"D", [⟨[⟨10, 10⟩, ⟨14, 10⟩, ⟨14, 14⟩, ⟨10, 10⟩]⟩], ⟨10, 14, 10, 14⟩⟩ ] :=
  ⟨(parseCSV_spec readDecimal sampleCSV (by decide)).1, by with_unfolding_all rfl⟩

end WKTParser

/-! ## The output ETA within the range of the aggregate values -/

namespace CoarseETA

theorem getD_of_get_some (y : List ℚ) (i : Nat) (v : ℚ) (h : y.get? i = some v) :
    i < y.length ∧ y.getD i 0 = v := by
  rw [List.get?_eq_getElem?] at h
  have hi : i < y.length := by
    by_contra hcon
    rw [List.getElem?_eq_none (by omega)] at h
    cases h
  rw [List.getElem?_eq_getElem hi] at h
  refine ⟨hi, ?_⟩
  rw [List.getD_eq_getElem _ _ hi]
  exact Option.some.inj h

/-- The percentile lookup throws no exception: when it does not return, a
read of `y` was out of range. -/
theorem interpolatedEta_error (x y : List ℚ) (r : ℚ) (e : Fault)
    (h : interpolatedEta x y r = .error e) : e = .undefined := by
  unfold interpolatedEta at h
  cases hf : FindStat x y r with
  | ok st => rw [hf] at h; cases h
  | error e1 =>
    rw [hf] at h
    have he : e1 = e := Except.error.inj h
    subst he
    unfold FindStat at hf
    simp only at hf
    have hprev : ∀ (i : Nat) (e2 : Fault),
        (if i ≠ 0 then
          match x.get? (i - 1), y.get? (i - 1) with
          | some xp, some yp =>
            (Except.ok { rank1 := truncToInt xp, eta1 := yp, rank2 := -1, eta2 := -1 } :
              Except Fault StatResult)
          | _, _ => .error .undefined
        else .ok { rank1 := -1, eta1 := -1, rank2 := -1, eta2 := -1 }) = .error e2 →
        e2 = .undefined := by
      intro i e2 h2
      split at h2
      · split at h2
        · cases h2
        · exact (Except.error.inj h2).symm
      · cases h2
    split at hf
    · split at hf
      · split at hf
        · exact (Except.error.inj hf).symm
        · cases hf
      · split at hf
        · rename_i heq
          rw [← Except.error.inj hf]
          exact hprev _ _ heq
        · split at hf
          · exact (Except.error.inj hf).symm
          · cases hf
    · exact hprev _ _ hf

/-- Whatever the length of `y`: when the percentile lookup returns for a
rank in percent between the first and the last rank, the ETA lies between
the first and the last element of a non-decreasing `y`. -/
theorem interpolatedEta_bounds (x y : List ℚ) (hx : IsRankVector x) (hy : y.Sorted (· ≤ ·))
    (hne : x ≠ []) (r : ℚ) (h0 : x.getD 0 0 ≤ r) (h100 : r ≤ x.getD (x.length - 1) 0)
    (hr0 : 0 ≤ r) (hr100 : r ≤ 100) (e : ℚ) (he : interpolatedEta x y r = .ok e) :
    y.getD 0 0 ≤ e ∧ e ≤ y.getD (y.length - 1) 0 := by
  have hpos : 0 < x.length := List.length_pos.2 hne
  obtain ⟨hle, hlt, hge⟩ := lower_bound_spec x r
  have hi : lower_bound x r < x.length := by
    rcases Nat.lt_or_eq_of_le hle with h | h
    · exact h
    · have := hlt (x.length - 1) (by omega)
      exact absurd (lt_of_lt_of_le this h100) (lt_irrefl _)
  have hcur := hge hi
  unfold interpolatedEta FindStat at he
  generalize lower_bound x r = i at hi hlt hcur he
  have hxi : x.get? i = some (x.getD i 0) := by
    rw [List.get?_eq_getElem?, List.getElem?_eq_getElem hi, List.getD_eq_getElem _ _ hi]
  simp only [hxi] at he
  by_cases hex : x.getD i 0 ≤ rankPlusEps r
  · rw [if_pos hex] at he
    cases hyi : y.get? i with
    | none => rw [hyi] at he; cases he
    | some yi =>
      rw [hyi] at he
      obtain ⟨hiy, hv⟩ := getD_of_get_some y i yi hyi
      have he2 : e = yi := by
        simp only [finalEta] at he
        rw [if_neg (by simp)] at he
        exact (Except.ok.inj he).symm
      rw [he2, ← hv]
      exact ⟨sorted_getD_le y hy 0 i (by omega) hiy,
        sorted_getD_le y hy i (y.length - 1) (by omega) (by omega)⟩
  · rw [if_neg hex] at he
    have hi0 : i ≠ 0 := by
      intro h
      rw [h] at hex
      exact hex (le_trans h0 (le_rankPlusEps r hr0 hr100))
    have hxp : x.get? (i - 1) = some (x.getD (i - 1) 0) := by
      have h1 : i - 1 < x.length := by omega
      rw [List.get?_eq_getElem?, List.getElem?_eq_getElem h1, List.getD_eq_getElem _ _ h1]
    rw [if_pos hi0, hxp] at he
    cases hyp : y.get? (i - 1) with
    | none => rw [hyp] at he; cases he
    | some yp =>
      rw [hyp] at he
      cases hyi : y.get? i with
      | none => rw [hyi] at he; cases he
      | some yi =>
        rw [hyi] at he
        obtain ⟨hiy, hv⟩ := getD_of_get_some y i yi hyi
        obtain ⟨hpy, hvp⟩ := getD_of_get_some y (i - 1) yp hyp
        obtain ⟨n, hn0, hn⟩ := hx.whole _ (getD_mem x i hi)
        obtain ⟨m, _, hm⟩ := hx.whole _ (getD_mem x (i - 1) (by omega))
        have hxlt := sorted_getD_lt x hx.ascending (i - 1) i (by omega) hi
        have hprev := hlt (i - 1) (by omega)
        have hylt := sorted_getD_le y hy (i - 1) i (by omega) hiy
        have hy0 := sorted_getD_le y hy 0 (i - 1) (by omega) hpy
        have hy1 := sorted_getD_le y hy i (y.length - 1) (by omega) (by omega)
        rw [hv] at hylt hy1
        rw [hvp] at hylt hy0
        have he2 : e = yp + (yi - yp) * ((r - x.getD (i - 1) 0) / (x.getD i 0 - x.getD (i - 1) 0)) := by
          simp only [finalEta] at he
          rw [hn, hm, truncToInt_intCast, truncToInt_intCast] at he
          rw [if_pos (by omega)] at he
          rw [hn, hm]
          exact (Except.ok.inj he).symm
        have ht0 : 0 ≤ (r - x.getD (i - 1) 0) / (x.getD i 0 - x.getD (i - 1) 0) :=
          div_nonneg (by linarith) (by linarith)
        have ht1 : (r - x.getD (i - 1) 0) / (x.getD i 0 - x.getD (i - 1) 0) ≤ 1 := by
          rw [div_le_one (by linarith)]; linarith
        rw [he2]
        constructor
        · nlinarith
        · nlinarith

end CoarseETA

namespace CoarseETA

/-- C31. Every `ETARequest` that finds its zones, its rank vector `x`, its
aggregate vector `y` and a table with at least one record, and that returns
a value, returns the value of a run without exception, and this `final_eta`
satisfies `y[0] <= final_eta <= y[last]` when `y` is non-decreasing,
whatever the routing engine's `os_eta` is and whatever the order of the
table; and when `y` is as long as `x` the request does return a value. -/
theorem ETARequest_within_range (c : CoarseETA) (w : World) (query : ETAQuery)
    (z1 z2 : String) (x y : List ℚ) (os_eta : ℚ) (t : List ℚ)
    (h : Reaches c w query z1 z2 x y os_eta)
    (hfile : w.files (tableName c.spatialETA_path z1 z2) = some t)
    (hne : t ≠ []) (hy : y.Sorted (· ≤ ·)) :
    (∀ final_eta, ETARequest c w query = some final_eta →
      ETARequestTry c w query = .ok final_eta ∧
      y.getD 0 0 ≤ final_eta ∧ final_eta ≤ y.getD (y.length - 1) 0) ∧
    (y.length = x.length → ∃ final_eta, ETARequest c w query = some final_eta) := by
  obtain ⟨sr, hs, htot, hrank, _⟩ :=
    search_rank c.spatialETA_path w.files z1 z2 os_eta t hfile hne
  obtain ⟨hr0, hr1⟩ := rankAt_bounds t hne os_eta _ hrank
  obtain ⟨hp0, _, hp1⟩ := rankPercent_mono sr sr t.length htot htot _ _ hr0 (le_refl _) hr1
  have hxc := ranks_cases c.aggregate_type x h.ranks
  have hrv := isRankVector_of_ranks x hxc
  have hxne : x ≠ [] := by rcases hxc with h | h | h <;> subst h <;> simp
  have hfirst : x.getD 0 0 = 0 := by rcases hxc with h | h | h <;> subst h <;> rfl
  have hlast : x.getD (x.length - 1) 0 = 100 := by rcases hxc with h | h | h <;> subst h <;> rfl
  have htry := ETARequestTry_of_reaches c w query z1 z2 x y os_eta h
  rw [hs] at htry
  simp only at htry
  constructor
  · intro final_eta hfin
    unfold ETARequest at hfin
    rw [htry] at hfin ⊢
    cases hint : interpolatedEta x y (rankPercent sr (rankOf sr os_eta)) with
    | error e =>
      rw [hint] at hfin
      have hu := interpolatedEta_error x y _ e hint
      subst hu
      cases hfin
    | ok eta =>
      rw [hint] at hfin
      have : eta = final_eta := Option.some.inj hfin
      subst this
      exact ⟨rfl, interpolatedEta_bounds x y hrv hy hxne _ (by rw [hfirst]; exact hp0)
        (by rw [hlast]; exact hp1) hp0 hp1 eta hint⟩
  · intro hlen
    obtain ⟨e1, _, he1, _, _⟩ := interpolatedEta_mono x y hlen hrv hy hxne
      (rankPercent sr (rankOf sr os_eta)) (rankPercent sr (rankOf sr os_eta))
      (by rw [hfirst]; exact hp0) (le_refl _) (by rw [hlast]; exact hp1) (le_of_eq hlast)
    exact ⟨e1, ETARequest_of_reaches c w query z1 z2 x y os_eta sr e1 h hs he1⟩

set_option maxRecDepth 100000 in
/-- C31 on the small installation with the table `[10, 30, 50, 70, 90]` and
the routing engine's ETA 40: the request returns 150, between the first
aggregate value 50 and the last one 800. -/
theorem ETARequest_within_range_witness :
    ETARequest sampleETA (sampleWorld [10, 30, 50, 70, 90] (.ok 40) (some sampleTm)) sampleQuery
      = some 150 ∧
    ETARequestTry sampleETA (sampleWorld [10, 30, 50, 70, 90] (.ok 40) (some sampleTm))
      sampleQuery = .ok 150 ∧
    ([50, 100, 200, 400, 800] : List ℚ).getD 0 0 ≤ 150 ∧
    (150 : ℚ) ≤ ([50, 100, 200, 400, 800] : List ℚ).getD
      (([50, 100, 200, 400, 800] : List ℚ).length - 1) 0 :=
  have hrun : ETARequest sampleETA
      (sampleWorld [10, 30, 50, 70, 90] (.ok 40) (some sampleTm)) sampleQuery = some 150 := by
    with_unfolding_all rfl
  ⟨hrun,
    (ETARequest_within_range sampleETA
      (sampleWorld [10, 30, 50, 70, 90] (.ok 40) (some sampleTm)) sampleQuery "A" "B"
      [0, 25, 50, 75, 100] [50, 100, 200, 400, 800] 40 [10, 30, 50, 70, 90]
      (sample_reaches [10, 30, 50, 70, 90] 40) rfl (by simp)
      (by norm_num [List.Sorted])).1 150 hrun⟩

end CoarseETA

/-! ## The lengths of the aggregate vectors and the unset object -/

namespace CoarseETA

theorem loadEntries_sized (f64 : List Nat → ℚ) (stack : Uninit) :
    ∀ (remaining i : Nat) (f : IStream) (hash_table : List (String × AggregateValues)),
      (∀ e ∈ hash_table, e.2.Sized) →
      ∀ e ∈ loadEntries f64 stack remaining i f hash_table, e.2.Sized
  | 0, _, _, _, h => h
  | remaining + 1, i, f, hash_table, h => by
    unfold loadEntries
    apply loadEntries_sized f64 stack remaining
    intro e he
    unfold mapSet at he
    rcases List.mem_cons.1 he with rfl | hm
    · exact ⟨rfl, rfl, rfl⟩
    · exact h e (List.mem_filter.1 hm).1

/-- Every entry that `setup_hash_table` puts into an empty map has vectors
of 2, 3 and 5 elements, whatever the file holds. -/
theorem setup_hash_table_sized (f64 : List Nat → ℚ) (stack : Uninit) (file : Option (List Nat))
    (e : String × AggregateValues) (he : e ∈ setup_hash_table f64 stack file []) :
    e.2.Sized := by
  unfold setup_hash_table at he
  exact loadEntries_sized f64 stack _ _ _ [] (fun _ h => absurd h (List.not_mem_nil _)) e he

/-- The `try` block of an object whose aggregate type is not set: the rank
vector is not found and `std::map::at` throws, before `field` is read. -/
theorem ETARequestTry_unset (c : CoarseETA) (w : World) (query : ETAQuery) (z1 z2 : String)
    (htype : c.aggregate_type = "")
    (hstart : c.spatial_index.findZoneContainingPoint query.start_long query.start_lat = .ok z1)
    (hend : c.spatial_index.findZoneContainingPoint query.end_long query.end_lat = .ok z2) :
    ETARequestTry c w query = .error (.exception "map::at") := by
  unfold ETARequestTry
  simp only [bind, Except.bind, hstart, hend, htype]
  rfl

/-- C32. For an object whose hash index was loaded by `setup_hash_table`:
after a successful `setAggregateTypeField(type)` the rank vector
`x = aggregate_ranks[type]` is found and has 2, 3 or 5 elements, and for
every entry of the hash index the selected vector `y` is as long as `x`, so
that `FindStat` returns for every `rank_p` without a read of `y` beyond its
end; and while no call has succeeded (a refused call leaves the object
unset) every `ETARequest` whose two zone lookups return yields `-1.0`. -/
theorem setAggregateTypeField_lengths (f64 : List Nat → ℚ) (stack : Uninit)
    (file : Option (List Nat)) (c : CoarseETA)
    (hload : c.hash_table = setup_hash_table f64 stack file []) :
    (∀ type : String, (setAggregateTypeField c type).1 = .ok () →
      ∃ (x : List ℚ) (field : PercentileField),
        mapAt aggregate_ranks (setAggregateTypeField c type).2.aggregate_type = .ok x ∧
        (setAggregateTypeField c type).2.aggregate_type = type ∧
        (setAggregateTypeField c type).2.field = some field ∧
        (x.length = 2 ∨ x.length = 3 ∨ x.length = 5) ∧
        ∀ (key : String) (values : AggregateValues),
          (key, values) ∈ (setAggregateTypeField c type).2.hash_table →
          (values.select field).length = x.length ∧
          ∀ rank_p : ℚ, ∃ stat_result,
            FindStat x (values.select field) rank_p = .ok stat_result) ∧
    (c.Unset →
      (∀ (type : String) (e : Fault), (setAggregateTypeField c type).1 = .error e →
        (setAggregateTypeField c type).2 = c) ∧
      ∀ (w : World) (query : ETAQuery) (z1 z2 : String),
        c.spatial_index.findZoneContainingPoint query.start_long query.start_lat = .ok z1 →
        c.spatial_index.findZoneContainingPoint query.end_long query.end_lat = .ok z2 →
        ETARequest c w query = some (-1)) := by
  refine ⟨?_, fun hunset => ⟨?_, ?_⟩⟩
  · intro type h
    have hsized : ∀ (key : String) (values : AggregateValues),
        (key, values) ∈ c.hash_table → values.Sized := by
      intro key values hm
      rw [hload] at hm
      exact setup_hash_table_sized f64 stack file (key, values) hm
    unfold setAggregateTypeField at h ⊢
    split_ifs at h ⊢ with h1 h2 h3
    · subst h1
      refine ⟨[0, 25, 50, 75, 100], .percentiles, rfl, rfl, rfl, Or.inr (Or.inr rfl), ?_⟩
      intro key values hm
      have hl : (values.select .percentiles).length = ([0, 25, 50, 75, 100] : List ℚ).length :=
        (hsized key values hm).2.2
      exact ⟨hl, fun rank_p => ⟨_, FindStat_eq _ _ rank_p hl⟩⟩
    · subst h2
      refine ⟨[0, 50, 100], .min_med_max, rfl, rfl, rfl, Or.inr (Or.inl rfl), ?_⟩
      intro key values hm
      have hl : (values.select .min_med_max).length = ([0, 50, 100] : List ℚ).length :=
        (hsized key values hm).2.1
      exact ⟨hl, fun rank_p => ⟨_, FindStat_eq _ _ rank_p hl⟩⟩
    · subst h3
      refine ⟨[0, 100], .min_max, rfl, rfl, rfl, Or.inl rfl, ?_⟩
      intro key values hm
      have hl : (values.select .min_max).length = ([0, 100] : List ℚ).length :=
        (hsized key values hm).1
      exact ⟨hl, fun rank_p => ⟨_, FindStat_eq _ _ rank_p hl⟩⟩
  · intro type e h
    unfold setAggregateTypeField at h ⊢
    split_ifs at h ⊢ with h1 h2 h3
    rfl
  · intro w query z1 z2 hstart hend
    unfold ETARequest
    rw [ETARequestTry_unset c w query z1 z2 hunset.2 hstart hend]

set_option maxRecDepth 100000 in
/-- C32 on the small installation, with the hash index loaded from a file
of one entry: before any call the sample query yields `-1.0`, the refused
type "median" leaves the object as it was, and after "percentiles" the
vector of the entry has the 5 elements of the rank vector and `FindStat`
returns for the rank 30. -/
theorem setAggregateTypeField_lengths_witness :
    ETARequest freshETA (sampleWorld [10, 90] (.ok 50) (some sampleTm)) sampleQuery = some (-1) ∧
    (setAggregateTypeField freshETA "median").2 = freshETA ∧
    ∃ (x : List ℚ) (field : PercentileField),
      mapAt aggregate_ranks (setAggregateTypeField freshETA "percentiles").2.aggregate_type
        = .ok x ∧
      (setAggregateTypeField freshETA "percentiles").2.field = some field ∧
      (x.length = 2 ∨ x.length = 3 ∨ x.length = 5) ∧
      (AggregateValues.select ⟨[50, 800], [50, 200, 800], [50, 100, 200, 400, 800]⟩ field).length
        = x.length ∧
      ∃ stat_result,
        FindStat x
          (AggregateValues.select ⟨[50, 800], [50, 200, 800], [50, 100, 200, 400, 800]⟩ field)
          30 = .ok stat_result :=
  have h := setAggregateTypeField_lengths sampleF64 zeroStack
    (some (encodeIndex sampleEnc
      [("A,B,4,4,0", [50, 800, 50, 200, 800, 50, 100, 200, 400, 800])])) freshETA rfl
  ⟨(h.2 ⟨rfl, rfl⟩).2 _ sampleQuery "A" "B" (by with_unfolding_all rfl)
      (by with_unfolding_all rfl),
    (h.2 ⟨rfl, rfl⟩).1 "median" _ rfl,
    (h.1 "percentiles" rfl).imp fun _ hx => hx.imp fun _ hf =>
      ⟨hf.1, hf.2.2.1, hf.2.2.2.1,
        (hf.2.2.2.2 "A,B,4,4,0" ⟨[50, 800], [50, 200, 800], [50, 100, 200, 400, 800]⟩
          (by decide)).1,
        (hf.2.2.2.2 "A,B,4,4,0" ⟨[50, 800], [50, 200, 800], [50, 100, 200, 400, 800]⟩
          (by decide)).2 30⟩⟩

end CoarseETA
